import Mathlib

/-!
# envigo: environment variables into tagged struct fields

A shallow embedding of `parser.go` (package `envigo`) and of the parts of the Go
standard library it calls (`strconv.ParseBool`, `strconv.ParseInt`,
`strconv.ParseUint`, `strings.Split`, `time.ParseDuration`), followed by theorems about
`Parse`.

Modelling conventions.

* A `reflect.Value` is a `Value`: a tree that carries the type information reflection can
  observe (bit sizes, element types, type names, the receiver kind of a declared
  `UnmarshalText` method).  A pointer owns its pointee, so aliasing between two pointers
  is outside the model, and so are interface-typed fields.  The one aliasing the code
  creates itself is modelled: a method with a value receiver runs on a copy of the value,
  which shares the elements of its slices and the pointees of its pointers with the
  value (`shared`).
* Mutation in place is explicit state passing: every function returns the updated value
  next to an `Outcome`.  A Go run-time panic is the outcome `crash`.
* Go strings are Lean strings; the library functions modelled here branch on ASCII bytes
  only, so reading them character by character agrees with reading them byte by byte.
* Machine integers are `Int`/`Nat` with explicit reduction modulo `2 ^ 64` where the Go
  code can wrap around.
* `strconv.ParseFloat`, `time.ParseDuration`, user supplied `UnmarshalText` methods, the
  process environment and the rendering of error messages are parameters, collected in
  `Ctx`.  A floating point number is represented by its IEEE bit pattern.
* `ParseDuration` models `time.ParseDuration` for the contexts that fix that parameter of
  `Ctx`; the `float64` product it computes for a fractional part is a parameter of the
  model, and texts without a `.` do not depend on it.
-/

namespace Envigo

/-! ## Reflected types and values -/

/-- Receiver kind of a declared `UnmarshalText` method. -/
inductive Recv where
  | value
  | pointer
deriving DecidableEq, Repr

/-- A struct field as seen through reflection: `Name`, the result of
`Tag.Lookup("env")`, `CanSet()` and the payload (a type or a value). -/
structure Field (α : Type) where
  Name : String
  tag : Option String
  canSet : Bool
  val : α
deriving Repr

/-- Go types. `int bits` covers `int`, `int8`, ..., `int64` (and likewise `uint`, `float`);
`named` is a defined type together with the receiver kind of its `UnmarshalText`
method, if it declares one; `other` is any remaining kind (`uintptr`, `map`, ...). -/
inductive GoType where
  | bool
  | string
  | int (bits : Nat)
  | uint (bits : Nat)
  | float (bits : Nat)
  | array (len : Nat) (elem : GoType)
  | slice (elem : GoType)
  | ptr (elem : GoType)
  | struct (fields : List (Field GoType))
  | named (pkg name : String) (recv : Option Recv) (underlying : GoType)
  | other (kind : String)
deriving Repr

/-- Go values together with their dynamic type. -/
inductive Value where
  | bool (b : Bool)
  | string (s : String)
  | int (bits : Nat) (n : Int)
  | uint (bits : Nat) (n : Nat)
  | float (bits : Nat) (pattern : Nat)
  | array (elem : GoType) (elems : List Value)
  | slice (elem : GoType) (elems : List Value)
  | ptr (elem : GoType) (target : Option Value)
  | struct (fields : List (Field Value))
  | named (pkg name : String) (recv : Option Recv) (underlying : Value)
  | other (kind : String)
deriving Repr

/-- The kinds `parseStruct` distinguishes (`reflect.Kind`, integer widths merged). -/
inductive Kind where
  | Bool
  | String
  | Int
  | Uint
  | Float
  | Array
  | Slice
  | Ptr
  | Struct
  | Other
deriving DecidableEq, Repr

/-- `Type.Kind()`. -/
def GoType.kind : GoType → Kind
  | .bool => .Bool
  | .string => .String
  | .int _ => .Int
  | .uint _ => .Uint
  | .float _ => .Float
  | .array _ _ => .Array
  | .slice _ => .Slice
  | .ptr _ => .Ptr
  | .struct _ => .Struct
  | .named _ _ _ u => u.kind
  | .other _ => .Other

/-- `Type.Bits()`. -/
def GoType.bits : GoType → Nat
  | .int b => b
  | .uint b => b
  | .float b => b
  | .named _ _ _ u => u.bits
  | _ => 0

/-- `t.PkgPath() == "time" && t.Name() == "Duration"`. -/
def GoType.isDuration : GoType → Bool
  | .named p n _ _ => p == "time" && n == "Duration"
  | _ => false

/-- `Value.Kind()`. -/
def Value.kind : Value → Kind
  | .bool _ => .Bool
  | .string _ => .String
  | .int _ _ => .Int
  | .uint _ _ => .Uint
  | .float _ _ => .Float
  | .array _ _ => .Array
  | .slice _ _ => .Slice
  | .ptr _ _ => .Ptr
  | .struct _ => .Struct
  | .named _ _ _ u => u.kind
  | .other _ => .Other

/-- `Value.Type().Bits()`. -/
def Value.bits : Value → Nat
  | .int b _ => b
  | .uint b _ => b
  | .float b _ => b
  | .named _ _ _ u => u.bits
  | _ => 0

/-- `v.Type().PkgPath() == "time" && v.Type().Name() == "Duration"`. -/
def Value.isDuration : Value → Bool
  | .named p n _ _ => p == "time" && n == "Duration"
  | _ => false

/-- `Value.Type().Elem()` of an array or slice. -/
def Value.elemType : Value → GoType
  | .array e _ => e
  | .slice e _ => e
  | .named _ _ _ u => u.elemType
  | _ => .other "invalid"

/-- The elements `Value.Index` ranges over. -/
def Value.elems : Value → List Value
  | .array _ es => es
  | .slice _ es => es
  | .named _ _ _ u => u.elems
  | _ => []

mutual
/-- `reflect.Zero`. -/
def zero : GoType → Value
  | .bool => .bool false
  | .string => .string ""
  | .int b => .int b 0
  | .uint b => .uint b 0
  | .float b => .float b 0
  | .array n e => .array e (List.replicate n (zero e))
  | .slice e => .slice e []
  | .ptr e => .ptr e none
  | .struct fs => .struct (zeroFields fs)
  | .named p n r u => .named p n r (zero u)
  | .other k => .other k
/-- The zero value of every field of a struct type. -/
def zeroFields : List (Field GoType) → List (Field Value)
  | [] => []
  | f :: fs => ⟨f.Name, f.tag, f.canSet, zero f.val⟩ :: zeroFields fs
end

/-- Conversion `intN(x)` of an `int64`. -/
def truncInt (bits : Nat) (x : Int) : Int :=
  (x + 2 ^ (bits - 1)) % 2 ^ bits - 2 ^ (bits - 1)

/-- Conversion `uintN(x)` of a `uint64`. -/
def truncUint (bits : Nat) (x : Nat) : Nat :=
  x % 2 ^ bits

/-- `Value.SetBool`; `none` is the panic of reflection on a value of another kind. -/
def Value.setBool : Value → Bool → Option Value
  | .bool _, b => some (.bool b)
  | .named p n r u, b => (u.setBool b).map (.named p n r)
  | _, _ => none

/-- `Value.SetString`. -/
def Value.setString : Value → String → Option Value
  | .string _, s => some (.string s)
  | .named p n r u, s => (u.setString s).map (.named p n r)
  | _, _ => none

/-- `Value.SetInt`. -/
def Value.setInt : Value → Int → Option Value
  | .int bits _, x => some (.int bits (truncInt bits x))
  | .named p n r u, x => (u.setInt x).map (.named p n r)
  | _, _ => none

/-- `Value.SetUint`. -/
def Value.setUint : Value → Nat → Option Value
  | .uint bits _, x => some (.uint bits (truncUint bits x))
  | .named p n r u, x => (u.setUint x).map (.named p n r)
  | _, _ => none

/-- `Value.SetFloat`, on bit patterns. -/
def Value.setFloat : Value → Nat → Option Value
  | .float bits _, x => some (.float bits x)
  | .named p n r u, x => (u.setFloat x).map (.named p n r)
  | _, _ => none

/-- Store a new element sequence in an array or slice value, keeping its type. -/
def Value.setElems : Value → List Value → Option Value
  | .array e _, es => some (.array e es)
  | .slice e _, es => some (.slice e es)
  | .named p n r u, es => (u.setElems es).map (.named p n r)
  | _, _ => none

/-! ## Errors and outcomes -/

/-- The error values of the package. -/
inductive Error where
  | ErrNotStructPtr
  | EmptyVarNameError (fieldName : String)
  | ParseError (fieldName varName cause : String)
  | UnparsableTypeError (fieldName : String)
deriving DecidableEq, Repr

/-- How a call ends: `nil` error, an error, or a run-time panic. -/
inductive Outcome where
  | ok
  | err (e : Error)
  | crash
deriving DecidableEq, Repr

/-- What a call of a user `UnmarshalText` method does: it panics, or it returns an error
(`none` for `nil`) and leaves `recv` in the receiver (for a value receiver, in its copy of
the value it was called on). -/
inductive CallResult where
  | crash
  | returns (recv : Value) (err : Option String)

/-- The two sentinel errors of `strconv`. -/
inductive NumErrKind where
  | ErrSyntax
  | ErrRange
deriving DecidableEq, Repr

/-- The `strconv.NumError` record. -/
structure NumError where
  Func : String
  Num : String
  Err : NumErrKind
deriving DecidableEq, Repr

/-- Everything `parseStruct` takes from outside the package. -/
structure Ctx where
  /-- `os.LookupEnv`. -/
  lookupEnv : String → Option String
  /-- `strconv.ParseFloat(s, bitSize)`: the bit pattern of the result, or `err.Error()`. -/
  parseFloat : String → Nat → Except String Nat
  /-- `time.ParseDuration(s)`: nanoseconds, or `err.Error()`. -/
  parseDuration : String → Except String Int
  /-- The `UnmarshalText` method of the type `pkg.name`, run on a receiver (`none` is a
  nil pointer receiver) and a text: what it leaves in the receiver, and its error. -/
  unmarshalText : String → String → Option Value → String → CallResult
  /-- `strconv.Quote`. -/
  quote : String → String
  /-- The `Error()` methods of the error values of the package (declared in a file that
  is not part of the sources at hand). -/
  errorText : Error → String

/-- `os.Getenv`. -/
def Ctx.getenv (ctx : Ctx) (name : String) : String :=
  (ctx.lookupEnv name).getD ""

/-- `NumError.Error()`. -/
def NumError.Error (ctx : Ctx) (e : NumError) : String :=
  "strconv." ++ e.Func ++ ": parsing " ++ ctx.quote e.Num ++ ": " ++
    (match e.Err with
     | .ErrSyntax => "invalid syntax"
     | .ErrRange => "value out of range")

/-! ## Library functions: `strings.Split` and `strconv` -/

/-- `strings.Split(s, ",")` on the characters of `s`. -/
def splitComma : List Char → List (List Char)
  | [] => [[]]
  | c :: cs =>
    if c = ',' then [] :: splitComma cs
    else
      match splitComma cs with
      | [] => [[c]]
      | p :: ps => (c :: p) :: ps

/-- `strings.Split(s, ",")`. -/
def Split (s : String) : List String :=
  (splitComma s.toList).map String.mk

/-- `strconv.ParseBool`: the value and the error. -/
def ParseBool (str : String) : Bool × Option NumError :=
  if str = "1" ∨ str = "t" ∨ str = "T" ∨ str = "true" ∨ str = "TRUE" ∨ str = "True" then
    (true, none)
  else if str = "0" ∨ str = "f" ∨ str = "F" ∨ str = "false" ∨ str = "FALSE" ∨ str = "False" then
    (false, none)
  else (false, some ⟨"ParseBool", str, .ErrSyntax⟩)

/-- `lower(c)` of `strconv`: `c | ('x' - 'X')`, on the code of the character. -/
def lower (c : Char) : Nat :=
  c.toNat ||| 0x20

/-- The value of a digit character in `strconv.ParseUint`, before the comparison with the
base; `none` is the `default` branch (syntax error). -/
def digitVal (c : Char) : Option Nat :=
  if 48 ≤ c.toNat ∧ c.toNat ≤ 57 then some (c.toNat - 48)
  else if 97 ≤ lower c ∧ lower c ≤ 122 then some (lower c - 97 + 10)
  else none

/-- The digit loop of `strconv.ParseUint`; the accumulator `n` is a `uint64`. The result is
the accumulator with the `underscores` flag, or the sentinel error. -/
def parseUintLoop (base : Nat) (base0 : Bool) (cutoff maxVal : Nat) :
    List Char → Nat → Bool → Except NumErrKind (Nat × Bool)
  | [], n, underscores => .ok (n, underscores)
  | c :: cs, n, underscores =>
    if c = '_' ∧ base0 = true then parseUintLoop base base0 cutoff maxVal cs n true
    else
      match digitVal c with
      | none => .error .ErrSyntax
      | some d =>
        if d ≥ base then .error .ErrSyntax
        else if n ≥ cutoff then .error .ErrRange
        else
          let n' := (n * base) % 2 ^ 64
          let n1 := (n' + d) % 2 ^ 64
          if n1 < n' ∨ n1 > maxVal then .error .ErrRange
          else parseUintLoop base base0 cutoff maxVal cs n1 underscores

/-- The loop of `strconv.underscoreOK` over the number proper; `saw` is the last
character class seen. -/
def underscoreLoop (hex : Bool) : List Char → Char → Bool
  | [], saw => saw != '_'
  | c :: cs, saw =>
    if (48 ≤ c.toNat ∧ c.toNat ≤ 57) ∨ (hex = true ∧ 97 ≤ lower c ∧ lower c ≤ 102) then
      underscoreLoop hex cs '0'
    else if c = '_' then
      if saw != '0' then false else underscoreLoop hex cs '_'
    else if saw = '_' then false
    else underscoreLoop hex cs '!'

/-- `strconv.underscoreOK`. -/
def underscoreOK (s : List Char) : Bool :=
  let s := match s with
    | c :: cs => if c = '-' ∨ c = '+' then cs else s
    | [] => s
  match s with
  | c0 :: c1 :: rest =>
    if c0 = '0' ∧ (lower c1 = 98 ∨ lower c1 = 111 ∨ lower c1 = 120) then
      underscoreLoop (lower c1 == 120) rest '0'
    else underscoreLoop false s '^'
  | _ => underscoreLoop false s '^'

/-- The base and the remaining digits chosen by `strconv.ParseUint` for `base == 0`. -/
def basePrefix (s : List Char) : Nat × List Char :=
  match s with
  | '0' :: rest =>
    match rest with
    | c1 :: c2 :: rest' =>
      if lower c1 = 98 then (2, c2 :: rest')
      else if lower c1 = 111 then (8, c2 :: rest')
      else if lower c1 = 120 then (16, c2 :: rest')
      else (8, rest)
    | _ => (8, rest)
  | _ => (10, s)

/-- `strconv.ParseUint(s, 0, bitSize)` for `0 < bitSize ≤ 64`: the value and the error. -/
def ParseUint (s : String) (bitSize : Nat) : Nat × Option NumError :=
  if s = "" then (0, some ⟨"ParseUint", s, .ErrSyntax⟩)
  else
    let (base, digits) := basePrefix s.toList
    let cutoff := (2 ^ 64 - 1) / base + 1
    let maxVal := (2 ^ bitSize - 1) % 2 ^ 64
    match parseUintLoop base true cutoff maxVal digits 0 false with
    | .error .ErrSyntax => (0, some ⟨"ParseUint", s, .ErrSyntax⟩)
    | .error .ErrRange => (maxVal, some ⟨"ParseUint", s, .ErrRange⟩)
    | .ok (n, underscores) =>
      if underscores = true ∧ underscoreOK s.toList = false then
        (0, some ⟨"ParseUint", s, .ErrSyntax⟩)
      else (n, none)

/-- The leading sign picked off by `strconv.ParseInt`: the flag `neg` and the rest. -/
def pickSign : List Char → Bool × List Char
  | '+' :: cs => (false, cs)
  | '-' :: cs => (true, cs)
  | cs => (false, cs)

/-- `strconv.ParseInt(s, 0, bitSize)` for `0 < bitSize ≤ 64`: the value and the error. -/
def ParseInt (s : String) (bitSize : Nat) : Int × Option NumError :=
  if s = "" then (0, some ⟨"ParseInt", s, .ErrSyntax⟩)
  else
    let (neg, rest) := pickSign s.toList
    let (un, err) := ParseUint (String.mk rest) bitSize
    if err.isSome = true ∧ err.map NumError.Err ≠ some .ErrRange then
      (0, some ⟨"ParseInt", s, .ErrSyntax⟩)
    else
      let cutoff := 2 ^ (bitSize - 1) % 2 ^ 64
      if neg = false ∧ un ≥ cutoff then
        ((cutoff : Int) - 1, some ⟨"ParseInt", s, .ErrRange⟩)
      else if neg = true ∧ un > cutoff then
        (-(cutoff : Int), some ⟨"ParseInt", s, .ErrRange⟩)
      else
        let n : Int := truncInt 64 un
        (if neg then truncInt 64 (-n) else n, none)

/-! ## The parser -/

/-- The test `_, ok := v.Interface().(encoding.TextUnmarshaler)`: the method set of a
defined type holds its value-receiver methods, that of a pointer to a defined type holds
all its methods. -/
def implementsValue : Value → Bool
  | .named _ _ (some .value) _ => true
  | .ptr (.named _ _ (some _) _) _ => true
  | _ => false

/-- The test `_, ok := v.Addr().Interface().(encoding.TextUnmarshaler)`. -/
def implementsAddr : Value → Bool
  | .named _ _ (some _) _ => true
  | _ => false

mutual
/-- What a method with a value receiver leaves in the value `v` it is called on. The
receiver is a copy of `v`; the copy shares with `v` the elements of its slices and the
pointees of its pointers, and nothing else. `w` is the copy after the call, read at the
storage it had when the call began. Of `w`, only that shared storage reaches `v`: the
elements of a slice (a slice of another length is not a view of the same elements), the
pointee of a non-nil pointer, and the same inside arrays, structs and defined types.
Strings are immutable, and the contents of maps and channels are not part of a
`Value`. -/
def shared : Value → Value → Value
  | .slice e es, w =>
    match w with
    | .slice _ es' => if es'.length = es.length then .slice e es' else .slice e es
    | _ => .slice e es
  | .ptr ty (some t), w =>
    match w with
    | .ptr _ (some t') => .ptr ty (some t')
    | _ => .ptr ty (some t)
  | .named p n r u, w =>
    match w with
    | .named _ _ _ u' => .named p n r (shared u u')
    | _ => .named p n r u
  | .array e es, w =>
    match w with
    | .array _ es' => .array e (sharedList es es')
    | _ => .array e es
  | .struct fs, w =>
    match w with
    | .struct fs' => .struct (sharedFields fs fs')
    | _ => .struct fs
  | v, _ => v
/-- The elements of an array, position by position. -/
def sharedList : List Value → List Value → List Value
  | [], _ => []
  | d :: ds, ws =>
    match ws with
    | w :: ws' => shared d w :: sharedList ds ws'
    | [] => d :: ds
/-- The fields of a struct, position by position. -/
def sharedFields : List (Field Value) → List (Field Value) → List (Field Value)
  | [], _ => []
  | f :: fs, gs =>
    match gs with
    | g :: gs' => ⟨f.Name, f.tag, f.canSet, shared f.val g.val⟩ :: sharedFields fs gs'
    | [] => f :: fs
end

/-- The call `v.Interface().(encoding.TextUnmarshaler).UnmarshalText([]byte(text))`.
`Interface()` copies the value, so a value receiver works on a copy, of which the shared
storage reaches the field (`shared`); a pointer receiver works on the pointee. A
value-receiver method called through a nil pointer panics; a failed type assertion
panics. -/
def callValue (ctx : Ctx) (v : Value) (text : String) : CallResult :=
  match v with
  | .named p n (some .value) _ =>
    match ctx.unmarshalText p n (some v) text with
    | .crash => .crash
    | .returns v' err => .returns (shared v v') err
  | .ptr (.named p n (some r) _) none =>
    match r with
    | .value => .crash
    | .pointer =>
      match ctx.unmarshalText p n none text with
      | .crash => .crash
      | .returns _ err => .returns v err
  | .ptr (.named p n (some r) u) (some t) =>
    match ctx.unmarshalText p n (some t) text with
    | .crash => .crash
    | .returns t' err =>
      .returns (.ptr (.named p n (some r) u)
        (some (match r with
               | .pointer => t'
               | .value => shared t t'))) err
  | _ => .crash

/-- The call `v.Addr().Interface().(encoding.TextUnmarshaler).UnmarshalText([]byte(text))`:
the receiver is the address of `v` for a pointer receiver, a copy of `v` for a value
receiver. -/
def callAddr (ctx : Ctx) (v : Value) (text : String) : CallResult :=
  match v with
  | .named p n (some r) _ =>
    match ctx.unmarshalText p n (some v) text with
    | .crash => .crash
    | .returns v' err =>
      .returns (match r with
                | .pointer => v'
                | .value => shared v v') err
  | _ => .crash

/-- `parseAsTextUnmarshaler(fieldVal, envName)` for an addressable `fieldVal` (every value
`parseStruct` passes is addressable; the address it recurses on is not). `none` is the
result `false, nil`; otherwise the value left in `fieldVal` and the error returned. -/
def parseAsTextUnmarshaler (ctx : Ctx) (fieldVal : Value) (envName : String) :
    Option CallResult :=
  if implementsValue fieldVal = true then some (callValue ctx fieldVal (ctx.getenv envName))
  else if implementsAddr fieldVal = true then
    some (callAddr ctx fieldVal (ctx.getenv envName))
  else none

/-- A successful `Set...` call, or the panic of reflection. -/
def stored (o : Option Value) : CallResult :=
  match o with
  | some v => .returns v none
  | none => .crash

/-- `time.ParseDuration` followed by `SetInt(int64(val))`. -/
def decodeDuration (ctx : Ctx) (v : Value) (text : String) : CallResult :=
  match ctx.parseDuration text with
  | .error msg => .returns v (some msg)
  | .ok d => stored (v.setInt d)

/-- `strconv.ParseBool` followed by `SetBool`. -/
def decodeBool (ctx : Ctx) (v : Value) (text : String) : CallResult :=
  match ParseBool text with
  | (_, some e) => .returns v (some (e.Error ctx))
  | (b, none) => stored (v.setBool b)

/-- `SetString`. -/
def decodeString (v : Value) (text : String) : CallResult :=
  stored (v.setString text)

/-- `strconv.ParseInt(text, 0, bits)` followed by `SetInt`. -/
def decodeInt (ctx : Ctx) (bits : Nat) (v : Value) (text : String) : CallResult :=
  match ParseInt text bits with
  | (_, some e) => .returns v (some (e.Error ctx))
  | (n, none) => stored (v.setInt n)

/-- `strconv.ParseUint(text, 0, bits)` followed by `SetUint`. -/
def decodeUint (ctx : Ctx) (bits : Nat) (v : Value) (text : String) : CallResult :=
  match ParseUint text bits with
  | (_, some e) => .returns v (some (e.Error ctx))
  | (n, none) => stored (v.setUint n)

/-- `strconv.ParseFloat(text, bits)` followed by `SetFloat`. -/
def decodeFloat (ctx : Ctx) (bits : Nat) (v : Value) (text : String) : CallResult :=
  match ctx.parseFloat text bits with
  | .error msg => .returns v (some msg)
  | .ok x => stored (v.setFloat x)

/-- The decoder the array and slice branches choose for their elements, from the probe
`elemVal` at index 0 and the element type: the custom decoder of the value, that of its
address, `time.Duration`, then the primitive kinds. `none` is the `default` branch. -/
def elemStep (ctx : Ctx) (elemType : GoType) (elemVal : Value) :
    Option (Value → String → CallResult) :=
  if implementsValue elemVal = true then some (callValue ctx)
  else if implementsAddr elemVal = true then some (callAddr ctx)
  else if elemType.isDuration = true then some (decodeDuration ctx)
  else
    match elemType.kind with
    | .Bool => some (decodeBool ctx)
    | .String => some decodeString
    | .Int => some (decodeInt ctx elemType.bits)
    | .Uint => some (decodeUint ctx elemType.bits)
    | .Float => some (decodeFloat ctx elemType.bits)
    | _ => none

/-- One loop `for i, val := range vals` of the array and slice branches, from index `i` on,
over the destination elements from index `i` on. Inside the loop the name `i` is the
element index, so the error is built from `structType.Field(i)` for that index: `names` are
the field names of the struct, and an index past them is the panic of `Field`. -/
def rangeVals (step : Value → String → CallResult) (names : List String) (envName : String) :
    Nat → List String → List Value → List Value × Outcome
  | _, [], dst => (dst, .ok)
  | _, _ :: _, [] => ([], .crash)
  | i, val :: vals, d :: dst =>
    match step d val with
    | .crash => (d :: dst, .crash)
    | .returns d' (some msg) =>
      (d' :: dst,
        match names[i]? with
        | some name => .err (.ParseError name envName msg)
        | none => .crash)
    | .returns d' none =>
      let r := rangeVals step names envName (i + 1) vals dst
      (d' :: r.1, r.2)

/-- The end of a scalar branch of `parseStruct`. -/
def finish (fieldName envName : String) (fieldVal : Value) (r : CallResult) :
    Value × Outcome :=
  match r with
  | .crash => (fieldVal, .crash)
  | .returns v (some msg) => (v, .err (.ParseError fieldName envName msg))
  | .returns v none => (v, .ok)

/-- The part of the loop body of `parseStruct` after `envValue := os.Getenv(envName)`: the
type switch on a tagged, dereferenced field. -/
def parseTagged (ctx : Ctx) (names : List String) (fieldName envName : String)
    (fieldVal : Value) : Value × Outcome :=
  let envValue := ctx.getenv envName
  if fieldVal.isDuration = true then
    finish fieldName envName fieldVal (decodeDuration ctx fieldVal envValue)
  else
    match fieldVal.kind with
    | .Bool => finish fieldName envName fieldVal (decodeBool ctx fieldVal envValue)
    | .String => finish fieldName envName fieldVal (decodeString fieldVal envValue)
    | .Int => finish fieldName envName fieldVal (decodeInt ctx fieldVal.bits fieldVal envValue)
    | .Uint =>
      finish fieldName envName fieldVal (decodeUint ctx fieldVal.bits fieldVal envValue)
    | .Float =>
      finish fieldName envName fieldVal (decodeFloat ctx fieldVal.bits fieldVal envValue)
    | .Array =>
      let vals := Split envValue
      let vals := if vals.length > fieldVal.elems.length then
        vals.take fieldVal.elems.length else vals
      match fieldVal.elems with
      | [] => (fieldVal, .crash)
      | elemVal :: _ =>
        match elemStep ctx fieldVal.elemType elemVal with
        | none => (fieldVal, .err (.UnparsableTypeError fieldName))
        | some step =>
          let r := rangeVals step names envName 0 vals fieldVal.elems
          match fieldVal.setElems r.1 with
          | some v => (v, r.2)
          | none => (fieldVal, .crash)
    | .Slice =>
      let vals := Split envValue
      let fieldSliceVal := List.replicate vals.length (zero fieldVal.elemType)
      match fieldSliceVal with
      | [] => (fieldVal, .crash)
      | elemVal :: _ =>
        match elemStep ctx fieldVal.elemType elemVal with
        | none => (fieldVal, .err (.UnparsableTypeError fieldName))
        | some step =>
          let r := rangeVals step names envName 0 vals fieldSliceVal
          match r.2 with
          | .ok =>
            match fieldVal.setElems r.1 with
            | some v => (v, .ok)
            | none => (fieldVal, .crash)
          | o => (fieldVal, o)
    | _ => (fieldVal, .err (.UnparsableTypeError fieldName))

/-- The names `structType.Field(i).Name`. -/
def fieldNames (fs : List (Field Value)) : List String :=
  fs.map (fun f => f.Name)

/-- The error a nested `parseStruct` call is wrapped in; `envName` is empty there. -/
def wrapNested (ctx : Ctx) (fieldName : String) (o : Outcome) : Outcome :=
  match o with
  | .err e => .err (.ParseError fieldName "" (ctx.errorText e))
  | o => o

mutual
/-- The loop body of `parseStruct` from the pointer dereference loop on, for the current
`fieldVal`; `tag` is the result of the tag lookup. A defined type is looked through for
its kind. -/
def parseValue (ctx : Ctx) (names : List String) (fieldName : String) (tag : Option String) :
    Value → Value × Outcome
  | .ptr ty none => (.ptr ty none, .ok)
  | .ptr ty (some t) =>
    match (match tag with
           | some envName => parseAsTextUnmarshaler ctx t envName
           | none => none) with
    | some .crash => (.ptr ty (some t), .crash)
    | some (.returns t' (some msg)) =>
      (.ptr ty (some t'), .err (.ParseError fieldName (tag.getD "") msg))
    | some (.returns t' none) => (.ptr ty (some t'), .ok)
    | none =>
      let r := parseValue ctx names fieldName tag t
      (.ptr ty (some r.1), r.2)
  | .named p n r u =>
    if u.kind = .Ptr ∨ (tag = none ∧ u.kind = .Struct) then
      let res := parseValue ctx names fieldName tag u
      (.named p n r res.1, res.2)
    else
      match tag with
      | none => (.named p n r u, .ok)
      | some envName => parseTagged ctx names fieldName envName (.named p n r u)
  | .struct fs =>
    match tag with
    | none =>
      let res := parseFields ctx (fieldNames fs) fs
      (.struct res.1, wrapNested ctx fieldName res.2)
    | some envName => parseTagged ctx names fieldName envName (.struct fs)
  | v =>
    match tag with
    | none => (v, .ok)
    | some envName => parseTagged ctx names fieldName envName v
/-- One iteration of the loop of `parseStruct`: the new value of the field and how the
iteration ends (`ok` is `continue`). -/
def parseField (ctx : Ctx) (names : List String) : Field Value → Value × Outcome
  | ⟨name, tag, canSet, fieldVal⟩ =>
    if canSet = false then (fieldVal, .ok)
    else
      match tag with
      | some envName =>
        if envName = "" then (fieldVal, .err (.EmptyVarNameError name))
        else if (ctx.lookupEnv envName).isNone = true then (fieldVal, .ok)
        else
          match parseAsTextUnmarshaler ctx fieldVal envName with
          | some .crash => (fieldVal, .crash)
          | some (.returns v (some msg)) => (v, .err (.ParseError name envName msg))
          | some (.returns v none) => (v, .ok)
          | none => parseValue ctx names name (some envName) fieldVal
      | none => parseValue ctx names name none fieldVal
/-- The loop of `parseStruct` over the fields from the current one on. -/
def parseFields (ctx : Ctx) (names : List String) :
    List (Field Value) → List (Field Value) × Outcome
  | [] => ([], .ok)
  | f :: rest =>
    let r := parseField ctx names f
    match r.2 with
    | .ok =>
      let rs := parseFields ctx names rest
      (⟨f.Name, f.tag, f.canSet, r.1⟩ :: rs.1, rs.2)
    | o => (⟨f.Name, f.tag, f.canSet, r.1⟩ :: rest, o)
end

/-- `Parser.parseStruct` on a value of kind struct. -/
def parseStruct (ctx : Ctx) : Value → Value × Outcome
  | .struct fs =>
    let r := parseFields ctx (fieldNames fs) fs
    (.struct r.1, r.2)
  | .named p n r u =>
    let res := parseStruct ctx u
    (.named p n r res.1, res.2)
  | v => (v, .crash)

/-- `Parser.Parse` (and the package function `Parse`, which calls it): the object after
the call and the error returned. A nil interface is a value of kind `Other`. -/
def Parse (ctx : Ctx) : Value → Value × Outcome
  | .ptr ty (some val) =>
    if val.kind = .Struct then
      let r := parseStruct ctx val
      (.ptr ty (some r.1), r.2)
    else (.ptr ty (some val), .err .ErrNotStructPtr)
  | .named p n r u =>
    let res := Parse ctx u
    (.named p n r res.1, res.2)
  | v => (v, .err .ErrNotStructPtr)

/-! ## Vocabulary of the statements -/

/-- The type `*...*t` with `d` stars. -/
def ptrType : Nat → GoType → GoType
  | 0, t => t
  | d + 1, t => .ptr (ptrType d t)

/-- The value `v` of type `t` behind `d` non-nil pointers. -/
def ptrTo : Nat → GoType → Value → Value
  | 0, _, v => v
  | d + 1, t, v => .ptr (ptrType d t) (some (ptrTo d t v))

/-- A nil pointer of type `*t` behind `d` non-nil pointers. -/
def nilBehind (d : Nat) (t : GoType) : Value :=
  ptrTo d (.ptr t) (.ptr t none)

/-- A pointer to a struct with the given fields, the argument `Parse` expects. -/
def structPtr (fs : List (Field Value)) : Value :=
  .ptr (.other "struct") (some (.struct fs))

/-- The context `ctx` with the variable `name` set to `value`. -/
def Ctx.setenv (ctx : Ctx) (name value : String) : Ctx :=
  { ctx with lookupEnv := fun k => if k = name then some value else ctx.lookupEnv k }

/-- The `UnmarshalText` methods of the test file: `customUint8` stores 7 through its
pointer receiver, `customFailure` ignores its receiver and returns an error. -/
def testUnmarshalText (_pkg name : String) (recv : Option Value) (_text : String) :
    CallResult :=
  if name = "customUint8" then
    match recv with
    | some v => stored (v.setUint 7)
    | none => .crash
  else if name = "customFailure" then
    .returns (recv.getD (.other "nil")) (some "some error")
  else .crash

/-- The context of the examples: the environment is an association list, the custom
decoders are those of the test file; no floating point or duration literal is decoded in
an example, and these two parsers reject every text here. -/
def testCtx (env : List (String × String)) : Ctx where
  lookupEnv := fun k => env.lookup k
  parseFloat := fun _ _ => .error "invalid syntax"
  parseDuration := fun _ => .error "invalid duration"
  unmarshalText := testUnmarshalText
  quote := fun s => "\"" ++ s ++ "\""
  errorText := fun e =>
    match e with
    | .ErrNotStructPtr => "ErrNotStructPtr"
    | .EmptyVarNameError f => "EmptyVarNameError " ++ f
    | .ParseError f x c => "ParseError " ++ f ++ " " ++ x ++ ": " ++ c
    | .UnparsableTypeError f => "UnparsableTypeError " ++ f

/-- The type `customUint8` of the test file. -/
def customUint8 : GoType :=
  .named "envigo" "customUint8" (some .pointer) (.uint 8)

/-- The type `customFailure` of the test file. -/
def customFailure : GoType :=
  .named "envigo" "customFailure" (some .pointer) (.uint 8)

/-- A method with a value receiver on a defined slice type, as a program that uses the
package may declare it:
`type fill []byte` with
`func (b fill) UnmarshalText(_ []byte) error { for i := range b { b[i] = 7 }; return nil }`.
Its receiver holds 7 at every position afterwards. -/
def fillUnmarshalText (_pkg _name : String) (recv : Option Value) (_text : String) :
    CallResult :=
  match recv with
  | some (.named p n r (.slice e es)) =>
    .returns (.named p n r (.slice e (es.map (fun _ => .uint 8 7)))) none
  | _ => .crash

/-- The type `fill` of that program. -/
def fill : GoType :=
  .named "main" "fill" (some .value) (.slice (.uint 8))

/-- The context of the examples with the method of `fill` as the custom decoder. -/
def fillCtx (env : List (String × String)) : Ctx :=
  { testCtx env with unmarshalText := fillUnmarshalText }

/-- The text `s` is not a valid literal of the scalar kind of `v`: the library parser that
kind is decoded with rejects it, with the message `msg`. -/
inductive Rejects (ctx : Ctx) (s : String) : Value → String → Prop where
  | bool (b : Bool) (e : NumError) :
    (ParseBool s).2 = some e → Rejects ctx s (.bool b) (e.Error ctx)
  | int (w : Nat) (n : Int) (e : NumError) :
    (ParseInt s w).2 = some e → Rejects ctx s (.int w n) (e.Error ctx)
  | uint (w n : Nat) (e : NumError) :
    (ParseUint s w).2 = some e → Rejects ctx s (.uint w n) (e.Error ctx)
  | float (w x : Nat) (msg : String) :
    ctx.parseFloat s w = .error msg → Rejects ctx s (.float w x) msg
  | duration (n : Int) (msg : String) :
    ctx.parseDuration s = .error msg →
    Rejects ctx s (.named "time" "Duration" none (.int 64 n)) msg

/-- A field that holds `t`, of a type with an `UnmarshalText` method of receiver kind `r`,
behind `d` pointers, after the call of the method ended as `res`: a pointer receiver
leaves what the method stored, a value receiver worked on a copy and leaves what it wrote
to the storage the copy shares with `t`; the error of the method becomes a
`ParseError`. -/
def decoded (name X : String) (d : Nat) (T : GoType) (r : Recv) (t : Value)
    (res : CallResult) : Value × Outcome :=
  match res with
  | .crash => (ptrTo d T t, .crash)
  | .returns t' err =>
    (ptrTo d T (match r with
                | .pointer => t'
                | .value => shared t t'),
      match err with
      | none => .ok
      | some msg => .err (.ParseError name X msg))

/-- Following non-nil pointers (and looking through defined types) from `v` ends at a
struct. -/
def reachesRecord : Value → Bool
  | .struct _ => true
  | .ptr _ (some t) => reachesRecord t
  | .named _ _ _ u => reachesRecord u
  | _ => false

/-- The canonical decimal digits of a natural number: most significant digit first, no
leading zero, `0` for zero. -/
def decimalDigits (n : Nat) : List Char :=
  if n = 0 then ['0'] else (Nat.digits 10 n).reverse.map Nat.digitChar

/-- The number a sequence of decimal digits denotes when read after the prefix `n`. -/
def valueFrom (n : Nat) (ds : List Nat) : Nat :=
  ds.foldl (fun a d => a * 10 + d) n

/-- `strings.Join(parts, ",")` on the characters of the parts. -/
def joinComma : List (List Char) → List Char
  | [] => []
  | [p] => p
  | p :: q :: ps => p ++ ',' :: joinComma (q :: ps)

/-- The comma-joined string of a sequence of literals. -/
def Join (lits : List String) : String :=
  String.mk (joinComma (lits.map String.toList))

/-- The primitive element types: the boolean, string, integer and float types and the
defined types over them that declare no `UnmarshalText` method (`time.Duration` is one of
them). -/
def GoType.isPrimitive : GoType → Bool
  | .bool => true
  | .string => true
  | .int _ => true
  | .uint _ => true
  | .float _ => true
  | .named _ _ none .bool => true
  | .named _ _ none .string => true
  | .named _ _ none (.int _) => true
  | .named _ _ none (.uint _) => true
  | .named _ _ none (.float _) => true
  | _ => false

/-- The decoder of a value of a primitive type `e`: `time.Duration` first, then the kind. -/
def primStep (ctx : Ctx) (e : GoType) : Value → String → CallResult :=
  if e.isDuration = true then decodeDuration ctx
  else
    match e.kind with
    | .Bool => decodeBool ctx
    | .String => decodeString
    | .Int => decodeInt ctx e.bits
    | .Uint => decodeUint ctx e.bits
    | .Float => decodeFloat ctx e.bits
    | _ => fun _ _ => .crash

mutual
/-- `Value.Type()`. -/
def typeOf : Value → GoType
  | .bool _ => .bool
  | .string _ => .string
  | .int b _ => .int b
  | .uint b _ => .uint b
  | .float b _ => .float b
  | .array e es => .array es.length e
  | .slice e _ => .slice e
  | .ptr e _ => .ptr e
  | .struct fs => .struct (typeOfFields fs)
  | .named p n r u => .named p n r (typeOf u)
  | .other k => .other k
/-- The declarations of the fields of a struct value. -/
def typeOfFields : List (Field Value) → List (Field GoType)
  | [] => []
  | f :: fs => ⟨f.Name, f.tag, f.canSet, typeOf f.val⟩ :: typeOfFields fs
end

/-- The field `f` after its iteration of the loop: its name, annotation and settability
with the value the iteration leaves. -/
def bound (ctx : Ctx) (names : List String) (f : Field Value) : Field Value :=
  ⟨f.Name, f.tag, f.canSet, (parseField ctx names f).1⟩

/-- The record `v` wrapped in single-field records named, from the outside in, by `ns`:
nesting of depth `ns.length`. -/
def nestIn : List String → Value → Value
  | [], v => v
  | n :: ns, v => .struct [⟨n, none, true, nestIn ns v⟩]

/-- The error `e` of the innermost record after the wrapping each level of `ns` applies,
the outermost wrapper first. -/
def wrapIn (ctx : Ctx) : List String → Error → Error
  | [], e => e
  | n :: ns, e => .ParseError n "" (ctx.errorText (wrapIn ctx ns e))

/-- The number of times the dereference loop of `parseStruct` executes
`fieldVal = fieldVal.Elem()` for a field that holds `v`. -/
def derefSteps (ctx : Ctx) (tag : Option String) : Value → Nat
  | .ptr _ none => 0
  | .ptr _ (some t) =>
    match (match tag with
           | some envName => parseAsTextUnmarshaler ctx t envName
           | none => none) with
    | some _ => 1
    | none => 1 + derefSteps ctx tag t
  | .named _ _ _ u => if u.kind = .Ptr then derefSteps ctx tag u else 0
  | _ => 0

/-- The argument of `Parse` is a pointer whose pointee is of kind struct (a defined
pointer type is looked through, as `Kind` does). -/
def isStructPtr : Value → Bool
  | .ptr _ (some val) => decide (val.kind = .Struct)
  | .named _ _ _ u => isStructPtr u
  | _ => false

mutual
/-- No part of `v` that `parseStruct` can reach exposes a custom decoder: no defined type
with an `UnmarshalText` method among the fields (at any depth of nesting), the pointees,
the elements of arrays and the elements a slice is made of. -/
def plain : Value → Bool
  | .ptr ty none => !implementsValue (.ptr ty none)
  | .ptr ty (some t) => !implementsValue (.ptr ty none) && plain t
  | .named _ _ r u => r.isNone && plain u
  | .struct fs => plainFields fs
  | .array _ es => es.all (fun d => !implementsValue d && !implementsAddr d)
  | .slice e _ => !implementsValue (zero e) && !implementsAddr (zero e)
  | _ => true
/-- No field of the list exposes a custom decoder. -/
def plainFields : List (Field Value) → Bool
  | [] => true
  | f :: fs => plain f.val && plainFields fs
end

/-- Running `step` again on what it stored, with the same text, stores the same again and
keeps the type. -/
def Settles (step : Value → String → CallResult) : Prop :=
  ∀ d val d', step d val = .returns d' none →
    step d' val = .returns d' none ∧ typeOf d' = typeOf d

/-- The context `ctx` in a program whose `UnmarshalText` methods are `u`: the same
environment and the same library. -/
def Ctx.withDecoders (ctx : Ctx)
    (u : String → String → Option Value → String → CallResult) : Ctx :=
  { ctx with unmarshalText := u }

/-- The value of the string type `e` (the string type, or a defined type over it) that
holds the text `l`. -/
def strElem : GoType → String → Value
  | .named p n r u, l => .named p n r (strElem u l)
  | _, l => .string l
/-- The invocation of the custom decoder of an array or slice element: on the value when
the probe exposes the decoder there, on its address otherwise. -/
def elemDecoder (ctx : Ctx) (probe : Value) : Value → String → CallResult :=
  if implementsValue probe = true then callValue ctx else callAddr ctx

/-- What a call of an `UnmarshalText` method of receiver kind `r` leaves in the value `t`
it is called on, when it leaves `t'` in its receiver: `t'` for a pointer receiver; for a
value receiver, whose receiver is a copy of `t`, the value `t` with the storage it shares
with the copy as the method left it. -/
def afterCall (r : Recv) (t t' : Value) : Value :=
  match r with
  | .pointer => t'
  | .value => shared t t'

/-- How a Go integer literal marks its base when `ParseInt` is called with base 0: no
mark (decimal), `0x`, `0o`, `0b`, or a leading `0` (octal). -/
inductive BaseMark where
  | decimal
  | hex
  | octal
  | binary
  | zero
deriving DecidableEq, Repr

/-- The characters of a base mark. -/
def BaseMark.chars : BaseMark → List Char
  | .decimal => []
  | .hex => ['0', 'x']
  | .octal => ['0', 'o']
  | .binary => ['0', 'b']
  | .zero => ['0']

/-- The base a mark stands for. -/
def BaseMark.base : BaseMark → Nat
  | .decimal => 10
  | .hex => 16
  | .octal => 8
  | .binary => 2
  | .zero => 8

/-- The digit sequences a mark can be followed by: digits of its base; after `0x`, `0o`
and `0b` at least one; without mark at least one, the first of which is not 0 (a literal
that starts with 0 carries the mark `zero`, and `0` itself is that mark alone). -/
def BaseMark.admits (m : BaseMark) (ds : List Nat) : Bool :=
  ds.all (fun d => decide (d < m.base)) &&
    match m, ds with
    | .zero, _ => true
    | .decimal, d :: _ => decide (d ≠ 0)
    | _, [] => false
    | _, _ :: _ => true

/-- The number the digits `ds` denote in base `b`, read after the number `n`. -/
def valueIn (b n : Nat) (ds : List Nat) : Nat :=
  ds.foldl (fun a d => a * b + d) n

/-- The sign of a literal. -/
inductive LitSign where
  | none
  | plus
  | minus
deriving DecidableEq, Repr

/-- The characters of a sign. -/
def LitSign.chars : LitSign → List Char
  | .none => []
  | .plus => ['+']
  | .minus => ['-']

/-- The integer a sign makes of a magnitude. -/
def LitSign.apply : LitSign → Nat → Int
  | .minus, n => -(n : Int)
  | _, n => (n : Int)

/-- The integer literal with the given sign, base mark and digits (lower case). -/
def literal (sg : LitSign) (m : BaseMark) (ds : List Nat) : String :=
  String.mk (sg.chars ++ m.chars ++ ds.map Nat.digitChar)

/-- The errors of `time.ParseDuration`, before they are rendered. -/
inductive DurErr where
  | invalid
  | missingUnit
  | unknownUnit (u : String)
deriving DecidableEq, Repr

/-- `leadingInt` of package `time` (the `uint64` version of the current Go releases): the
value of the leading digits after the accumulator `x`, and the rest; `none` is the
overflow error. -/
def leadingInt : List Char → Nat → Option (Nat × List Char)
  | [], x => some (x, [])
  | c :: cs, x =>
    if c.toNat < 48 ∨ c.toNat > 57 then some (x, c :: cs)
    else if x > 2 ^ 63 / 10 then none
    else if x * 10 + (c.toNat - 48) > 2 ^ 63 then none
    else leadingInt cs (x * 10 + (c.toNat - 48))

/-- `leadingFraction` of package `time`: the value of the leading digits, the number `k`
of digits counted (the `scale` is `10 ^ k`), and the rest. -/
def leadingFraction : List Char → Nat → Nat → Bool → Nat × Nat × List Char
  | [], x, k, _ => (x, k, [])
  | c :: cs, x, k, overflow =>
    if c.toNat < 48 ∨ c.toNat > 57 then (x, k, c :: cs)
    else if overflow = true then leadingFraction cs x k true
    else if x > (2 ^ 63 - 1) / 10 then leadingFraction cs x k true
    else if x * 10 + (c.toNat - 48) > 2 ^ 63 then leadingFraction cs x k true
    else leadingFraction cs (x * 10 + (c.toNat - 48)) (k + 1) false

/-- The part `(\.[0-9]*)?` of one term of a duration: the fraction, the number of its
digits, the rest, and the flag `post`. -/
def fractionPart : List Char → Nat × Nat × List Char × Bool
  | '.' :: r =>
    let x := leadingFraction r 0 0 false
    (x.1, x.2.1, x.2.2, decide (r.length ≠ x.2.2.length))
  | s => (0, 0, s, false)

/-- The unit of one term: the characters up to the next `.` or digit, and the rest. -/
def unitSpan : List Char → List Char × List Char
  | [] => ([], [])
  | c :: cs =>
    if c = '.' ∨ (48 ≤ c.toNat ∧ c.toNat ≤ 57) then ([], c :: cs)
    else ((c :: (unitSpan cs).1), (unitSpan cs).2)

/-- The table `unitMap` of package `time`, in nanoseconds. -/
def unitMap (u : String) : Option Nat :=
  if u = "ns" then some 1
  else if u = "us" then some 1000
  else if u = "µs" then some 1000
  else if u = "μs" then some 1000
  else if u = "ms" then some 1000000
  else if u = "s" then some 1000000000
  else if u = "m" then some 60000000000
  else if u = "h" then some 3600000000000
  else none

/-- The loop `for s != ""` of `time.ParseDuration`; the accumulator `d` is a `uint64`.
Every iteration consumes a character, so a fuel of the length of the text is enough. The
`float64` product `uint64(float64(f) * (float64(unit) / scale))` of a fractional part is
the parameter `frac f k unit` (with `scale = 10 ^ k`). -/
def durationLoop (frac : Nat → Nat → Nat → Nat) :
    Nat → List Char → Nat → Except DurErr Nat
  | _, [], d => .ok d
  | 0, _ :: _, _ => .error .invalid
  | fuel + 1, c :: cs, d =>
    if ¬ (c = '.' ∨ (48 ≤ c.toNat ∧ c.toNat ≤ 57)) then .error .invalid
    else
      match leadingInt (c :: cs) 0 with
      | none => .error .invalid
      | some (v, s1) =>
        let pre := decide ((c :: cs).length ≠ s1.length)
        let fr := fractionPart s1
        if pre = false ∧ fr.2.2.2 = false then .error .invalid
        else
          let us := unitSpan fr.2.2.1
          if us.1 = [] then .error .missingUnit
          else
            match unitMap (String.mk us.1) with
            | none => .error (.unknownUnit (String.mk us.1))
            | some unit =>
              if v > 2 ^ 63 / unit then .error .invalid
              else
                let v1 := if fr.1 > 0 then (v * unit + frac fr.1 fr.2.1 unit) % 2 ^ 64
                  else v * unit
                if fr.1 > 0 ∧ v1 > 2 ^ 63 then .error .invalid
                else if (d + v1) % 2 ^ 64 > 2 ^ 63 then .error .invalid
                else durationLoop frac fuel us.2 ((d + v1) % 2 ^ 64)

/-- `time.ParseDuration`: the duration in nanoseconds, or the text of the error. -/
def ParseDuration (quote : String → String) (frac : Nat → Nat → Nat → Nat)
    (orig : String) : Except String Int :=
  let sg := pickSign orig.toList
  if sg.2 = ['0'] then .ok 0
  else if sg.2 = [] then .error ("time: invalid duration " ++ quote orig)
  else
    match durationLoop frac sg.2.length sg.2 0 with
    | .error .invalid => .error ("time: invalid duration " ++ quote orig)
    | .error .missingUnit => .error ("time: missing unit in duration " ++ quote orig)
    | .error (.unknownUnit u) =>
      .error ("time: unknown unit " ++ quote u ++ " in duration " ++ quote orig)
    | .ok d =>
      if sg.1 = true then .ok (-(d : Int))
      else if d > 2 ^ 63 - 1 then .error ("time: invalid duration " ++ quote orig)
      else .ok (d : Int)

/-- The type `time.Duration`. -/
def durationType : GoType :=
  .named "time" "Duration" none (.int 64)

/-- The duration of `n` nanoseconds. -/
def Duration (n : Int) : Value :=
  .named "time" "Duration" none (.int 64 n)

/-- The context of the examples with `time.ParseDuration` in place; the product of a
fractional part is the exact quotient here, and no example has a fractional part. -/
def durationCtx (env : List (String × String)) : Ctx :=
  { testCtx env with
    parseDuration := ParseDuration (testCtx env).quote (fun f k unit => f * unit / 10 ^ k) }

/-! ## The loop over the fields -/

theorem parseFields_cons_ok (ctx : Ctx) (names : List String) (f : Field Value)
    (rest : List (Field Value)) (h : (parseField ctx names f).2 = .ok) :
    parseFields ctx names (f :: rest) =
      (⟨f.Name, f.tag, f.canSet, (parseField ctx names f).1⟩ :: (parseFields ctx names rest).1,
        (parseFields ctx names rest).2) := by
  rw [parseFields]
  simp only [h]

theorem parseFields_cons_stop (ctx : Ctx) (names : List String) (f : Field Value)
    (rest : List (Field Value)) (h : (parseField ctx names f).2 ≠ .ok) :
    parseFields ctx names (f :: rest) =
      (⟨f.Name, f.tag, f.canSet, (parseField ctx names f).1⟩ :: rest,
        (parseField ctx names f).2) := by
  rw [parseFields]
  cases h2 : (parseField ctx names f).2 with
  | ok => exact absurd h2 h
  | err e => simp
  | crash => simp

/-- A prefix of fields that is processed without error is followed by the rest. -/
theorem parseFields_append_ok (ctx : Ctx) (names : List String)
    (pre rest : List (Field Value)) (h : (parseFields ctx names pre).2 = .ok) :
    parseFields ctx names (pre ++ rest) =
      ((parseFields ctx names pre).1 ++ (parseFields ctx names rest).1,
        (parseFields ctx names rest).2) := by
  induction pre with
  | nil => simp [parseFields]
  | cons f pre ih =>
    by_cases hf : (parseField ctx names f).2 = .ok
    · rw [parseFields_cons_ok ctx names f pre hf] at h
      simp only [List.cons_append]
      rw [parseFields_cons_ok ctx names f _ hf, parseFields_cons_ok ctx names f _ hf, ih h]
      simp
    · rw [parseFields_cons_stop ctx names f pre hf] at h
      exact absurd h hf

/-- The loop stops at the first field whose iteration does not end in `continue`: the
fields before it hold their new values, the fields after it are not visited. -/
theorem parseFields_first_failure (ctx : Ctx) (names : List String)
    (pre post : List (Field Value)) (f : Field Value)
    (hpre : (parseFields ctx names pre).2 = .ok) (hf : (parseField ctx names f).2 ≠ .ok) :
    parseFields ctx names (pre ++ f :: post) =
      ((parseFields ctx names pre).1 ++
          ⟨f.Name, f.tag, f.canSet, (parseField ctx names f).1⟩ :: post,
        (parseField ctx names f).2) := by
  rw [parseFields_append_ok ctx names pre _ hpre, parseFields_cons_stop ctx names f post hf]

/-- A field whose iteration ends in `continue` is followed by the remaining fields. -/
theorem parseFields_skip (ctx : Ctx) (names : List String)
    (pre post : List (Field Value)) (f : Field Value)
    (hpre : (parseFields ctx names pre).2 = .ok) (hf : (parseField ctx names f).2 = .ok) :
    parseFields ctx names (pre ++ f :: post) =
      ((parseFields ctx names pre).1 ++
          ⟨f.Name, f.tag, f.canSet, (parseField ctx names f).1⟩ ::
            (parseFields ctx names post).1,
        (parseFields ctx names post).2) := by
  rw [parseFields_append_ok ctx names pre _ hpre, parseFields_cons_ok ctx names f post hf]

/-- `Parse` on a pointer to a struct runs the loop over its fields. -/
theorem Parse_struct (ctx : Ctx) (ty : GoType) (fs : List (Field Value)) :
    Parse ctx (.ptr ty (some (.struct fs))) =
      (.ptr ty (some (.struct (parseFields ctx (fieldNames fs) fs).1)),
        (parseFields ctx (fieldNames fs) fs).2) := by
  simp [Parse, Value.kind, parseStruct]

/-! ## Absent variables and empty annotations -/

/-- C1: a settable field of any kind (any value `v`) annotated with a non-empty variable
name that does not exist in the environment is skipped: its iteration ends without error
and with the value unchanged; in a record the loop reaches it in, the field keeps its
value and the loop goes on with the next field; and `Parse` on a record with this single
field returns no error and leaves the record unchanged. -/
theorem absent_variable_skips_field (ctx : Ctx) (names : List String) (name X : String)
    (v : Value) (pre post : List (Field Value)) (ty : GoType)
    (hX : X ≠ "") (hunset : ctx.lookupEnv X = none)
    (hpre : (parseFields ctx names pre).2 = .ok) :
    parseField ctx names ⟨name, some X, true, v⟩ = (v, .ok) ∧
    parseFields ctx names (pre ++ ⟨name, some X, true, v⟩ :: post) =
      ((parseFields ctx names pre).1 ++ ⟨name, some X, true, v⟩ ::
          (parseFields ctx names post).1,
        (parseFields ctx names post).2) ∧
    Parse ctx (.ptr ty (some (.struct [⟨name, some X, true, v⟩]))) =
      (.ptr ty (some (.struct [⟨name, some X, true, v⟩])), .ok) := by
  have h1 : ∀ nm, parseField ctx nm ⟨name, some X, true, v⟩ = (v, .ok) := by
    intro nm
    simp [parseField, hX, hunset]
  refine ⟨h1 names, ?_, ?_⟩
  · rw [parseFields_skip ctx names pre post _ hpre (by rw [h1])]
    rw [h1]
  · rw [Parse_struct]
    rw [parseFields_cons_ok ctx _ _ _ (by rw [h1])]
    rw [h1]
    simp [parseFields]

theorem absent_variable_skips_field_witness :
    "UINT8" ≠ "" ∧ (testCtx []).lookupEnv "UINT8" = none ∧
    (parseFields (testCtx []) ["A", "V"] [⟨"A", none, true, .bool true⟩]).2 = .ok ∧
    parseField (testCtx []) ["A", "V"] ⟨"V", some "UINT8", true, .uint 8 5⟩ =
      (.uint 8 5, .ok) ∧
    Parse (testCtx []) (structPtr [⟨"V", some "UINT8", true, .uint 8 5⟩]) =
      (structPtr [⟨"V", some "UINT8", true, .uint 8 5⟩], .ok) :=
  ⟨by decide, by rfl, by rfl,
    (absent_variable_skips_field (testCtx []) ["A", "V"] "V" "UINT8" (.uint 8 5)
      [⟨"A", none, true, .bool true⟩] [] (.other "struct") (by decide) (by rfl) (by rfl)).1,
    (absent_variable_skips_field (testCtx []) ["A", "V"] "V" "UINT8" (.uint 8 5)
      [⟨"A", none, true, .bool true⟩] [] (.other "struct") (by decide) (by rfl) (by rfl)).2.2⟩

/-- C7: a settable field `V` of any kind whose annotation is the empty string makes the
loop return `EmptyVarNameError` naming `V`, in every environment, when no earlier field
fails; the value of `V` is unchanged (and so is every later field), and `Parse` on the
record returns that error. -/
theorem empty_annotation_fails (ctx : Ctx) (V : String) (v : Value)
    (pre post : List (Field Value)) (ty : GoType)
    (hpre : (parseFields ctx (fieldNames (pre ++ ⟨V, some "", true, v⟩ :: post)) pre).2 = .ok) :
    parseFields ctx (fieldNames (pre ++ ⟨V, some "", true, v⟩ :: post))
        (pre ++ ⟨V, some "", true, v⟩ :: post) =
      ((parseFields ctx (fieldNames (pre ++ ⟨V, some "", true, v⟩ :: post)) pre).1 ++
          ⟨V, some "", true, v⟩ :: post,
        .err (.EmptyVarNameError V)) ∧
    (Parse ctx (.ptr ty (some (.struct (pre ++ ⟨V, some "", true, v⟩ :: post))))).2 =
      .err (.EmptyVarNameError V) := by
  have h1 : ∀ nm, parseField ctx nm ⟨V, some "", true, v⟩ = (v, .err (.EmptyVarNameError V)) := by
    intro nm
    simp [parseField]
  have h2 := parseFields_first_failure ctx
    (fieldNames (pre ++ ⟨V, some "", true, v⟩ :: post)) pre post ⟨V, some "", true, v⟩ hpre
    (by rw [h1]; simp)
  rw [h1] at h2
  refine ⟨h2, ?_⟩
  rw [Parse_struct, h2]

theorem empty_annotation_fails_witness :
    (parseFields (testCtx [("UINT8", "3")])
      (fieldNames ([⟨"A", none, true, .bool true⟩] ++ ⟨"V", some "", true, .uint 8 5⟩ :: []))
      [⟨"A", none, true, .bool true⟩]).2 = .ok ∧
    (Parse (testCtx [("UINT8", "3")]) (.ptr (.other "struct") (some (.struct
      ([⟨"A", none, true, .bool true⟩] ++ ⟨"V", some "", true, .uint 8 5⟩ :: []))))).2 =
      .err (.EmptyVarNameError "V") :=
  ⟨by rfl, (empty_annotation_fails (testCtx [("UINT8", "3")]) "V" (.uint 8 5)
    [⟨"A", none, true, .bool true⟩] [] (.other "struct") (by rfl)).2⟩

/-! ## Scalar fields -/

theorem getenv_of_lookup (ctx : Ctx) (X s : String) (h : ctx.lookupEnv X = some s) :
    ctx.getenv X = s := by
  simp [Ctx.getenv, h]

theorem parseField_invalid_scalar (ctx : Ctx) (names : List String) (name X s msg : String)
    (v : Value) (hX : X ≠ "") (hset : ctx.lookupEnv X = some s) (hbad : Rejects ctx s v msg) :
    parseField ctx names ⟨name, some X, true, v⟩ = (v, .err (.ParseError name X msg)) := by
  have hg := getenv_of_lookup ctx X s hset
  cases hbad with
  | bool b e he =>
    obtain ⟨b', he'⟩ : ∃ b', ParseBool s = (b', some e) := ⟨(ParseBool s).1, by rw [← he]⟩
    simp [parseField, hX, hset, parseAsTextUnmarshaler, implementsValue, implementsAddr,
      parseValue, parseTagged, Value.isDuration, Value.kind, decodeBool, hg, he', finish]
  | int w n e he =>
    obtain ⟨b', he'⟩ : ∃ b', ParseInt s w = (b', some e) := ⟨(ParseInt s w).1, by rw [← he]⟩
    simp [parseField, hX, hset, parseAsTextUnmarshaler, implementsValue, implementsAddr,
      parseValue, parseTagged, Value.isDuration, Value.kind, Value.bits, decodeInt, hg, he',
      finish]
  | uint w n e he =>
    obtain ⟨b', he'⟩ : ∃ b', ParseUint s w = (b', some e) := ⟨(ParseUint s w).1, by rw [← he]⟩
    simp [parseField, hX, hset, parseAsTextUnmarshaler, implementsValue, implementsAddr,
      parseValue, parseTagged, Value.isDuration, Value.kind, Value.bits, decodeUint, hg, he',
      finish]
  | float w x msg he =>
    simp [parseField, hX, hset, parseAsTextUnmarshaler, implementsValue, implementsAddr,
      parseValue, parseTagged, Value.isDuration, Value.kind, Value.bits, decodeFloat, hg, he,
      finish]
  | duration n msg he =>
    simp [parseField, hX, hset, parseAsTextUnmarshaler, implementsValue, implementsAddr,
      parseValue, parseTagged, Value.isDuration, Value.kind, Value.bits, decodeDuration, hg,
      he, finish]

/-- C5: a settable field of a scalar kind (boolean, signed or unsigned integer, float,
duration) annotated with the variable `X`, whose value `s` in the environment is rejected
by the parser of the kind, ends its iteration with a `ParseError` that carries the name of
the field, the name `X` and the message of the parser, and with its value unchanged; when
no earlier field of the record fails, `Parse` returns this error, the failing field and
every later field keeping their values. -/
theorem invalid_scalar_literal (ctx : Ctx) (name X s msg : String) (v : Value)
    (pre post : List (Field Value)) (ty : GoType)
    (hX : X ≠ "") (hset : ctx.lookupEnv X = some s) (hbad : Rejects ctx s v msg)
    (hpre : (parseFields ctx (fieldNames (pre ++ ⟨name, some X, true, v⟩ :: post)) pre).2 =
      .ok) :
    Parse ctx (.ptr ty (some (.struct (pre ++ ⟨name, some X, true, v⟩ :: post)))) =
      (.ptr ty (some (.struct
          ((parseFields ctx (fieldNames (pre ++ ⟨name, some X, true, v⟩ :: post)) pre).1 ++
            ⟨name, some X, true, v⟩ :: post))),
        .err (.ParseError name X msg)) := by
  have h1 := parseField_invalid_scalar ctx
    (fieldNames (pre ++ ⟨name, some X, true, v⟩ :: post)) name X s msg v hX hset hbad
  have h2 := parseFields_first_failure ctx
    (fieldNames (pre ++ ⟨name, some X, true, v⟩ :: post)) pre post ⟨name, some X, true, v⟩ hpre
    (by rw [h1]; simp)
  rw [h1] at h2
  rw [Parse_struct, h2]

theorem invalid_scalar_literal_witness :
    Parse (testCtx [("FAIL_UINT", "false")]) (.ptr (.other "struct") (some (.struct
      ([⟨"A", none, true, .bool true⟩] ++ ⟨"V", some "FAIL_UINT", true, .uint 16 5⟩ ::
        [⟨"W", none, true, .bool true⟩])))) =
      (.ptr (.other "struct") (some (.struct
        ((parseFields (testCtx [("FAIL_UINT", "false")])
            (fieldNames ([⟨"A", none, true, .bool true⟩] ++
              ⟨"V", some "FAIL_UINT", true, .uint 16 5⟩ :: [⟨"W", none, true, .bool true⟩]))
            [⟨"A", none, true, .bool true⟩]).1 ++
          ⟨"V", some "FAIL_UINT", true, .uint 16 5⟩ :: [⟨"W", none, true, .bool true⟩]))),
        .err (.ParseError "V" "FAIL_UINT"
          (NumError.Error (testCtx [("FAIL_UINT", "false")])
            ⟨"ParseUint", "false", .ErrSyntax⟩))) :=
  invalid_scalar_literal (testCtx [("FAIL_UINT", "false")]) "V" "FAIL_UINT" "false" _
    (.uint 16 5) [⟨"A", none, true, .bool true⟩] [⟨"W", none, true, .bool true⟩]
    (.other "struct") (by decide) (by rfl)
    (Rejects.uint 16 5 ⟨"ParseUint", "false", .ErrSyntax⟩ (by rfl)) (by rfl)

/-! ## Errors of array and slice elements -/

/-- C6: the code at the failing inputs. In the record `{A string; B []int}` with the
variable of `B` set to `x`, element 0 of `B` fails and the error names the field `A`
(the field at index 0 of the record), not `B`; the same happens for an array field; in the
record with the single field `B` and the value `1,x`, element 1 fails and building the
error panics, as the record has no field at index 1. -/
theorem element_error_uses_element_index :
    (Parse (testCtx [("B", "x")])
      (structPtr [⟨"A", some "A", true, .string ""⟩,
        ⟨"B", some "B", true, .slice (.int 64) []⟩])).2 =
      .err (.ParseError "A" "B"
        (NumError.Error (testCtx [("B", "x")]) ⟨"ParseInt", "x", .ErrSyntax⟩)) ∧
    (Parse (testCtx [("B", "x")])
      (structPtr [⟨"A", some "A", true, .string ""⟩,
        ⟨"B", some "B", true, .array (.int 64) [.int 64 0, .int 64 0]⟩])).2 =
      .err (.ParseError "A" "B"
        (NumError.Error (testCtx [("B", "x")]) ⟨"ParseInt", "x", .ErrSyntax⟩)) ∧
    (Parse (testCtx [("B", "1,x")])
      (structPtr [⟨"B", some "B", true, .slice (.int 64) []⟩])).2 = .crash := by
  refine ⟨by rfl, by rfl, by rfl⟩

/-! ## Custom decoders and pointers -/

theorem parseAsTextUnmarshaler_named (ctx : Ctx) (X s p n : String) (r : Recv) (u : Value)
    (hset : ctx.lookupEnv X = some s) :
    parseAsTextUnmarshaler ctx (.named p n (some r) u) X =
      some (match ctx.unmarshalText p n (some (.named p n (some r) u)) s with
            | .crash => .crash
            | .returns t' err =>
              .returns (match r with
                        | .pointer => t'
                        | .value => shared (.named p n (some r) u) t') err) := by
  have hg := getenv_of_lookup ctx X s hset
  cases r <;>
    simp [parseAsTextUnmarshaler, implementsValue, implementsAddr, callValue, callAddr, hg]

theorem parseAsTextUnmarshaler_ptr_named (ctx : Ctx) (X s p n : String) (r : Recv)
    (u : Value) (U : GoType) (hset : ctx.lookupEnv X = some s) :
    parseAsTextUnmarshaler ctx
        (.ptr (.named p n (some r) U) (some (.named p n (some r) u))) X =
      some (match ctx.unmarshalText p n (some (.named p n (some r) u)) s with
            | .crash => .crash
            | .returns t' err =>
              .returns (.ptr (.named p n (some r) U)
                (some (match r with
                       | .pointer => t'
                       | .value => shared (.named p n (some r) u) t'))) err) := by
  have hg := getenv_of_lookup ctx X s hset
  simp [parseAsTextUnmarshaler, implementsValue, callValue, hg]

theorem parseValue_ptrTo_decoder (ctx : Ctx) (names : List String) (name X s p n : String)
    (r : Recv) (u : Value) (U : GoType) (hset : ctx.lookupEnv X = some s) (d : Nat) :
    parseValue ctx names name (some X)
        (ptrTo (d + 1) (.named p n (some r) U) (.named p n (some r) u)) =
      decoded name X (d + 1) (.named p n (some r) U) r (.named p n (some r) u)
        (ctx.unmarshalText p n (some (.named p n (some r) u)) s) := by
  induction d with
  | zero =>
    simp only [ptrTo, ptrType, parseValue, parseAsTextUnmarshaler_named ctx X s p n r u hset]
    cases ctx.unmarshalText p n (some (.named p n (some r) u)) s with
    | crash => simp [decoded, ptrTo, ptrType]
    | returns t' err => cases err <;> simp [decoded, ptrTo, ptrType]
  | succ d ih =>
    cases d with
    | zero =>
      simp only [ptrTo, ptrType, parseValue,
        parseAsTextUnmarshaler_ptr_named ctx X s p n r u U hset]
      cases ctx.unmarshalText p n (some (.named p n (some r) u)) s with
      | crash => simp [decoded, ptrTo, ptrType]
      | returns t' err => cases err <;> simp [decoded, ptrTo, ptrType]
    | succ d =>
      have hnone : parseAsTextUnmarshaler ctx
          (ptrTo (d + 1 + 1) (.named p n (some r) U) (.named p n (some r) u)) X = none := by
        simp [ptrTo, ptrType, parseAsTextUnmarshaler, implementsValue, implementsAddr]
      rw [ptrTo, parseValue]
      simp only [hnone, ih]
      cases ctx.unmarshalText p n (some (.named p n (some r) u)) s with
      | crash => simp [decoded, ptrTo, ptrType]
      | returns t' err => cases err <;> simp [decoded, ptrTo, ptrType]

/-- C8: an annotated settable field whose variable exists and whose type, behind `d ≥ 0`
non-nil pointers, is a defined type with an `UnmarshalText` method (value or pointer
receiver, whatever the underlying kind) is decoded by one call of that method on the
pointee with the raw value of the variable, and by nothing else: the field afterwards is
what the call left (`decoded`). With a pointer receiver the pointee is exactly what the
method stored; with a value receiver the method ran on a copy, and the pointee is the old
one with the elements of its slices and the pointees of its pointers as the method left
them (`shared`). The outcome is the error of the method wrapped in a `ParseError`, or no
error, or the panic of the method. -/
theorem custom_decoder_precedence (ctx : Ctx) (names : List String) (name X s p n : String)
    (r : Recv) (u : Value) (U : GoType) (d : Nat)
    (hX : X ≠ "") (hset : ctx.lookupEnv X = some s) :
    parseField ctx names
        ⟨name, some X, true, ptrTo d (.named p n (some r) U) (.named p n (some r) u)⟩ =
      decoded name X d (.named p n (some r) U) r (.named p n (some r) u)
        (ctx.unmarshalText p n (some (.named p n (some r) u)) s) := by
  cases d with
  | zero =>
    simp only [parseField, ptrTo, parseAsTextUnmarshaler_named ctx X s p n r u hset]
    simp [hX, hset]
    cases ctx.unmarshalText p n (some (.named p n (some r) u)) s with
    | crash => simp [decoded, ptrTo]
    | returns t' err => cases err <;> simp [decoded, ptrTo]
  | succ d =>
    cases d with
    | zero =>
      simp only [parseField, ptrTo, ptrType,
        parseAsTextUnmarshaler_ptr_named ctx X s p n r u U hset]
      simp [hX, hset]
      cases ctx.unmarshalText p n (some (.named p n (some r) u)) s with
      | crash => simp [decoded, ptrTo, ptrType]
      | returns t' err => cases err <;> simp [decoded, ptrTo, ptrType]
    | succ d =>
      have hnone : parseAsTextUnmarshaler ctx
          (ptrTo (d + 1 + 1) (.named p n (some r) U) (.named p n (some r) u)) X = none := by
        simp [ptrTo, ptrType, parseAsTextUnmarshaler, implementsValue, implementsAddr]
      simp only [parseField, hnone]
      simp [hX, hset]
      exact parseValue_ptrTo_decoder ctx names name X s p n r u U hset (d + 1)

theorem custom_decoder_precedence_witness :
    parseField (testCtx [("CUSTOM_UINT8", "10")]) ["V"]
        ⟨"V", some "CUSTOM_UINT8", true,
          .named "envigo" "customUint8" (some .pointer) (.uint 8 0)⟩ =
      (.named "envigo" "customUint8" (some .pointer) (.uint 8 7), .ok) ∧
    parseField (testCtx [("CUSTOM_UINT8", "10")]) ["V"]
        ⟨"V", some "CUSTOM_UINT8", true,
          ptrTo 1 customUint8 (.named "envigo" "customUint8" (some .pointer) (.uint 8 2))⟩ =
      (ptrTo 1 customUint8 (.named "envigo" "customUint8" (some .pointer) (.uint 8 7)),
        .ok) ∧
    parseField (testCtx [("CUSTOM_UINT8", "10")]) ["V"]
        ⟨"V", some "CUSTOM_UINT8", true,
          ptrTo 2 customUint8 (.named "envigo" "customUint8" (some .pointer) (.uint 8 3))⟩ =
      (ptrTo 2 customUint8 (.named "envigo" "customUint8" (some .pointer) (.uint 8 7)),
        .ok) ∧
    parseField (fillCtx [("FILL", "10")]) ["V"]
        ⟨"V", some "FILL", true,
          .named "main" "fill" (some .value) (.slice (.uint 8) [.uint 8 1, .uint 8 2])⟩ =
      (.named "main" "fill" (some .value) (.slice (.uint 8) [.uint 8 7, .uint 8 7]), .ok) ∧
    parseField (fillCtx [("FILL", "10")]) ["V"]
        ⟨"V", some "FILL", true,
          ptrTo 2 fill (.named "main" "fill" (some .value) (.slice (.uint 8) [.uint 8 3]))⟩ =
      (ptrTo 2 fill (.named "main" "fill" (some .value) (.slice (.uint 8) [.uint 8 7])),
        .ok) :=
  ⟨(custom_decoder_precedence (testCtx [("CUSTOM_UINT8", "10")]) ["V"] "V" "CUSTOM_UINT8"
      "10" "envigo" "customUint8" .pointer (.uint 8 0) (.uint 8) 0 (by decide) (by rfl)).trans
      (by rfl),
    (custom_decoder_precedence (testCtx [("CUSTOM_UINT8", "10")]) ["V"] "V" "CUSTOM_UINT8"
      "10" "envigo" "customUint8" .pointer (.uint 8 2) (.uint 8) 1 (by decide) (by rfl)).trans
      (by rfl),
    (custom_decoder_precedence (testCtx [("CUSTOM_UINT8", "10")]) ["V"] "V" "CUSTOM_UINT8"
      "10" "envigo" "customUint8" .pointer (.uint 8 3) (.uint 8) 2 (by decide) (by rfl)).trans
      (by rfl),
    (custom_decoder_precedence (fillCtx [("FILL", "10")]) ["V"] "V" "FILL" "10" "main" "fill"
      .value (.slice (.uint 8) [.uint 8 1, .uint 8 2]) (.slice (.uint 8)) 0 (by decide)
      (by rfl)).trans (by rfl),
    (custom_decoder_precedence (fillCtx [("FILL", "10")]) ["V"] "V" "FILL" "10" "main" "fill"
      .value (.slice (.uint 8) [.uint 8 3]) (.slice (.uint 8)) 2 (by decide)
      (by rfl)).trans (by rfl)⟩

/-- C9: the code at the failing input. A nil pointer field whose pointee type has an
`UnmarshalText` method is not skipped when its variable is set: the decoder check comes
before the nil test, so the method is called on the nil pointer. For the field
`V *customFailure` of the test file's type the error of the method is returned as a
`ParseError`, also when the nil pointer sits behind a non-nil one; for the field
`V *customUint8` the method stores through its nil receiver and `Parse` panics, at the
outermost level and behind a non-nil pointer. -/
theorem nil_pointer_to_decodable_is_decoded :
    Parse (testCtx [("FAIL_CUSTOM", "10")])
        (structPtr [⟨"V", some "FAIL_CUSTOM", true, .ptr customFailure none⟩]) =
      (structPtr [⟨"V", some "FAIL_CUSTOM", true, .ptr customFailure none⟩],
        .err (.ParseError "V" "FAIL_CUSTOM" "some error")) ∧
    (Parse (testCtx [("FAIL_CUSTOM", "10")])
        (structPtr [⟨"V", some "FAIL_CUSTOM", true,
          .ptr (.ptr customFailure) (some (.ptr customFailure none))⟩])).2 =
      .err (.ParseError "V" "FAIL_CUSTOM" "some error") ∧
    (Parse (testCtx [("CUSTOM_UINT8", "10")])
        (structPtr [⟨"V", some "CUSTOM_UINT8", true, .ptr customUint8 none⟩])).2 = .crash ∧
    (Parse (testCtx [("CUSTOM_UINT8", "10")])
        (structPtr [⟨"V", some "CUSTOM_UINT8", true,
          .ptr (.ptr customUint8) (some (.ptr customUint8 none))⟩])).2 = .crash := by
  refine ⟨by rfl, by rfl, by rfl, by rfl⟩

theorem implementsValue_nilBehind (d : Nat) (t : GoType)
    (hplain : implementsValue (.ptr t none) = false) :
    implementsValue (nilBehind d t) = false := by
  cases d with
  | zero => simpa [nilBehind, ptrTo] using hplain
  | succ d => cases d <;> simp [nilBehind, ptrTo, ptrType, implementsValue]

theorem parseAsTextUnmarshaler_nilBehind (ctx : Ctx) (X : String) (d : Nat) (t : GoType)
    (hplain : implementsValue (.ptr t none) = false) :
    parseAsTextUnmarshaler ctx (nilBehind d t) X = none := by
  have h1 := implementsValue_nilBehind d t hplain
  have h2 : implementsAddr (nilBehind d t) = false := by
    cases d <;> simp [nilBehind, ptrTo, implementsAddr]
  simp [parseAsTextUnmarshaler, h1, h2]

theorem parseValue_nilBehind (ctx : Ctx) (names : List String) (name X : String) (t : GoType)
    (hplain : implementsValue (.ptr t none) = false) (d : Nat) :
    parseValue ctx names name (some X) (nilBehind d t) = (nilBehind d t, .ok) := by
  induction d with
  | zero => simp [nilBehind, ptrTo, parseValue]
  | succ d ih =>
    have h := parseAsTextUnmarshaler_nilBehind ctx X d t hplain
    rw [nilBehind] at h ih
    rw [nilBehind, ptrTo, parseValue]
    simp only [h, ih]

/-- The nil pointers that are skipped: an annotated settable field of pointer type of any
depth that is nil at the outermost or at an intermediate level, where the type of the nil
pointer is not a pointer to a type with an `UnmarshalText` method, ends its iteration
without error and unchanged (still nil), in every environment and whatever the decoders
of the context do. -/
theorem nil_pointer_is_skipped (ctx : Ctx) (names : List String) (name X : String)
    (t : GoType) (d : Nat)
    (hX : X ≠ "") (hplain : implementsValue (.ptr t none) = false) :
    parseField ctx names ⟨name, some X, true, nilBehind d t⟩ = (nilBehind d t, .ok) := by
  have h := parseAsTextUnmarshaler_nilBehind ctx X d t hplain
  have h2 := parseValue_nilBehind ctx names name X t hplain d
  simp only [parseField, h, h2]
  simp [hX]

theorem nil_pointer_is_skipped_witness :
    parseField (testCtx [("PTR_BOOL", "true")]) ["V"]
        ⟨"V", some "PTR_BOOL", true, nilBehind 0 .bool⟩ = (nilBehind 0 .bool, .ok) ∧
    parseField (testCtx [("FAIL_CUSTOM", "10")]) ["V"]
        ⟨"V", some "FAIL_CUSTOM", true, nilBehind 1 (.ptr customFailure)⟩ =
      (nilBehind 1 (.ptr customFailure), .ok) :=
  ⟨nil_pointer_is_skipped (testCtx [("PTR_BOOL", "true")]) ["V"] "V" "PTR_BOOL" .bool 0
      (by decide) (by rfl),
    nil_pointer_is_skipped (testCtx [("FAIL_CUSTOM", "10")]) ["V"] "V" "FAIL_CUSTOM"
      (.ptr customFailure) 1 (by decide) (by rfl)⟩

/-! ## Nested records -/

theorem parseValue_untagged_struct (ctx : Ctx) (names : List String) (name : String) :
    (N : Value) → N.kind = .Struct →
    parseValue ctx names name none N =
      ((parseStruct ctx N).1, wrapNested ctx name (parseStruct ctx N).2)
  | .struct fs, _ => by simp [parseValue, parseStruct]
  | .named p n r u, h => by
    have hu : u.kind = .Struct := by simpa [Value.kind] using h
    have ih := parseValue_untagged_struct ctx names name u hu
    simp [parseValue, parseStruct, hu, ih]
  | .bool _, h => by simp [Value.kind] at h
  | .string _, h => by simp [Value.kind] at h
  | .int _ _, h => by simp [Value.kind] at h
  | .uint _ _, h => by simp [Value.kind] at h
  | .float _ _, h => by simp [Value.kind] at h
  | .array _ _, h => by simp [Value.kind] at h
  | .slice _ _, h => by simp [Value.kind] at h
  | .ptr _ _, h => by simp [Value.kind] at h
  | .other _, h => by simp [Value.kind] at h

theorem parseValue_untagged_ptrTo (ctx : Ctx) (names : List String) (name : String)
    (T : GoType) (v : Value) (d : Nat) :
    parseValue ctx names name none (ptrTo d T v) =
      (ptrTo d T (parseValue ctx names name none v).1,
        (parseValue ctx names name none v).2) := by
  induction d with
  | zero => simp [ptrTo]
  | succ d ih =>
    rw [ptrTo, parseValue]
    simp only [ih, ptrTo]

theorem kind_of_reachesRecord_false :
    (v : Value) → reachesRecord v = false → v.kind ≠ .Struct
  | .struct _, h => by simp [reachesRecord] at h
  | .named _ _ _ u, h => by
    have hu : reachesRecord u = false := by simpa [reachesRecord] using h
    simpa [Value.kind] using kind_of_reachesRecord_false u hu
  | .bool _, _ => by simp [Value.kind]
  | .string _, _ => by simp [Value.kind]
  | .int _ _, _ => by simp [Value.kind]
  | .uint _ _, _ => by simp [Value.kind]
  | .float _ _, _ => by simp [Value.kind]
  | .array _ _, _ => by simp [Value.kind]
  | .slice _ _, _ => by simp [Value.kind]
  | .ptr _ _, _ => by simp [Value.kind]
  | .other _, _ => by simp [Value.kind]

theorem parseValue_untagged_other (ctx : Ctx) (names : List String) (name : String) :
    (v : Value) → reachesRecord v = false → parseValue ctx names name none v = (v, .ok)
  | .struct _, h => by simp [reachesRecord] at h
  | .ptr _ none, _ => by simp [parseValue]
  | .ptr _ (some t), h => by
    have ht : reachesRecord t = false := by simpa [reachesRecord] using h
    have ih := parseValue_untagged_other ctx names name t ht
    simp [parseValue, ih]
  | .named p n r u, h => by
    have hu : reachesRecord u = false := by simpa [reachesRecord] using h
    have ih := parseValue_untagged_other ctx names name u hu
    have hk := kind_of_reachesRecord_false u hu
    by_cases hp : u.kind = .Ptr
    · simp [parseValue, hp, ih]
    · simp [parseValue, hp, hk]
  | .bool _, _ => by simp [parseValue]
  | .string _, _ => by simp [parseValue]
  | .int _ _, _ => by simp [parseValue]
  | .uint _ _, _ => by simp [parseValue]
  | .float _ _, _ => by simp [parseValue]
  | .array _ _, _ => by simp [parseValue]
  | .slice _ _, _ => by simp [parseValue]
  | .other _, _ => by simp [parseValue]

/-- C10: for a settable field `N` without annotation whose value is of kind struct
(a struct or a defined struct type, as an embedded struct is), directly or behind `d`
non-nil pointers: if `Parse` on a pointer to that struct alone returns no error and leaves
`N'`, then the iteration of the field ends without error and leaves `N'` behind the same
pointers, and in a record whose earlier fields do not fail the loop continues after it;
the recursion is the same `parseStruct`, so this holds at every nesting depth. A field
without annotation that does not reach a struct through non-nil pointers is left
untouched. -/
theorem nested_record_recursion (ctx : Ctx) (names : List String) (name : String)
    (N N' : Value) (T ty : GoType) (d : Nat) (pre post : List (Field Value))
    (hN : N.kind = .Struct)
    (halone : Parse ctx (.ptr ty (some N)) = (.ptr ty (some N'), .ok))
    (hpre : (parseFields ctx names pre).2 = .ok) :
    parseField ctx names ⟨name, none, true, ptrTo d T N⟩ = (ptrTo d T N', .ok) ∧
    parseFields ctx names (pre ++ ⟨name, none, true, ptrTo d T N⟩ :: post) =
      ((parseFields ctx names pre).1 ++ ⟨name, none, true, ptrTo d T N'⟩ ::
          (parseFields ctx names post).1,
        (parseFields ctx names post).2) ∧
    (∀ v : Value, reachesRecord v = false →
      parseField ctx names ⟨name, none, true, v⟩ = (v, .ok)) := by
  have hp : parseStruct ctx N = (N', .ok) := by
    simp only [Parse, hN, if_true] at halone
    have h1 := congrArg Prod.fst halone
    have h2 := congrArg Prod.snd halone
    simp only [Value.ptr.injEq, Option.some.injEq, true_and] at h1 h2
    exact Prod.ext h1 h2
  have h1 : parseField ctx names ⟨name, none, true, ptrTo d T N⟩ = (ptrTo d T N', .ok) := by
    simp only [parseField]
    rw [parseValue_untagged_ptrTo, parseValue_untagged_struct ctx names name N hN, hp]
    simp [wrapNested]
  refine ⟨h1, ?_, ?_⟩
  · rw [parseFields_skip ctx names pre post _ hpre (by rw [h1]), h1]
  · intro v hv
    simp only [parseField]
    rw [parseValue_untagged_other ctx names name v hv]
    simp

theorem nested_record_recursion_witness :
    parseField (testCtx [("NESTED_INT", "-10"), ("NESTED_UINT", "15")]) ["V", "N", "h"]
      ⟨"N", none, true, ptrTo 1 (.other "struct")
        (.struct [⟨"V", some "NESTED_INT", true, .int 64 0⟩,
          ⟨"N", none, true, .struct [⟨"V", some "NESTED_UINT", true, .uint 64 0⟩]⟩])⟩ =
      (ptrTo 1 (.other "struct")
        (.struct [⟨"V", some "NESTED_INT", true, .int 64 (-10)⟩,
          ⟨"N", none, true, .struct [⟨"V", some "NESTED_UINT", true, .uint 64 15⟩]⟩]), .ok) :=
  (nested_record_recursion (testCtx [("NESTED_INT", "-10"), ("NESTED_UINT", "15")])
    ["V", "N", "h"] "N"
    (.struct [⟨"V", some "NESTED_INT", true, .int 64 0⟩,
      ⟨"N", none, true, .struct [⟨"V", some "NESTED_UINT", true, .uint 64 0⟩]⟩])
    (.struct [⟨"V", some "NESTED_INT", true, .int 64 (-10)⟩,
      ⟨"N", none, true, .struct [⟨"V", some "NESTED_UINT", true, .uint 64 15⟩]⟩])
    (.other "struct") (.other "struct") 1 [] [] (by rfl) (by rfl) (by rfl)).1

/-! ## Decimal literals -/

theorem toDigitsCore_eq : ∀ (fuel n : Nat) (ds : List Char), n < fuel → 0 < n →
    Nat.toDigitsCore 10 fuel n ds = (Nat.digits 10 n).reverse.map Nat.digitChar ++ ds := by
  intro fuel
  induction fuel with
  | zero => intro n ds h; omega
  | succ f ih =>
    intro n ds hlt hpos
    rw [Nat.toDigitsCore]
    rw [Nat.digits_def' (by norm_num) hpos]
    by_cases h0 : n / 10 = 0
    · simp [h0]
    · have h1 : n / 10 < f := by omega
      have h2 : 0 < n / 10 := by omega
      simp only [h0, if_false]
      rw [ih (n / 10) _ h1 h2]
      simp

theorem toDigits_eq (n : Nat) : Nat.toDigits 10 n = decimalDigits n := by
  unfold decimalDigits
  by_cases h : n = 0
  · subst h; rfl
  · simp only [h, if_false]
    rw [Nat.toDigits, toDigitsCore_eq (n + 1) n [] (by omega) (by omega)]
    simp

/-- The characters of the decimal rendering of an integer. -/
theorem toString_int_toList (n : Int) :
    (toString n).toList =
      if n < 0 then '-' :: decimalDigits n.natAbs else decimalDigits n.natAbs := by
  cases n with
  | ofNat m =>
    have : ¬ (Int.ofNat m < 0) := by simp
    simp only [this, if_false]
    show (Nat.repr m).toList = _
    simp [Nat.repr, toDigits_eq, List.asString]
  | negSucc m =>
    have : Int.negSucc m < 0 := Int.negSucc_lt_zero m
    simp only [this, if_true]
    show ("-" ++ Nat.repr (m + 1)).toList = _
    simp [Nat.repr, toDigits_eq, Int.natAbs, List.asString]

theorem digitChar_facts (d : Nat) (hd : d < 10) :
    digitVal (Nat.digitChar d) = some d ∧ Nat.digitChar d ≠ '_' ∧
      Nat.digitChar d ≠ '+' ∧ Nat.digitChar d ≠ '-' ∧
      (Nat.digitChar d = '0' ↔ d = 0) := by
  interval_cases d <;> decide

theorem valueFrom_ge (ds : List Nat) : ∀ n, n ≤ valueFrom n ds := by
  induction ds with
  | nil => intro n; simp [valueFrom]
  | cons d ds ih =>
    intro n
    have h := ih (n * 10 + d)
    simp only [valueFrom, List.foldl_cons] at h ⊢
    omega

/-- The digit loop of `ParseUint` on decimal digits: it returns the number they denote when
that number fits, and the range error otherwise. -/
theorem parseUintLoop_decimal (maxVal : Nat) (hmax : maxVal < 2 ^ 64) (us : Bool) :
    ∀ (ds : List Nat) (n : Nat), (∀ d ∈ ds, d < 10) → n ≤ maxVal →
    parseUintLoop 10 true ((2 ^ 64 - 1) / 10 + 1) maxVal (ds.map Nat.digitChar) n us =
      if valueFrom n ds ≤ maxVal then .ok (valueFrom n ds, us) else .error .ErrRange := by
  intro ds
  induction ds with
  | nil => intro n _ hn; simp [parseUintLoop, valueFrom, hn]
  | cons d ds ih =>
    intro n hds hn
    have hd : d < 10 := hds d (by simp)
    obtain ⟨hv, hu, -, -, -⟩ := digitChar_facts d hd
    have hge := valueFrom_ge ds (n * 10 + d)
    have hval : valueFrom n (d :: ds) = valueFrom (n * 10 + d) ds := by
      simp [valueFrom]
    simp only [List.map_cons, parseUintLoop, hu, false_and, if_false, hv, hval]
    norm_num at hmax ⊢
    have hd' : ¬ (10 ≤ d) := by omega
    simp only [hd', if_false]
    by_cases hc : 1844674407370955162 ≤ n
    · simp only [hc, if_true]
      have : ¬ (valueFrom (n * 10 + d) ds ≤ maxVal) := by omega
      simp [this]
    · simp only [hc, if_false]
      have h1 : n * 10 % 18446744073709551616 = n * 10 := by omega
      rw [h1]
      by_cases hov : (n * 10 + d) % 18446744073709551616 < n * 10 ∨
          (n * 10 + d) % 18446744073709551616 > maxVal
      · simp only [hov, if_true]
        have : ¬ (valueFrom (n * 10 + d) ds ≤ maxVal) := by omega
        simp [this]
      · simp only [hov, if_false]
        have h2 : (n * 10 + d) % 18446744073709551616 = n * 10 + d := by omega
        rw [h2] at hov ⊢
        have := ih (n * 10 + d) (fun x hx => hds x (by simp [hx])) (by omega)
        norm_num at this
        exact this

theorem valueFrom_digits (m : Nat) : valueFrom 0 (Nat.digits 10 m).reverse = m := by
  have h := Nat.ofDigits_digits 10 m
  rw [Nat.ofDigits_eq_foldr] at h
  rw [valueFrom, List.foldl_reverse]
  have hf : (fun (x y : ℕ) => y * 10 + x) = (fun (x y : ℕ) => ((x : ℕ) : ℕ) + 10 * y) := by
    funext x y; ring
  rw [hf]
  simpa using h

theorem basePrefix_decimal (c : Char) (cs : List Char) (hc : c ≠ '0') :
    basePrefix (c :: cs) = (10, c :: cs) := by
  unfold basePrefix
  split
  · rename_i h
    simp at h
    exact absurd h.1 hc
  · rfl

theorem decimalDigits_pos (m : Nat) (hm : m ≠ 0) :
    ∃ (c : Char) (cs : List Char),
      decimalDigits m = c :: cs ∧ c ≠ '0' ∧ c ≠ '+' ∧ c ≠ '-' ∧
      c :: cs = (Nat.digits 10 m).reverse.map Nat.digitChar := by
  have hne : Nat.digits 10 m ≠ [] := Nat.digits_ne_nil_iff_ne_zero.mpr hm
  have hlast := Nat.getLast_digit_ne_zero 10 hm
  cases hrev : (Nat.digits 10 m).reverse with
  | nil => simp at hrev; exact absurd hrev hne
  | cons a l =>
    have hdig : Nat.digits 10 m = l.reverse ++ [a] := by
      have := congrArg List.reverse hrev
      simpa using this
    have ha : a ≠ 0 := by
      have h2 : (Nat.digits 10 m).getLast hne = a := by
        simp [hdig]
      rw [h2] at hlast
      exact hlast
    have ha10 : a < 10 := Nat.digits_lt_base (by norm_num) (by rw [hdig]; simp)
    obtain ⟨-, -, hp, hmn, hz⟩ := digitChar_facts a ha10
    refine ⟨Nat.digitChar a, l.map Nat.digitChar, ?_, ?_, hp, hmn, by simp⟩
    · simp [decimalDigits, hm, hrev]
    · intro h; exact ha (hz.mp h)

theorem String_mk_ne_empty (c : Char) (cs : List Char) : String.mk (c :: cs) ≠ "" := by
  intro h
  have := congrArg String.data h
  simp at this

/-- `ParseUint` on the canonical decimal literal of `m`. -/
theorem ParseUint_decimal (m w : Nat) :
    ParseUint (String.mk (decimalDigits m)) w =
      if m ≤ (2 ^ w - 1) % 2 ^ 64 then (m, none)
      else ((2 ^ w - 1) % 2 ^ 64, some ⟨"ParseUint", String.mk (decimalDigits m), .ErrRange⟩) := by
  by_cases hm : m = 0
  · subst hm
    simp [ParseUint, decimalDigits, basePrefix, parseUintLoop]
  · obtain ⟨c, cs, hcs, hc0, -, -, hmap⟩ := decimalDigits_pos m hm
    have hloop := parseUintLoop_decimal ((2 ^ w - 1) % 2 ^ 64)
      (Nat.mod_lt _ (by norm_num)) false (Nat.digits 10 m).reverse 0
      (fun d hd => Nat.digits_lt_base (by norm_num) (List.mem_reverse.mp hd)) (Nat.zero_le _)
    rw [valueFrom_digits, ← hmap] at hloop
    rw [hcs]
    unfold ParseUint
    simp only [String_mk_ne_empty, if_false, String.toList, basePrefix_decimal c cs hc0]
    rw [hloop]
    by_cases hle : m ≤ (2 ^ w - 1) % 2 ^ 64
    · rw [if_pos hle, if_pos hle]
      simp
    · rw [if_neg hle, if_neg hle]


theorem pickSign_plain (c : Char) (cs : List Char) (hp : c ≠ '+') (hm : c ≠ '-') :
    pickSign (c :: cs) = (false, c :: cs) := by
  unfold pickSign
  split
  · rename_i h; simp at h; exact absurd h.1 hp
  · rename_i h; simp at h; exact absurd h.1 hm
  · rfl

theorem ParseInt_minus (ds : List Char) (w : Nat) :
    ParseInt (String.mk ('-' :: ds)) w =
      if (ParseUint (String.mk ds) w).2.isSome = true ∧
          (ParseUint (String.mk ds) w).2.map NumError.Err ≠ some .ErrRange then
        (0, some ⟨"ParseInt", String.mk ('-' :: ds), .ErrSyntax⟩)
      else if (ParseUint (String.mk ds) w).1 > 2 ^ (w - 1) % 2 ^ 64 then
        (-((2 ^ (w - 1) % 2 ^ 64 : Nat) : Int), some ⟨"ParseInt", String.mk ('-' :: ds), .ErrRange⟩)
      else (truncInt 64 (-(truncInt 64 (ParseUint (String.mk ds) w).1)), none) := by
  unfold ParseInt
  simp only [String_mk_ne_empty, if_false, String.toList, pickSign]
  simp

theorem ParseInt_plain (c : Char) (cs : List Char) (w : Nat) (hp : c ≠ '+') (hm : c ≠ '-') :
    ParseInt (String.mk (c :: cs)) w =
      if (ParseUint (String.mk (c :: cs)) w).2.isSome = true ∧
          (ParseUint (String.mk (c :: cs)) w).2.map NumError.Err ≠ some .ErrRange then
        (0, some ⟨"ParseInt", String.mk (c :: cs), .ErrSyntax⟩)
      else if (ParseUint (String.mk (c :: cs)) w).1 ≥ 2 ^ (w - 1) % 2 ^ 64 then
        (((2 ^ (w - 1) % 2 ^ 64 : Nat) : Int) - 1,
          some ⟨"ParseInt", String.mk (c :: cs), .ErrRange⟩)
      else (truncInt 64 (ParseUint (String.mk (c :: cs)) w).1, none) := by
  unfold ParseInt
  simp only [String_mk_ne_empty, if_false, String.toList, pickSign_plain c cs hp hm]
  simp

theorem decimalDigits_cons (m : Nat) :
    ∃ (c : Char) (cs : List Char), decimalDigits m = c :: cs ∧ c ≠ '+' ∧ c ≠ '-' := by
  by_cases hm : m = 0
  · subst hm
    exact ⟨'0', [], by simp [decimalDigits], by decide, by decide⟩
  · obtain ⟨c, cs, h, -, hp, hmn, -⟩ := decimalDigits_pos m hm
    exact ⟨c, cs, h, hp, hmn⟩

theorem toString_int_eq (n : Int) :
    toString n =
      String.mk (if n < 0 then '-' :: decimalDigits n.natAbs else decimalDigits n.natAbs) := by
  have h : toString n = String.mk (toString n).toList := rfl
  rw [h, toString_int_toList]

theorem truncInt_64 (x : Int) (h1 : -9223372036854775808 ≤ x) (h2 : x ≤ 9223372036854775807) :
    truncInt 64 x = x := by
  unfold truncInt
  norm_num
  omega

theorem truncInt_64_min : truncInt 64 9223372036854775808 = -9223372036854775808 := by
  unfold truncInt
  norm_num

theorem ParseInt_decimal_plain (m w : Nat) (hw : w = 8 ∨ w = 16 ∨ w = 32 ∨ w = 64) :
    (m < 2 ^ (w - 1) → ParseInt (String.mk (decimalDigits m)) w = ((m : Int), none)) ∧
    (¬ m < 2 ^ (w - 1) → ∃ e, (ParseInt (String.mk (decimalDigits m)) w).2 = some e) := by
  obtain ⟨c, cs, hcs, hp, hmn⟩ := decimalDigits_cons m
  rw [hcs, ParseInt_plain c cs w hp hmn, ← hcs, ParseUint_decimal]
  have hmax : (2 ^ w - 1) % 2 ^ 64 = 2 * 2 ^ (w - 1) - 1 := by
    rcases hw with rfl | rfl | rfl | rfl <;> norm_num
  rw [hmax]
  have hcut : 2 ^ (w - 1) % 2 ^ 64 = 2 ^ (w - 1) := by
    rcases hw with rfl | rfl | rfl | rfl <;> norm_num
  rw [hcut]
  have hlt : 2 ^ (w - 1) ≤ 9223372036854775808 := by
    rcases hw with rfl | rfl | rfl | rfl <;> norm_num
  have hpos : 0 < 2 ^ (w - 1) := Nat.pow_pos (by norm_num)
  generalize 2 ^ (w - 1) = cut at *
  constructor
  · intro h
    have h1 : m ≤ 2 * cut - 1 := by omega
    have h2 : ¬ (m ≥ cut) := by omega
    rw [if_pos h1]
    simp only [Option.isSome_none, Bool.false_eq_true, false_and, if_false, h2]
    rw [truncInt_64 _ (by omega) (by omega)]
  · intro h
    by_cases h1 : m ≤ 2 * cut - 1
    · rw [if_pos h1]
      have h2 : m ≥ cut := by omega
      simp [h2]
    · rw [if_neg h1]
      have h2 : 2 * cut - 1 ≥ cut := by omega
      simp [h2]

theorem ParseInt_decimal_minus (m w : Nat) (hw : w = 8 ∨ w = 16 ∨ w = 32 ∨ w = 64) :
    (m ≤ 2 ^ (w - 1) →
      ParseInt (String.mk ('-' :: decimalDigits m)) w = (-(m : Int), none)) ∧
    (¬ m ≤ 2 ^ (w - 1) →
      ∃ e, (ParseInt (String.mk ('-' :: decimalDigits m)) w).2 = some e) := by
  rw [ParseInt_minus, ParseUint_decimal]
  have hmax : (2 ^ w - 1) % 2 ^ 64 = 2 * 2 ^ (w - 1) - 1 := by
    rcases hw with rfl | rfl | rfl | rfl <;> norm_num
  rw [hmax]
  have hcut : 2 ^ (w - 1) % 2 ^ 64 = 2 ^ (w - 1) := by
    rcases hw with rfl | rfl | rfl | rfl <;> norm_num
  rw [hcut]
  have hlt : 2 ^ (w - 1) ≤ 9223372036854775808 := by
    rcases hw with rfl | rfl | rfl | rfl <;> norm_num
  have hge : 128 ≤ 2 ^ (w - 1) := by
    rcases hw with rfl | rfl | rfl | rfl <;> norm_num
  generalize 2 ^ (w - 1) = cut at *
  constructor
  · intro h
    have h1 : m ≤ 2 * cut - 1 := by omega
    have h2 : ¬ (m > cut) := by omega
    rw [if_pos h1]
    simp only [Option.isSome_none, Bool.false_eq_true, false_and, if_false, h2]
    by_cases h3 : m = 9223372036854775808
    · subst h3
      norm_num [truncInt_64_min]
    · rw [truncInt_64 (m : Int) (by omega) (by omega), truncInt_64 _ (by omega) (by omega)]
  · intro h
    by_cases h1 : m ≤ 2 * cut - 1
    · rw [if_pos h1]
      have h2 : m > cut := by omega
      simp [h2]
    · rw [if_neg h1]
      have h2 : 2 * cut - 1 > cut := by omega
      simp [h2]

/-- `ParseInt` on the decimal rendering of an integer, for the four widths. -/
theorem ParseInt_toString (n : Int) (w : Nat) (hw : w = 8 ∨ w = 16 ∨ w = 32 ∨ w = 64) :
    (-(2 : Int) ^ (w - 1) ≤ n ∧ n ≤ 2 ^ (w - 1) - 1 → ParseInt (toString n) w = (n, none)) ∧
    (¬ (-(2 : Int) ^ (w - 1) ≤ n ∧ n ≤ 2 ^ (w - 1) - 1) →
      ∃ e, (ParseInt (toString n) w).2 = some e) := by
  rw [toString_int_eq]
  have hcast : ((2 ^ (w - 1) : Nat) : Int) = (2 : Int) ^ (w - 1) := by push_cast; rfl
  have hpos : 0 < 2 ^ (w - 1) := Nat.pow_pos (by norm_num)
  by_cases hneg : n < 0
  · simp only [hneg, if_true]
    have hm : (n.natAbs : Int) = -n := by omega
    have hn : n = -(n.natAbs : Int) := by omega
    obtain ⟨h1, h2⟩ := ParseInt_decimal_minus n.natAbs w hw
    rw [← hcast]
    generalize 2 ^ (w - 1) = cut at *
    generalize n.natAbs = m at *
    subst hn
    constructor
    · intro h; exact h1 (by omega)
    · intro h; exact h2 (by omega)
  · simp only [hneg, if_false]
    have hm : (n.natAbs : Int) = n := by omega
    obtain ⟨h1, h2⟩ := ParseInt_decimal_plain n.natAbs w hw
    rw [← hcast]
    generalize 2 ^ (w - 1) = cut at *
    generalize n.natAbs = m at *
    subst hm
    constructor
    · intro h; exact h1 (by omega)
    · intro h; exact h2 (by omega)

theorem ParseUint_minus (ds : List Char) (w : Nat) :
    ParseUint (String.mk ('-' :: ds)) w =
      (0, some ⟨"ParseUint", String.mk ('-' :: ds), .ErrSyntax⟩) := by
  have hd : digitVal '-' = none := by decide
  unfold ParseUint
  simp only [String_mk_ne_empty, if_false, String.toList,
    basePrefix_decimal '-' ds (by decide), parseUintLoop, hd]
  simp

/-- `ParseUint` on the decimal rendering of an integer, for the four widths. -/
theorem ParseUint_toString (n : Int) (w : Nat) (hw : w = 8 ∨ w = 16 ∨ w = 32 ∨ w = 64) :
    (0 ≤ n ∧ n ≤ 2 ^ w - 1 → ParseUint (toString n) w = (n.toNat, none)) ∧
    (¬ (0 ≤ n ∧ n ≤ 2 ^ w - 1) → ∃ e, (ParseUint (toString n) w).2 = some e) := by
  rw [toString_int_eq]
  have hcast : ((2 ^ w : Nat) : Int) = (2 : Int) ^ w := by push_cast; rfl
  have hpos : 0 < 2 ^ w := Nat.pow_pos (by norm_num)
  have hmax : (2 ^ w - 1) % 2 ^ 64 = 2 ^ w - 1 := by
    rcases hw with rfl | rfl | rfl | rfl <;> norm_num
  by_cases hneg : n < 0
  · simp only [hneg, if_true, ParseUint_minus]
    constructor
    · intro h; omega
    · intro _; exact ⟨_, rfl⟩
  · simp only [hneg, if_false]
    rw [ParseUint_decimal, hmax, ← hcast]
    have hm : (n.natAbs : Int) = n := by omega
    have ht : n.toNat = n.natAbs := by omega
    rw [ht]
    generalize 2 ^ w = cut at *
    generalize n.natAbs = m at *
    subst hm
    constructor
    · intro h
      rw [if_pos (by omega)]
    · intro h
      rw [if_neg (by omega)]
      exact ⟨_, rfl⟩

theorem parseField_int_ok (ctx : Ctx) (names : List String) (name X s : String) (w : Nat)
    (old n : Int) (hX : X ≠ "") (hset : ctx.lookupEnv X = some s)
    (hparse : ParseInt s w = (n, none)) :
    parseField ctx names ⟨name, some X, true, .int w old⟩ = (.int w (truncInt w n), .ok) := by
  have hg := getenv_of_lookup ctx X s hset
  simp [parseField, hX, hset, parseAsTextUnmarshaler, implementsValue, implementsAddr,
    parseValue, parseTagged, Value.isDuration, Value.kind, Value.bits, decodeInt, hg, hparse,
    finish, stored, Value.setInt]

theorem parseField_uint_ok (ctx : Ctx) (names : List String) (name X s : String) (w : Nat)
    (old n : Nat) (hX : X ≠ "") (hset : ctx.lookupEnv X = some s)
    (hparse : ParseUint s w = (n, none)) :
    parseField ctx names ⟨name, some X, true, .uint w old⟩ = (.uint w (truncUint w n), .ok) := by
  have hg := getenv_of_lookup ctx X s hset
  simp [parseField, hX, hset, parseAsTextUnmarshaler, implementsValue, implementsAddr,
    parseValue, parseTagged, Value.isDuration, Value.kind, Value.bits, decodeUint, hg, hparse,
    finish, stored, Value.setUint]

theorem truncInt_of_range (w : Nat) (n : Int) (hw : w = 8 ∨ w = 16 ∨ w = 32 ∨ w = 64)
    (h : -(2 : Int) ^ (w - 1) ≤ n ∧ n ≤ 2 ^ (w - 1) - 1) : truncInt w n = n := by
  unfold truncInt
  rcases hw with rfl | rfl | rfl | rfl <;> (norm_num at h ⊢; omega)

/-- C2: a settable field of an integer kind of width `w ∈ {8, 16, 32, 64}` whose variable
holds the canonical decimal literal of an integer `n` (its decimal rendering `toString n`:
a leading `-` for negative numbers, no leading zeros, no underscores). For a signed kind the
iteration ends without error and stores exactly `n` when `-2^(w-1) ≤ n ≤ 2^(w-1) - 1`, and
otherwise ends with a `ParseError` for the field and its variable, the field keeping its
prior value; for an unsigned kind the same holds with the range `0 ≤ n ≤ 2^w - 1`, so a
negative literal is always rejected. -/
theorem integer_literal_range (ctx : Ctx) (names : List String) (name X : String) (w : Nat)
    (n old : Int) (oldu : Nat) (hw : w = 8 ∨ w = 16 ∨ w = 32 ∨ w = 64)
    (hX : X ≠ "") (hset : ctx.lookupEnv X = some (toString n)) :
    (-(2 : Int) ^ (w - 1) ≤ n ∧ n ≤ 2 ^ (w - 1) - 1 →
      parseField ctx names ⟨name, some X, true, .int w old⟩ = (.int w n, .ok)) ∧
    (¬ (-(2 : Int) ^ (w - 1) ≤ n ∧ n ≤ 2 ^ (w - 1) - 1) →
      ∃ cause, parseField ctx names ⟨name, some X, true, .int w old⟩ =
        (.int w old, .err (.ParseError name X cause))) ∧
    (0 ≤ n ∧ n ≤ 2 ^ w - 1 →
      parseField ctx names ⟨name, some X, true, .uint w oldu⟩ = (.uint w n.toNat, .ok)) ∧
    (¬ (0 ≤ n ∧ n ≤ 2 ^ w - 1) →
      ∃ cause, parseField ctx names ⟨name, some X, true, .uint w oldu⟩ =
        (.uint w oldu, .err (.ParseError name X cause))) := by
  obtain ⟨hi1, hi2⟩ := ParseInt_toString n w hw
  obtain ⟨hu1, hu2⟩ := ParseUint_toString n w hw
  refine ⟨?_, ?_, ?_, ?_⟩
  · intro h
    rw [parseField_int_ok ctx names name X _ w old n hX hset (hi1 h),
      truncInt_of_range w n hw h]
  · intro h
    obtain ⟨e, he⟩ := hi2 h
    exact ⟨_, parseField_invalid_scalar ctx names name X _ _ _ hX hset (Rejects.int w old e he)⟩
  · intro h
    rw [parseField_uint_ok ctx names name X _ w oldu n.toNat hX hset (hu1 h)]
    have : truncUint w n.toNat = n.toNat := by
      unfold truncUint
      apply Nat.mod_eq_of_lt
      have hcast : ((2 ^ w : Nat) : Int) = (2 : Int) ^ w := by push_cast; rfl
      have hpos : 0 < 2 ^ w := Nat.pow_pos (by norm_num)
      rw [← hcast] at h
      generalize 2 ^ w = cut at *
      omega
    rw [this]
  · intro h
    obtain ⟨e, he⟩ := hu2 h
    exact ⟨_, parseField_invalid_scalar ctx names name X _ _ _ hX hset
      (Rejects.uint w oldu e he)⟩

theorem integer_literal_range_witness :
    parseField (testCtx [("INT8", "-123")]) ["V"] ⟨"V", some "INT8", true, .int 8 0⟩ =
      (.int 8 (-123), .ok) ∧
    ∃ cause, parseField (testCtx [("INT8", "-123")]) ["V"] ⟨"V", some "INT8", true, .uint 8 5⟩ =
      (.uint 8 5, .err (.ParseError "V" "INT8" cause)) :=
  ⟨(integer_literal_range (testCtx [("INT8", "-123")]) ["V"] "V" "INT8" 8 (-123) 0 5
      (by decide) (by decide) (by rfl)).1 (by decide),
    (integer_literal_range (testCtx [("INT8", "-123")]) ["V"] "V" "INT8" 8 (-123) 0 5
      (by decide) (by decide) (by rfl)).2.2.2 (by decide)⟩

/-! ## Slices and arrays -/

theorem splitComma_no_comma (p : List Char) (hp : ',' ∉ p) : splitComma p = [p] := by
  induction p with
  | nil => rfl
  | cons c cs ih =>
    have hc : c ≠ ',' := fun h => hp (by simp [h])
    have hcs : ',' ∉ cs := fun h => hp (by simp [h])
    simp [splitComma, hc, ih hcs]

theorem splitComma_append (p rest : List Char) (hp : ',' ∉ p) :
    splitComma (p ++ ',' :: rest) = p :: splitComma rest := by
  induction p with
  | nil => simp [splitComma]
  | cons c cs ih =>
    have hc : c ≠ ',' := fun h => hp (by simp [h])
    have hcs : ',' ∉ cs := fun h => hp (by simp [h])
    simp [splitComma, hc, ih hcs]

theorem splitComma_joinComma (ps : List (List Char)) (hne : ps ≠ [])
    (hps : ∀ p ∈ ps, ',' ∉ p) : splitComma (joinComma ps) = ps := by
  induction ps with
  | nil => exact absurd rfl hne
  | cons p qs ih =>
    cases qs with
    | nil => simpa [joinComma] using splitComma_no_comma p (hps p (by simp))
    | cons q qs =>
      rw [joinComma, splitComma_append p _ (hps p (by simp)),
        ih (by simp) (fun x hx => hps x (by simp [hx]))]

/-- Splitting the comma-joined string of literals without commas gives the literals back. -/
theorem Split_Join (lits : List String) (hne : lits ≠ [])
    (hlits : ∀ l ∈ lits, ',' ∉ l.toList) : Split (Join lits) = lits := by
  unfold Split Join
  simp only [String.toList]
  rw [splitComma_joinComma _ (by simpa using hne)
    (by intro p hp; simp only [List.mem_map] at hp; obtain ⟨l, hl, rfl⟩ := hp; exact hlits l hl)]
  rw [List.map_map]
  conv_rhs => rw [← List.map_id lits]
  apply List.map_congr_left
  intro l _
  rfl

theorem rangeVals_replicate (step : Value → String → CallResult) (names : List String)
    (name X : String) (z : Value) :
    ∀ (lits : List String) (i : Nat),
    (∀ l ∈ lits, (finish name X z (step z l)).2 = .ok) →
    rangeVals step names X i lits (List.replicate lits.length z) =
      (lits.map (fun l => (finish name X z (step z l)).1), .ok) := by
  intro lits
  induction lits with
  | nil => intro i _; simp [rangeVals]
  | cons l ls ih =>
    intro i h
    have hl := h l (by simp)
    have hls := ih (i + 1) (fun x hx => h x (by simp [hx]))
    simp only [List.length_cons, List.replicate_succ, rangeVals]
    cases hstep : step z l with
    | crash => simp [hstep, finish] at hl
    | returns v err =>
      cases err with
      | some msg => simp [hstep, finish] at hl
      | none => simp [hls, finish, hstep]

theorem decodeBool_setenv (ctx : Ctx) (X a : String) :
    decodeBool (ctx.setenv X a) = decodeBool ctx := by
  funext v t; simp [decodeBool, NumError.Error, Ctx.setenv]

theorem decodeInt_setenv (ctx : Ctx) (X a : String) (b : Nat) :
    decodeInt (ctx.setenv X a) b = decodeInt ctx b := by
  funext v t; simp [decodeInt, NumError.Error, Ctx.setenv]

theorem decodeUint_setenv (ctx : Ctx) (X a : String) (b : Nat) :
    decodeUint (ctx.setenv X a) b = decodeUint ctx b := by
  funext v t; simp [decodeUint, NumError.Error, Ctx.setenv]

theorem decodeFloat_setenv (ctx : Ctx) (X a : String) (b : Nat) :
    decodeFloat (ctx.setenv X a) b = decodeFloat ctx b := by
  funext v t; simp [decodeFloat, Ctx.setenv]

theorem decodeDuration_setenv (ctx : Ctx) (X a : String) :
    decodeDuration (ctx.setenv X a) = decodeDuration ctx := by
  funext v t; simp [decodeDuration, Ctx.setenv]

theorem primStep_setenv (ctx : Ctx) (X a : String) (e : GoType) :
    primStep (ctx.setenv X a) e = primStep ctx e := by
  unfold primStep
  simp only [decodeBool_setenv, decodeInt_setenv, decodeUint_setenv, decodeFloat_setenv,
    decodeDuration_setenv]

/-- The array and slice branches choose `primStep` for a primitive element type. -/
theorem elemStep_primitive (ctx : Ctx) (e : GoType) (hprim : e.isPrimitive = true) :
    elemStep ctx e (zero e) = some (primStep ctx e) := by
  cases e with
  | named p n r u =>
    cases r with
    | some r => cases u <;> simp [GoType.isPrimitive] at hprim
    | none =>
      by_cases hd : (p == "time" && n == "Duration") = true
      · cases u <;> simp [GoType.isPrimitive] at hprim <;>
          simp [elemStep, zero, implementsValue, implementsAddr, GoType.isDuration, hd,
            primStep]
      · cases u <;> simp [GoType.isPrimitive] at hprim <;>
          simp [elemStep, zero, implementsValue, implementsAddr, GoType.isDuration, hd,
            primStep, GoType.kind, GoType.bits]
  | _ =>
    simp [GoType.isPrimitive] at hprim <;>
      simp [elemStep, zero, implementsValue, implementsAddr, GoType.isDuration, primStep,
        GoType.kind, GoType.bits]

/-- A scalar field of a primitive type is decoded by `primStep`. -/
theorem parseField_primitive (ctx : Ctx) (names : List String) (name X l : String)
    (e : GoType) (hX : X ≠ "") (hprim : e.isPrimitive = true) :
    parseField (ctx.setenv X l) names ⟨name, some X, true, zero e⟩ =
      finish name X (zero e) (primStep ctx e (zero e) l) := by
  rw [← primStep_setenv ctx X l e]
  have hl : (ctx.setenv X l).lookupEnv X = some l := by simp [Ctx.setenv]
  have hg : (ctx.setenv X l).getenv X = l := getenv_of_lookup _ X l hl
  generalize ctx.setenv X l = ctx' at *
  cases e with
  | named p n r u =>
    cases r with
    | some r => cases u <;> simp [GoType.isPrimitive] at hprim
    | none =>
      by_cases hd : (p == "time" && n == "Duration") = true
      · cases u <;> simp [GoType.isPrimitive] at hprim <;>
          simp [parseField, hX, hl, hg, zero, parseAsTextUnmarshaler, implementsValue,
            implementsAddr, parseValue, parseTagged, Value.isDuration, Value.kind, hd,
            primStep, GoType.isDuration]
      · cases u <;> simp [GoType.isPrimitive] at hprim <;>
          simp [parseField, hX, hl, hg, zero, parseAsTextUnmarshaler, implementsValue,
            implementsAddr, parseValue, parseTagged, Value.isDuration, Value.kind, hd,
            primStep, GoType.isDuration, GoType.kind, GoType.bits, Value.bits]
  | _ =>
    simp [GoType.isPrimitive] at hprim <;>
      simp [parseField, hX, hl, hg, zero, parseAsTextUnmarshaler, implementsValue,
        implementsAddr, parseValue, parseTagged, Value.isDuration, Value.kind,
        primStep, GoType.isDuration, GoType.kind, GoType.bits, Value.bits]

/-- C3, as stated, fails for `N = 0`: the comma-joined string of no literals is the empty
string, which splits into one empty substring. A `[]int` field then fails on that
substring, and a `[]string` field gets one element, not none. -/
theorem list_of_no_literals_is_not_empty :
    Join [] = "" ∧
    (Parse ((testCtx []).setenv "L" (Join []))
      (structPtr [⟨"V", some "L", true, .slice (.int 64) []⟩])).2 =
      .err (.ParseError "V" "L"
        (NumError.Error (testCtx []) ⟨"ParseInt", "", .ErrSyntax⟩)) ∧
    Parse ((testCtx []).setenv "L" (Join []))
      (structPtr [⟨"V", some "L", true, .slice .string []⟩]) =
      (structPtr [⟨"V", some "L", true, .slice .string [.string ""]⟩], .ok) := by
  refine ⟨by rfl, by rfl, by rfl⟩

/-- C3, amended: for `N ≥ 1` literals without commas, each of which a scalar field of
the primitive element type decodes without error, a settable slice field whose variable
holds their comma-joined string ends its iteration without error, and its new value is
the list of exactly `N` elements whose `i`-th element is the value the scalar field gets
from the `i`-th literal alone, in the same order, whatever the list held before. -/
theorem list_round_trip (ctx : Ctx) (names : List String) (name X : String) (e : GoType)
    (lits : List String) (old : List Value)
    (hX : X ≠ "") (hprim : e.isPrimitive = true) (hne : lits ≠ [])
    (hcomma : ∀ l ∈ lits, ',' ∉ l.toList)
    (hvalid : ∀ l ∈ lits,
      (parseField (ctx.setenv X l) names ⟨name, some X, true, zero e⟩).2 = .ok) :
    parseField (ctx.setenv X (Join lits)) names ⟨name, some X, true, .slice e old⟩ =
      (.slice e (lits.map (fun l =>
          (parseField (ctx.setenv X l) names ⟨name, some X, true, zero e⟩).1)), .ok) ∧
    (parseField (ctx.setenv X (Join lits)) names
      ⟨name, some X, true, .slice e old⟩).1.elems.length = lits.length := by
  have hl : (ctx.setenv X (Join lits)).lookupEnv X = some (Join lits) := by simp [Ctx.setenv]
  have hg := getenv_of_lookup _ X _ hl
  have hstep := elemStep_primitive (ctx.setenv X (Join lits)) e hprim
  rw [primStep_setenv] at hstep
  have hvalid' : ∀ l ∈ lits, (finish name X (zero e) (primStep ctx e (zero e) l)).2 = .ok := by
    intro l hl'
    rw [← parseField_primitive ctx names name X l e hX hprim]
    exact hvalid l hl'
  have hrange := rangeVals_replicate (primStep ctx e) names name X (zero e) lits 0 hvalid'
  have hmain : parseField (ctx.setenv X (Join lits)) names ⟨name, some X, true, .slice e old⟩ =
      (.slice e (lits.map (fun l =>
          (parseField (ctx.setenv X l) names ⟨name, some X, true, zero e⟩).1)), .ok) := by
    have hfun : (fun l => (parseField (ctx.setenv X l) names
        ⟨name, some X, true, zero e⟩).1) =
        (fun l => (finish name X (zero e) (primStep ctx e (zero e) l)).1) := by
      funext l
      rw [parseField_primitive ctx names name X l e hX hprim]
    rw [hfun]
    obtain ⟨l0, ls, rfl⟩ := List.exists_cons_of_ne_nil hne
    simp only [parseField, hX, hl, parseAsTextUnmarshaler, implementsValue, implementsAddr,
      parseValue, parseTagged, Value.isDuration, Value.kind, hg, Value.elemType,
      Split_Join _ hne hcomma]
    simp only [List.length_cons, List.replicate_succ, hstep] at hrange ⊢
    simp [hrange, Value.setElems]
  refine ⟨hmain, ?_⟩
  rw [hmain]
  simp [Value.elems]

theorem list_round_trip_witness :
    parseField ((testCtx []).setenv "L" (Join ["1", "2", "3"])) ["V"]
        ⟨"V", some "L", true, .slice (.int 64) []⟩ =
      (.slice (.int 64) [.int 64 1, .int 64 2, .int 64 3], .ok) :=
  (list_round_trip (testCtx []) ["V"] "V" "L" (.int 64) ["1", "2", "3"] []
    (by decide) (by rfl) (by decide) (by decide) (by decide)).1.trans (by rfl)

theorem decodeBool_congr (ctx : Ctx) (name X l : String) (d d' : Value)
    (hset : ∀ y, d.setBool y = d'.setBool y) :
    (finish name X d (decodeBool ctx d l)).2 = (finish name X d' (decodeBool ctx d' l)).2 ∧
    ((finish name X d' (decodeBool ctx d' l)).2 = .ok →
      (finish name X d (decodeBool ctx d l)).1 = (finish name X d' (decodeBool ctx d' l)).1) := by
  unfold decodeBool
  rcases ParseBool l with ⟨y, _ | e⟩
  · simp only [hset]; cases d'.setBool y <;> simp [stored, finish]
  · simp [finish]

theorem decodeString_congr (name X l : String) (d d' : Value)
    (hset : ∀ y, d.setString y = d'.setString y) :
    (finish name X d (decodeString d l)).2 = (finish name X d' (decodeString d' l)).2 ∧
    ((finish name X d' (decodeString d' l)).2 = .ok →
      (finish name X d (decodeString d l)).1 = (finish name X d' (decodeString d' l)).1) := by
  unfold decodeString
  simp only [hset]; cases d'.setString l <;> simp [stored, finish]

theorem decodeInt_congr (ctx : Ctx) (name X l : String) (b : Nat) (d d' : Value)
    (hset : ∀ y, d.setInt y = d'.setInt y) :
    (finish name X d (decodeInt ctx b d l)).2 = (finish name X d' (decodeInt ctx b d' l)).2 ∧
    ((finish name X d' (decodeInt ctx b d' l)).2 = .ok →
      (finish name X d (decodeInt ctx b d l)).1 =
        (finish name X d' (decodeInt ctx b d' l)).1) := by
  unfold decodeInt
  rcases ParseInt l b with ⟨y, _ | e⟩
  · simp only [hset]; cases d'.setInt y <;> simp [stored, finish]
  · simp [finish]

theorem decodeUint_congr (ctx : Ctx) (name X l : String) (b : Nat) (d d' : Value)
    (hset : ∀ y, d.setUint y = d'.setUint y) :
    (finish name X d (decodeUint ctx b d l)).2 = (finish name X d' (decodeUint ctx b d' l)).2 ∧
    ((finish name X d' (decodeUint ctx b d' l)).2 = .ok →
      (finish name X d (decodeUint ctx b d l)).1 =
        (finish name X d' (decodeUint ctx b d' l)).1) := by
  unfold decodeUint
  rcases ParseUint l b with ⟨y, _ | e⟩
  · simp only [hset]; cases d'.setUint y <;> simp [stored, finish]
  · simp [finish]

theorem decodeFloat_congr (ctx : Ctx) (name X l : String) (b : Nat) (d d' : Value)
    (hset : ∀ y, d.setFloat y = d'.setFloat y) :
    (finish name X d (decodeFloat ctx b d l)).2 =
        (finish name X d' (decodeFloat ctx b d' l)).2 ∧
    ((finish name X d' (decodeFloat ctx b d' l)).2 = .ok →
      (finish name X d (decodeFloat ctx b d l)).1 =
        (finish name X d' (decodeFloat ctx b d' l)).1) := by
  unfold decodeFloat
  rcases ctx.parseFloat l b with msg | y
  · simp [finish]
  · simp only [hset]; cases d'.setFloat y <;> simp [stored, finish]

theorem decodeDuration_congr (ctx : Ctx) (name X l : String) (d d' : Value)
    (hset : ∀ y, d.setInt y = d'.setInt y) :
    (finish name X d (decodeDuration ctx d l)).2 =
        (finish name X d' (decodeDuration ctx d' l)).2 ∧
    ((finish name X d' (decodeDuration ctx d' l)).2 = .ok →
      (finish name X d (decodeDuration ctx d l)).1 =
        (finish name X d' (decodeDuration ctx d' l)).1) := by
  unfold decodeDuration
  rcases ctx.parseDuration l with msg | y
  · simp [finish]
  · simp only [hset]; cases d'.setInt y <;> simp [stored, finish]

/-- On a value of the primitive type `e` the decoder ends as it does on the zero value of
`e`, and a successful call stores the same value. -/
theorem primStep_typed (ctx : Ctx) (name X l : String) (e : GoType) (d : Value)
    (hprim : e.isPrimitive = true) (hd : typeOf d = e) :
    (finish name X d (primStep ctx e d l)).2 =
        (finish name X (zero e) (primStep ctx e (zero e) l)).2 ∧
    ((finish name X (zero e) (primStep ctx e (zero e) l)).2 = .ok →
      (finish name X d (primStep ctx e d l)).1 =
        (finish name X (zero e) (primStep ctx e (zero e) l)).1) := by
  subst hd
  cases d with
  | named p n r u =>
    cases r with
    | some r => cases u <;> simp [typeOf, GoType.isPrimitive] at hprim
    | none =>
      by_cases hdur : (p == "time" && n == "Duration") = true
      · have hstep : primStep ctx (typeOf (.named p n none u)) = decodeDuration ctx := by
          simp [primStep, typeOf, GoType.isDuration, hdur]
        rw [hstep]
        cases u <;> simp [typeOf, GoType.isPrimitive] at hprim <;>
          exact decodeDuration_congr ctx name X l _ _
            (by intro y; simp [typeOf, zero, Value.setInt])
      · cases u <;> simp [typeOf, GoType.isPrimitive] at hprim <;>
          simp only [typeOf, primStep, GoType.isDuration, hdur, GoType.kind, GoType.bits,
            zero, Bool.false_eq_true, if_false] <;>
          first
          | exact decodeBool_congr ctx name X l _ _ (by intro y; simp [Value.setBool])
          | exact decodeString_congr name X l _ _ (by intro y; simp [Value.setString])
          | exact decodeInt_congr ctx name X l _ _ _ (by intro y; simp [Value.setInt])
          | exact decodeUint_congr ctx name X l _ _ _ (by intro y; simp [Value.setUint])
          | exact decodeFloat_congr ctx name X l _ _ _ (by intro y; simp [Value.setFloat])
  | _ =>
    simp [typeOf, GoType.isPrimitive] at hprim <;>
      simp only [typeOf, primStep, GoType.isDuration, GoType.kind, GoType.bits,
        zero, Bool.false_eq_true, if_false] <;>
      first
      | exact decodeBool_congr ctx name X l _ _ (by intro y; simp [Value.setBool])
      | exact decodeString_congr name X l _ _ (by intro y; simp [Value.setString])
      | exact decodeInt_congr ctx name X l _ _ _ (by intro y; simp [Value.setInt])
      | exact decodeUint_congr ctx name X l _ _ _ (by intro y; simp [Value.setUint])
      | exact decodeFloat_congr ctx name X l _ _ _ (by intro y; simp [Value.setFloat])

/-- The array and slice branches choose `primStep` when the probe is a value of a
primitive element type. -/
theorem elemStep_typed (ctx : Ctx) (e : GoType) (d : Value)
    (hprim : e.isPrimitive = true) (hd : typeOf d = e) :
    elemStep ctx e d = some (primStep ctx e) := by
  subst hd
  cases d with
  | named p n r u =>
    cases r with
    | some r => cases u <;> simp [typeOf, GoType.isPrimitive] at hprim
    | none =>
      by_cases hdur : (p == "time" && n == "Duration") = true
      · cases u <;> simp [typeOf, GoType.isPrimitive] at hprim <;>
          simp [elemStep, typeOf, implementsValue, implementsAddr, GoType.isDuration, hdur,
            primStep]
      · cases u <;> simp [typeOf, GoType.isPrimitive] at hprim <;>
          simp [elemStep, typeOf, implementsValue, implementsAddr, GoType.isDuration, hdur,
            primStep, GoType.kind, GoType.bits]
  | _ =>
    simp [typeOf, GoType.isPrimitive] at hprim <;>
      simp [elemStep, typeOf, implementsValue, implementsAddr, GoType.isDuration, primStep,
        GoType.kind, GoType.bits]

theorem finish_ok (name X : String) (d : Value) (r : CallResult)
    (h : (finish name X d r).2 = .ok) : r = .returns (finish name X d r).1 none := by
  cases r with
  | crash => simp [finish] at h
  | returns v err =>
    cases err with
    | some msg => simp [finish] at h
    | none => simp [finish]

/-- The element loop on a destination of values of a primitive type, with literals that
all decode: the positions that have a literal hold its value, the others are kept. -/
theorem rangeVals_typed (ctx : Ctx) (names : List String) (name X : String) (e : GoType)
    (hprim : e.isPrimitive = true) :
    ∀ (vals : List String) (dst : List Value) (i : Nat), vals.length ≤ dst.length →
    (∀ d ∈ dst, typeOf d = e) →
    (∀ l ∈ vals, (finish name X (zero e) (primStep ctx e (zero e) l)).2 = .ok) →
    rangeVals (primStep ctx e) names X i vals dst =
      (vals.map (fun l => (finish name X (zero e) (primStep ctx e (zero e) l)).1) ++
        dst.drop vals.length, .ok) := by
  intro vals
  induction vals with
  | nil => intro dst i _ _ _; simp [rangeVals]
  | cons l ls ih =>
    intro dst i hlen htyped hvalid
    cases dst with
    | nil => simp at hlen
    | cons d ds =>
      have hl := hvalid l (by simp)
      obtain ⟨h2, h1⟩ := primStep_typed ctx name X l e d hprim (htyped d (by simp))
      rw [hl] at h2
      have hstep := finish_ok name X d _ h2
      have hrest := ih ds (i + 1) (by simpa using hlen)
        (fun x hx => htyped x (by simp [hx])) (fun x hx => hvalid x (by simp [hx]))
      rw [rangeVals, hstep]
      simp only [hrest, h1 hl]
      simp

/-- Arrays of length at least one: for a settable array field of a primitive element type
whose variable holds `s`, when each of the first `min(M, L)` of the `M` substrings of `s`
is a literal a scalar field of the element type decodes, the iteration ends without
error, position `i < min(M, L)` holds the value of the `i`-th literal and the positions
from `min(M, L)` on keep their values; the substrings from `L` on are not looked at. -/
theorem array_truncation (ctx : Ctx) (names : List String) (name X s : String) (e : GoType)
    (old : List Value)
    (hX : X ≠ "") (hset : ctx.lookupEnv X = some s) (hprim : e.isPrimitive = true)
    (hL : old ≠ []) (htyped : ∀ d ∈ old, typeOf d = e)
    (hvalid : ∀ l ∈ (Split s).take old.length,
      (parseField (ctx.setenv X l) names ⟨name, some X, true, zero e⟩).2 = .ok) :
    parseField ctx names ⟨name, some X, true, .array e old⟩ =
      (.array e (((Split s).take old.length).map (fun l =>
          (parseField (ctx.setenv X l) names ⟨name, some X, true, zero e⟩).1) ++
        old.drop (Split s).length), .ok) := by
  have hg := getenv_of_lookup ctx X s hset
  have hfun : (fun l => (parseField (ctx.setenv X l) names
      ⟨name, some X, true, zero e⟩).1) =
      (fun l => (finish name X (zero e) (primStep ctx e (zero e) l)).1) := by
    funext l
    rw [parseField_primitive ctx names name X l e hX hprim]
  have hvalid' : ∀ l ∈ (Split s).take old.length,
      (finish name X (zero e) (primStep ctx e (zero e) l)).2 = .ok := by
    intro l hl
    rw [← parseField_primitive ctx names name X l e hX hprim]
    exact hvalid l hl
  have hvals : (if (Split s).length > old.length then (Split s).take old.length else Split s) =
      (Split s).take old.length := by
    split_ifs with h
    · rfl
    · rw [List.take_of_length_le (by omega)]
  have hdrop : old.drop ((Split s).take old.length).length = old.drop (Split s).length := by
    rw [List.length_take]
    by_cases h : (Split s).length ≤ old.length
    · rw [Nat.min_eq_right h]
    · rw [Nat.min_eq_left (by omega), List.drop_of_length_le (le_refl _),
        List.drop_of_length_le (by omega)]
  have hrange := rangeVals_typed ctx names name X e hprim ((Split s).take old.length) old 0
    (by rw [List.length_take]; omega) htyped hvalid'
  rw [hdrop] at hrange
  rw [hfun]
  obtain ⟨d0, ds, rfl⟩ := List.exists_cons_of_ne_nil hL
  have hstep := elemStep_typed ctx e d0 hprim (htyped d0 (by simp))
  simp only [parseField, hX, hset, parseAsTextUnmarshaler, implementsValue, implementsAddr,
    parseValue, parseTagged, Value.isDuration, Value.kind, hg, Value.elemType, Value.elems,
    hvals, hstep, hrange]
  simp [Value.setElems]

theorem array_truncation_example :
    parseField (testCtx [("A", "1,2,x")]) ["V"]
        ⟨"V", some "A", true, .array (.int 64) [.int 64 8, .int 64 9]⟩ =
      (.array (.int 64) [.int 64 1, .int 64 2], .ok) :=
  (array_truncation (testCtx [("A", "1,2,x")]) ["V"] "V" "A" "1,2,x" (.int 64)
    [.int 64 8, .int 64 9] (by decide) (by rfl) (by rfl) (by simp) (by simp [typeOf])
    (by decide)).trans (by rfl)

/-- C4: the code at the failing input. A settable array field of length 0 whose variable is
set makes `Parse` panic: the probe `fieldVal.Index(0)` is taken before the length of the
array is looked at. For arrays of length at least one the claim holds
(`array_truncation`): an array of length 2 keeps two of three literals, the third never
being decoded, and keeps its second position when one literal is given. -/
theorem zero_length_array_panics :
    Parse (testCtx [("A", "1")]) (structPtr [⟨"V", some "A", true, .array (.int 64) []⟩]) =
      (structPtr [⟨"V", some "A", true, .array (.int 64) []⟩], .crash) ∧
    Parse (testCtx [("A", "1,2,x")])
        (structPtr [⟨"V", some "A", true, .array (.int 64) [.int 64 8, .int 64 9]⟩]) =
      (structPtr [⟨"V", some "A", true, .array (.int 64) [.int 64 1, .int 64 2]⟩], .ok) ∧
    Parse (testCtx [("A", "1")])
        (structPtr [⟨"V", some "A", true, .array (.int 64) [.int 64 8, .int 64 9]⟩]) =
      (structPtr [⟨"V", some "A", true, .array (.int 64) [.int 64 1, .int 64 9]⟩], .ok) := by
  refine ⟨by rfl, by rfl, by rfl⟩

/-! ## Declaration order -/

/-- When every field of a prefix ends its iteration without error, the loop leaves each
of them with the value its own iteration gives it. -/
theorem parseFields_all_ok (ctx : Ctx) (names : List String) (pre : List (Field Value))
    (h : ∀ f ∈ pre, (parseField ctx names f).2 = .ok) :
    parseFields ctx names pre = (pre.map (bound ctx names), .ok) := by
  induction pre with
  | nil => simp [parseFields]
  | cons f pre ih =>
    rw [parseFields_cons_ok ctx names f pre (h f (by simp)),
      ih (fun g hg => h g (by simp [hg]))]
    simp [bound]

/-- C13: in a record `pre ++ fk :: post` in which every field of `pre` is processed
without error and the processing of `fk` fails with the error `e`, `Parse` returns `e`,
whatever the fields of `post` would do; every field of `pre` holds the value its own
binding gives it, and every field of `post` is as it was before the call. -/
theorem first_failure_aborts (ctx : Ctx) (pre post : List (Field Value)) (fk : Field Value)
    (e : Error) (ty : GoType)
    (hpre : ∀ f ∈ pre, (parseField ctx (fieldNames (pre ++ fk :: post)) f).2 = .ok)
    (hfk : (parseField ctx (fieldNames (pre ++ fk :: post)) fk).2 = .err e) :
    Parse ctx (.ptr ty (some (.struct (pre ++ fk :: post)))) =
      (.ptr ty (some (.struct
          (pre.map (bound ctx (fieldNames (pre ++ fk :: post))) ++
            bound ctx (fieldNames (pre ++ fk :: post)) fk :: post))),
        .err e) := by
  have h1 := parseFields_all_ok ctx (fieldNames (pre ++ fk :: post)) pre hpre
  have h2 := parseFields_first_failure ctx (fieldNames (pre ++ fk :: post)) pre post fk
    (by rw [h1]) (by rw [hfk]; simp)
  rw [Parse_struct, h2, h1, hfk]
  simp [bound]

theorem first_failure_aborts_witness :
    Parse (testCtx [("A", "1"), ("B", "x"), ("C", "y")])
        (.ptr (.other "struct") (some (.struct
          ([⟨"A", some "A", true, .int 64 0⟩] ++ ⟨"B", some "B", true, .int 64 5⟩ ::
            [⟨"C", some "C", true, .bool true⟩])))) =
      (.ptr (.other "struct") (some (.struct
          [⟨"A", some "A", true, .int 64 1⟩, ⟨"B", some "B", true, .int 64 5⟩,
            ⟨"C", some "C", true, .bool true⟩])),
        .err (.ParseError "B" "B"
          (NumError.Error (testCtx []) ⟨"ParseInt", "x", .ErrSyntax⟩))) :=
  (first_failure_aborts (testCtx [("A", "1"), ("B", "x"), ("C", "y")])
    [⟨"A", some "A", true, .int 64 0⟩] [⟨"C", some "C", true, .bool true⟩]
    ⟨"B", some "B", true, .int 64 5⟩
    (.ParseError "B" "B" (NumError.Error (testCtx []) ⟨"ParseInt", "x", .ErrSyntax⟩))
    (.other "struct") (by decide) (by rfl)).trans (by rfl)

/-! ## Booleans and strings -/

/-- C16: a settable boolean field whose variable holds `s` becomes `true` when `s` is one
of `1, t, T, TRUE, true, True`, becomes `false` when `s` is one of
`0, f, F, FALSE, false, False`, and for every other `s` (the empty string included) its
iteration ends with a `ParseError` for the field and the variable, the field unchanged. -/
theorem boolean_tokens (ctx : Ctx) (names : List String) (name X s : String) (old : Bool)
    (hX : X ≠ "") (hset : ctx.lookupEnv X = some s) :
    (s ∈ ["1", "t", "T", "TRUE", "true", "True"] →
      parseField ctx names ⟨name, some X, true, .bool old⟩ = (.bool true, .ok)) ∧
    (s ∈ ["0", "f", "F", "FALSE", "false", "False"] →
      parseField ctx names ⟨name, some X, true, .bool old⟩ = (.bool false, .ok)) ∧
    (s ∉ ["1", "t", "T", "TRUE", "true", "True"] →
      s ∉ ["0", "f", "F", "FALSE", "false", "False"] →
      ∃ cause, parseField ctx names ⟨name, some X, true, .bool old⟩ =
        (.bool old, .err (.ParseError name X cause))) := by
  have hg := getenv_of_lookup ctx X s hset
  have hfield : parseField ctx names ⟨name, some X, true, .bool old⟩ =
      finish name X (.bool old) (decodeBool ctx (.bool old) s) := by
    simp [parseField, hX, hset, parseAsTextUnmarshaler, implementsValue, implementsAddr,
      parseValue, parseTagged, Value.isDuration, Value.kind, hg]
  refine ⟨?_, ?_, ?_⟩
  · intro h
    have hp : ParseBool s = (true, none) := by
      simp only [List.mem_cons, List.mem_singleton, List.not_mem_nil, or_false] at h
      unfold ParseBool
      rw [if_pos (by tauto)]
    rw [hfield]
    simp [decodeBool, hp, stored, Value.setBool, finish]
  · intro h
    have hp : ParseBool s = (false, none) := by
      simp only [List.mem_cons, List.mem_singleton, List.not_mem_nil, or_false] at h
      unfold ParseBool
      have hn : ¬ (s = "1" ∨ s = "t" ∨ s = "T" ∨ s = "true" ∨ s = "TRUE" ∨ s = "True") := by
        rcases h with h | h | h | h | h | h <;> subst h <;> decide
      rw [if_neg hn, if_pos (by tauto)]
    rw [hfield]
    simp [decodeBool, hp, stored, Value.setBool, finish]
  · intro h1 h2
    have hp : ParseBool s = (false, some ⟨"ParseBool", s, .ErrSyntax⟩) := by
      simp only [List.mem_cons, List.mem_singleton, List.not_mem_nil, or_false] at h1 h2
      unfold ParseBool
      rw [if_neg (by tauto), if_neg (by tauto)]
    rw [hfield]
    exact ⟨NumError.Error ctx ⟨"ParseBool", s, .ErrSyntax⟩, by simp [decodeBool, hp, finish]⟩

theorem boolean_tokens_witness :
    parseField (testCtx [("BOOL", "T")]) ["V"] ⟨"V", some "BOOL", true, .bool false⟩ =
      (.bool true, .ok) ∧
    (∃ cause, parseField (testCtx [("BOOL", "")]) ["V"] ⟨"V", some "BOOL", true, .bool true⟩ =
      (.bool true, .err (.ParseError "V" "BOOL" cause))) :=
  ⟨(boolean_tokens (testCtx [("BOOL", "T")]) ["V"] "V" "BOOL" "T" false (by decide)
      (by rfl)).1 (by decide),
    (boolean_tokens (testCtx [("BOOL", "")]) ["V"] "V" "BOOL" "" true (by decide)
      (by rfl)).2.2 (by decide) (by decide)⟩

/-- C17: a settable string field whose variable exists with the value `s` (any string:
empty, with commas) ends its iteration without error and holds exactly `s`, whatever it
held before; in a record whose earlier fields do not fail the loop goes on after it. -/
theorem string_verbatim (ctx : Ctx) (names : List String) (name X s old : String)
    (pre post : List (Field Value))
    (hX : X ≠ "") (hset : ctx.lookupEnv X = some s)
    (hpre : (parseFields ctx names pre).2 = .ok) :
    parseField ctx names ⟨name, some X, true, .string old⟩ = (.string s, .ok) ∧
    parseFields ctx names (pre ++ ⟨name, some X, true, .string old⟩ :: post) =
      ((parseFields ctx names pre).1 ++ ⟨name, some X, true, .string s⟩ ::
          (parseFields ctx names post).1,
        (parseFields ctx names post).2) := by
  have hg := getenv_of_lookup ctx X s hset
  have h1 : parseField ctx names ⟨name, some X, true, .string old⟩ = (.string s, .ok) := by
    simp [parseField, hX, hset, parseAsTextUnmarshaler, implementsValue, implementsAddr,
      parseValue, parseTagged, Value.isDuration, Value.kind, hg, decodeString, stored,
      Value.setString, finish]
  refine ⟨h1, ?_⟩
  rw [parseFields_skip ctx names pre post _ hpre (by rw [h1]), h1]

theorem string_verbatim_witness :
    parseField (testCtx [("STRING", "")]) ["V"] ⟨"V", some "STRING", true, .string "some"⟩ =
      (.string "", .ok) ∧
    parseField (testCtx [("STRING", "a,b,")]) ["V"]
        ⟨"V", some "STRING", true, .string "some"⟩ = (.string "a,b,", .ok) :=
  ⟨(string_verbatim (testCtx [("STRING", "")]) ["V"] "V" "STRING" "" "some" [] []
      (by decide) (by rfl) (by rfl)).1,
    (string_verbatim (testCtx [("STRING", "a,b,")]) ["V"] "V" "STRING" "a,b," "some" [] []
      (by decide) (by rfl) (by rfl)).1⟩

/-! ## Failures inside nested records -/

/-- An untagged field that holds a struct behind `d` non-nil pointers ends its iteration
as `parseStruct` on that struct does, an error being wrapped in a `ParseError` that names
the field. -/
theorem parseField_untagged_record (ctx : Ctx) (names : List String) (name : String)
    (N : Value) (T : GoType) (d : Nat) (hN : N.kind = .Struct) :
    parseField ctx names ⟨name, none, true, ptrTo d T N⟩ =
      (ptrTo d T (parseStruct ctx N).1, wrapNested ctx name (parseStruct ctx N).2) := by
  simp only [parseField]
  rw [parseValue_untagged_ptrTo, parseValue_untagged_struct ctx names name N hN]
  simp

theorem parseStruct_of_Parse (ctx : Ctx) (ty : GoType) (N N' : Value) (o : Outcome)
    (hN : N.kind = .Struct) (h : Parse ctx (.ptr ty (some N)) = (.ptr ty (some N'), o)) :
    parseStruct ctx N = (N', o) := by
  simp only [Parse, hN, if_true] at h
  have h1 := congrArg Prod.fst h
  have h2 := congrArg Prod.snd h
  simp only [Value.ptr.injEq, Option.some.injEq, true_and] at h1 h2
  exact Prod.ext h1 h2

theorem fieldNames_append (pre post : List (Field Value)) (f : Field Value) :
    fieldNames (pre ++ f :: post) = fieldNames pre ++ f.Name :: fieldNames post := by
  simp [fieldNames]

theorem kind_nestIn (N : Value) (hN : N.kind = .Struct) :
    ∀ ns : List String, (nestIn ns N).kind = .Struct := by
  intro ns
  cases ns with
  | nil => simpa [nestIn] using hN
  | cons n ns => simp [nestIn, Value.kind]

/-- A failure of the innermost record is wrapped once per level of nesting. -/
theorem parseStruct_nestIn (ctx : Ctx) (N N' : Value) (e : Error) (hN : N.kind = .Struct)
    (h : parseStruct ctx N = (N', .err e)) :
    ∀ ns : List String,
      parseStruct ctx (nestIn ns N) = (nestIn ns N', .err (wrapIn ctx ns e)) := by
  intro ns
  induction ns with
  | nil => simpa [nestIn, wrapIn] using h
  | cons n ns ih =>
    have hf := parseField_untagged_record ctx
      (fieldNames [⟨n, none, true, nestIn ns N⟩]) n (nestIn ns N) (.other "struct") 0
      (kind_nestIn N hN ns)
    simp only [ptrTo, ih, wrapNested] at hf
    simp only [nestIn, parseStruct, wrapIn]
    rw [parseFields_cons_stop ctx _ _ _ (by rw [hf]; simp), hf]

/-- C11: in a record whose earlier fields do not fail, an untagged field `name` that
holds a struct `N`, directly or behind `d` non-nil pointers, such that `Parse` on `N`
alone fails with the error `e`, makes `Parse` return the `ParseError` that names the
field `name` and has the message of `e` as its cause; and when `N` lies `ns.length`
records deep, each with the single field named in `ns`, the error is wrapped once per
level (`wrapIn`), the outermost wrapper naming the top-level field. -/
theorem nested_failure_is_wrapped (ctx : Ctx) (name : String) (N N' : Value) (T ty : GoType)
    (d : Nat) (pre post : List (Field Value)) (e : Error) (ns : List String)
    (hN : N.kind = .Struct)
    (hfail : Parse ctx (.ptr ty (some N)) = (.ptr ty (some N'), .err e))
    (hpre : (parseFields ctx (fieldNames (pre ++ ⟨name, none, true, ptrTo d T N⟩ :: post))
      pre).2 = .ok) :
    Parse ctx (.ptr ty (some (.struct (pre ++ ⟨name, none, true, ptrTo d T N⟩ :: post)))) =
      (.ptr ty (some (.struct
          ((parseFields ctx (fieldNames (pre ++ ⟨name, none, true, ptrTo d T N⟩ :: post))
              pre).1 ++ ⟨name, none, true, ptrTo d T N'⟩ :: post))),
        .err (.ParseError name "" (ctx.errorText e))) ∧
    Parse ctx (.ptr ty (some (nestIn ns N))) =
      (.ptr ty (some (nestIn ns N')), .err (wrapIn ctx ns e)) := by
  have hp := parseStruct_of_Parse ctx ty N N' _ hN hfail
  constructor
  · have hf := parseField_untagged_record ctx
      (fieldNames (pre ++ ⟨name, none, true, ptrTo d T N⟩ :: post)) name N T d hN
    simp only [hp, wrapNested] at hf
    have h2 := parseFields_first_failure ctx _ pre post ⟨name, none, true, ptrTo d T N⟩ hpre
      (by rw [hf]; simp)
    rw [hf] at h2
    rw [Parse_struct, h2]
  · have hk := kind_nestIn N hN ns
    simp only [Parse, hk, if_true, parseStruct_nestIn ctx N N' e hN hp ns]

theorem nested_failure_is_wrapped_witness :
    Parse (testCtx [("FAIL_NESTED", "?-?")])
        (.ptr (.other "struct") (some (nestIn ["N", "M"]
          (.struct [⟨"V", some "FAIL_NESTED", true, .int 64 0⟩])))) =
      (.ptr (.other "struct") (some (nestIn ["N", "M"]
          (.struct [⟨"V", some "FAIL_NESTED", true, .int 64 0⟩]))),
        .err (.ParseError "N" "" ((testCtx []).errorText
          (.ParseError "M" "" ((testCtx []).errorText
            (.ParseError "V" "FAIL_NESTED"
              (NumError.Error (testCtx []) ⟨"ParseInt", "?-?", .ErrSyntax⟩))))))) :=
  (nested_failure_is_wrapped (testCtx [("FAIL_NESTED", "?-?")]) "N"
    (.struct [⟨"V", some "FAIL_NESTED", true, .int 64 0⟩])
    (.struct [⟨"V", some "FAIL_NESTED", true, .int 64 0⟩]) (.other "struct") (.other "struct")
    0 [] []
    (.ParseError "V" "FAIL_NESTED"
      (NumError.Error (testCtx []) ⟨"ParseInt", "?-?", .ErrSyntax⟩))
    ["N", "M"] (by rfl) (by rfl) (by rfl)).2

/-- C12, as stated, fails: in the record `{N struct{V uint8 env:""}}` the inner field has
an empty annotation, and `Parse` returns a `ParseError` naming `N` whose cause is the
message of the `EmptyVarNameError`, not that error; in `{N struct{V uintptr env:"U"}}` with
`U` set it returns a `ParseError` naming `N`, not the `UnparsableTypeError`. -/
theorem nested_error_is_not_returned_as_is :
    (Parse (testCtx [])
        (structPtr [⟨"N", none, true, .struct [⟨"V", some "", true, .uint 8 5⟩]⟩])).2 =
      .err (.ParseError "N" "" ((testCtx []).errorText (.EmptyVarNameError "V"))) ∧
    (Parse (testCtx [("U", "2")])
        (structPtr [⟨"N", none, true, .struct [⟨"V", some "U", true, .other "uintptr"⟩]⟩])).2 =
      .err (.ParseError "N" "" ((testCtx []).errorText (.UnparsableTypeError "V"))) := by
  refine ⟨by rfl, by rfl⟩

/-- C12, amended: in a record whose earlier fields do not fail and whose untagged field
`name` holds, directly or behind `d` non-nil pointers, a struct in which the first
failing field is `V`, `Parse` returns a `ParseError` naming the outer field `name` whose
cause is the message of the error of `V`: of `EmptyVarNameError V` when the annotation of
`V` is empty, of `UnparsableTypeError V` when `V` is annotated with an existing variable
and is of a kind without decoding strategy. -/
theorem nested_error_is_wrapped (ctx : Ctx) (name V X s k : String) (v : Value)
    (T ty : GoType) (d : Nat) (pre post ipre ipost : List (Field Value))
    (hX : X ≠ "") (hset : ctx.lookupEnv X = some s)
    (hpre : (parseFields ctx (fieldNames pre ++ name :: fieldNames post) pre).2 = .ok)
    (hipre : (parseFields ctx (fieldNames ipre ++ V :: fieldNames ipost) ipre).2 = .ok) :
    (Parse ctx (.ptr ty (some (.struct (pre ++
        ⟨name, none, true, ptrTo d T (.struct (ipre ++ ⟨V, some "", true, v⟩ :: ipost))⟩ ::
          post))))).2 =
      .err (.ParseError name "" (ctx.errorText (.EmptyVarNameError V))) ∧
    (Parse ctx (.ptr ty (some (.struct (pre ++
        ⟨name, none, true,
          ptrTo d T (.struct (ipre ++ ⟨V, some X, true, .other k⟩ :: ipost))⟩ ::
          post))))).2 =
      .err (.ParseError name "" (ctx.errorText (.UnparsableTypeError V))) := by
  have inner : ∀ (g : Field Value) (e : Error), g.Name = V →
      (∀ nm, parseField ctx nm g = (g.val, .err e)) →
      (Parse ctx (.ptr ty (some (.struct (pre ++
        ⟨name, none, true, ptrTo d T (.struct (ipre ++ g :: ipost))⟩ :: post))))).2 =
      .err (.ParseError name "" (ctx.errorText e)) := by
    intro g e hg hfail
    have hin := parseFields_first_failure ctx (fieldNames (ipre ++ g :: ipost)) ipre ipost g
      (by rw [fieldNames_append, hg]; exact hipre) (by rw [hfail]; simp)
    have hf := parseField_untagged_record ctx
      (fieldNames (pre ++
        ⟨name, none, true, ptrTo d T (.struct (ipre ++ g :: ipost))⟩ :: post)) name
      (.struct (ipre ++ g :: ipost)) T d (by simp [Value.kind])
    simp only [parseStruct, hin, hfail, wrapNested] at hf
    have h2 := parseFields_first_failure ctx
      (fieldNames (pre ++
        ⟨name, none, true, ptrTo d T (.struct (ipre ++ g :: ipost))⟩ :: post)) pre post
      ⟨name, none, true, ptrTo d T (.struct (ipre ++ g :: ipost))⟩
      (by rw [fieldNames_append]; exact hpre) (by rw [hf]; simp)
    rw [Parse_struct, h2, hf]
  have hg := getenv_of_lookup ctx X s hset
  constructor
  · exact inner ⟨V, some "", true, v⟩ _ rfl (by intro nm; simp [parseField])
  · exact inner ⟨V, some X, true, .other k⟩ _ rfl (by
      intro nm
      simp [parseField, hX, hset, parseAsTextUnmarshaler, implementsValue, implementsAddr,
        parseValue, parseTagged, Value.isDuration, Value.kind])

theorem nested_error_is_wrapped_witness :
    (Parse (testCtx [("U", "2")]) (.ptr (.other "struct") (some (.struct ([] ++
        ⟨"N", none, true, ptrTo 1 (.other "struct")
          (.struct ([] ++ ⟨"V", some "", true, .uint 8 5⟩ :: []))⟩ :: []))))).2 =
      .err (.ParseError "N" "" ((testCtx [("U", "2")]).errorText (.EmptyVarNameError "V"))) :=
  (nested_error_is_wrapped (testCtx [("U", "2")]) "N" "V" "U" "2" "uintptr" (.uint 8 5)
    (.other "struct") (.other "struct") 1 [] [] [] [] (by decide) (by rfl) (by rfl)
    (by rfl)).1

/-! ## Pointers to values without a custom decoder -/

theorem parseAsTextUnmarshaler_none (ctx : Ctx) (v : Value) (X : String)
    (h1 : implementsValue v = false) (h2 : implementsAddr v = false) :
    parseAsTextUnmarshaler ctx v X = none := by
  simp [parseAsTextUnmarshaler, h1, h2]

theorem implementsValue_ptr (ty : GoType) (a b : Option Value) :
    implementsValue (.ptr ty a) = implementsValue (.ptr ty b) := by
  cases ty with
  | named p n r u => cases r <;> simp [implementsValue]
  | _ => simp [implementsValue]

theorem parseAsTextUnmarshaler_ptrTo (ctx : Ctx) (X : String) (T : GoType) (v : Value)
    (h1 : implementsValue v = false) (h2 : implementsAddr v = false)
    (hT : implementsValue (.ptr T none) = false) (d : Nat) :
    parseAsTextUnmarshaler ctx (ptrTo d T v) X = none := by
  cases d with
  | zero => exact parseAsTextUnmarshaler_none ctx v X h1 h2
  | succ d =>
    apply parseAsTextUnmarshaler_none
    · cases d with
      | zero =>
        simp only [ptrTo, ptrType]
        rw [implementsValue_ptr T _ none]
        exact hT
      | succ d => simp [ptrTo, ptrType, implementsValue]
    · simp [ptrTo, implementsAddr]

/-- The dereference loop on `d` non-nil pointers to a value without custom decoder goes on
with that value. -/
theorem parseValue_tagged_ptrTo (ctx : Ctx) (names : List String) (name X : String)
    (T : GoType) (v : Value)
    (h1 : implementsValue v = false) (h2 : implementsAddr v = false)
    (hT : implementsValue (.ptr T none) = false) (d : Nat) :
    parseValue ctx names name (some X) (ptrTo d T v) =
      (ptrTo d T (parseValue ctx names name (some X) v).1,
        (parseValue ctx names name (some X) v).2) := by
  induction d with
  | zero => simp [ptrTo]
  | succ d ih =>
    have hn := parseAsTextUnmarshaler_ptrTo ctx X T v h1 h2 hT d
    rw [ptrTo, parseValue]
    simp only [hn, ih, ptrTo]

theorem parseField_tagged_ptrTo (ctx : Ctx) (names : List String) (name X s : String)
    (T : GoType) (v : Value) (hX : X ≠ "") (hset : ctx.lookupEnv X = some s)
    (h1 : implementsValue v = false) (h2 : implementsAddr v = false)
    (hT : implementsValue (.ptr T none) = false) (d : Nat) :
    parseField ctx names ⟨name, some X, true, ptrTo d T v⟩ =
      (ptrTo d T (parseValue ctx names name (some X) v).1,
        (parseValue ctx names name (some X) v).2) := by
  have hn := parseAsTextUnmarshaler_ptrTo ctx X T v h1 h2 hT d
  simp only [parseField, hn, parseValue_tagged_ptrTo ctx names name X T v h1 h2 hT d]
  simp [hX, hset]

theorem derefSteps_ptrTo (ctx : Ctx) (X : String) (T : GoType) (v : Value)
    (h1 : implementsValue v = false) (h2 : implementsAddr v = false)
    (hT : implementsValue (.ptr T none) = false) (d : Nat) :
    derefSteps ctx (some X) (ptrTo d T v) = d + derefSteps ctx (some X) v := by
  induction d with
  | zero => simp [ptrTo]
  | succ d ih =>
    have hn := parseAsTextUnmarshaler_ptrTo ctx X T v h1 h2 hT d
    rw [ptrTo, derefSteps]
    simp only [hn, ih]
    omega

theorem implementsValue_ptr_typeOf (v : Value) (x : Option Value)
    (h2 : implementsAddr v = false) : implementsValue (.ptr (typeOf v) x) = false := by
  cases v with
  | named p n r u => cases r <;> simp_all [implementsValue, implementsAddr, typeOf]
  | _ => simp [implementsValue, typeOf]

/-! ## Kinds without decoding strategy -/

theorem parseValue_unsupported (ctx : Ctx) (names : List String) (name X : String) :
    (v : Value) → v.isDuration = false → (v.kind = .Struct ∨ v.kind = .Other) →
    parseValue ctx names name (some X) v = (v, .err (.UnparsableTypeError name))
  | .struct fs, _, _ => by simp [parseValue, parseTagged, Value.isDuration, Value.kind]
  | .other k, _, _ => by simp [parseValue, parseTagged, Value.isDuration, Value.kind]
  | .named p n r u, hd, hk => by
    have hk' : u.kind = .Struct ∨ u.kind = .Other := by simpa [Value.kind] using hk
    have hp : ¬ (u.kind = .Ptr) := by rcases hk' with h | h <;> simp [h]
    simp only [parseValue, hp, false_or, reduceCtorEq, false_and, if_false, parseTagged, hd,
      Bool.false_eq_true]
    rcases hk' with h | h <;> simp [Value.kind, h]
  | .bool _, _, hk => by simp [Value.kind] at hk
  | .string _, _, hk => by simp [Value.kind] at hk
  | .int _ _, _, hk => by simp [Value.kind] at hk
  | .uint _ _, _, hk => by simp [Value.kind] at hk
  | .float _ _, _, hk => by simp [Value.kind] at hk
  | .array _ _, _, hk => by simp [Value.kind] at hk
  | .slice _ _, _, hk => by simp [Value.kind] at hk
  | .ptr _ _, _, hk => by simp [Value.kind] at hk

/-- C14: a settable field annotated with an existing variable that holds, directly or
behind `d` non-nil pointers, a value `v` without custom decoder whose kind has no decoding
strategy (a struct, which so carries the annotation, or a kind such as `uintptr` or a
map) ends its iteration with `UnparsableTypeError` naming the field, the value unchanged:
an annotated struct is not recursed into; when no earlier field of the record fails,
`Parse` returns that error and the field and all later fields keep their values. -/
theorem unsupported_kind_fails (ctx : Ctx) (name X s : String) (v : Value) (d : Nat)
    (pre post : List (Field Value)) (ty : GoType)
    (hX : X ≠ "") (hset : ctx.lookupEnv X = some s)
    (h1 : implementsValue v = false) (h2 : implementsAddr v = false)
    (hdur : v.isDuration = false) (hkind : v.kind = .Struct ∨ v.kind = .Other)
    (hpre : (parseFields ctx
      (fieldNames (pre ++ ⟨name, some X, true, ptrTo d (typeOf v) v⟩ :: post)) pre).2 = .ok) :
    (∀ names, parseField ctx names ⟨name, some X, true, ptrTo d (typeOf v) v⟩ =
      (ptrTo d (typeOf v) v, .err (.UnparsableTypeError name))) ∧
    Parse ctx (.ptr ty (some (.struct
        (pre ++ ⟨name, some X, true, ptrTo d (typeOf v) v⟩ :: post)))) =
      (.ptr ty (some (.struct
          ((parseFields ctx
              (fieldNames (pre ++ ⟨name, some X, true, ptrTo d (typeOf v) v⟩ :: post)) pre).1 ++
            ⟨name, some X, true, ptrTo d (typeOf v) v⟩ :: post))),
        .err (.UnparsableTypeError name)) := by
  have hf : ∀ names, parseField ctx names ⟨name, some X, true, ptrTo d (typeOf v) v⟩ =
      (ptrTo d (typeOf v) v, .err (.UnparsableTypeError name)) := by
    intro names
    rw [parseField_tagged_ptrTo ctx names name X s (typeOf v) v hX hset h1 h2
      (implementsValue_ptr_typeOf v none h2) d,
      parseValue_unsupported ctx names name X v hdur hkind]
  refine ⟨hf, ?_⟩
  have h3 := parseFields_first_failure ctx
    (fieldNames (pre ++ ⟨name, some X, true, ptrTo d (typeOf v) v⟩ :: post)) pre post
    ⟨name, some X, true, ptrTo d (typeOf v) v⟩ hpre (by rw [hf]; simp)
  rw [hf] at h3
  rw [Parse_struct, h3]

theorem unsupported_kind_fails_witness :
    Parse (testCtx [("EMBEDDED_STRUCT", "3"), ("EMBEDDED_BOOL", "true")])
        (.ptr (.other "struct") (some (.struct ([] ++
          ⟨"V", some "EMBEDDED_STRUCT", true,
            ptrTo 0 (typeOf (.struct [⟨"V", some "EMBEDDED_BOOL", true, .bool false⟩]))
              (.struct [⟨"V", some "EMBEDDED_BOOL", true, .bool false⟩])⟩ :: [])))) =
      (.ptr (.other "struct") (some (.struct
          ((parseFields (testCtx [("EMBEDDED_STRUCT", "3"), ("EMBEDDED_BOOL", "true")])
              (fieldNames ([] ++
                ⟨"V", some "EMBEDDED_STRUCT", true,
                  ptrTo 0 (typeOf (.struct [⟨"V", some "EMBEDDED_BOOL", true, .bool false⟩]))
                    (.struct [⟨"V", some "EMBEDDED_BOOL", true, .bool false⟩])⟩ :: []))
              []).1 ++
            ⟨"V", some "EMBEDDED_STRUCT", true,
              ptrTo 0 (typeOf (.struct [⟨"V", some "EMBEDDED_BOOL", true, .bool false⟩]))
                (.struct [⟨"V", some "EMBEDDED_BOOL", true, .bool false⟩])⟩ :: []))),
        .err (.UnparsableTypeError "V")) :=
  (unsupported_kind_fails (testCtx [("EMBEDDED_STRUCT", "3"), ("EMBEDDED_BOOL", "true")])
    "V" "EMBEDDED_STRUCT" "3" (.struct [⟨"V", some "EMBEDDED_BOOL", true, .bool false⟩]) 0
    [] [] (.other "struct") (by decide) (by rfl) (by rfl) (by rfl) (by rfl)
    (Or.inl (by rfl)) (by rfl)).2

/-! ## Results of custom decoders, pointers to primitive values -/

/-- C19: for a settable field annotated with an existing variable whose type, at the
field itself or behind `d` non-nil pointers, is a defined type with an `UnmarshalText`
method: when the method returns the error message `msg` for the value of the variable,
the iteration ends with the `ParseError` carrying the name of the field, the name of the
variable and `msg`; when it returns no error, the iteration ends without error and no
other decoder is applied: with a pointer receiver the pointee is exactly what the method
stored, with a value receiver it is the old pointee with the elements of its slices and
the pointees of its pointers as the method left them in its copy (`shared`). -/
theorem custom_decoder_outcome (ctx : Ctx) (names : List String) (name X s p n msg : String)
    (r : Recv) (u t' : Value) (U : GoType) (d : Nat)
    (hX : X ≠ "") (hset : ctx.lookupEnv X = some s) :
    (ctx.unmarshalText p n (some (.named p n (some r) u)) s = .returns t' (some msg) →
      (parseField ctx names
        ⟨name, some X, true, ptrTo d (.named p n (some r) U) (.named p n (some r) u)⟩).2 =
        .err (.ParseError name X msg)) ∧
    (ctx.unmarshalText p n (some (.named p n (some r) u)) s = .returns t' none →
      parseField ctx names
        ⟨name, some X, true, ptrTo d (.named p n (some r) U) (.named p n (some r) u)⟩ =
        (ptrTo d (.named p n (some r) U)
          (match r with
           | .pointer => t'
           | .value => shared (.named p n (some r) u) t'), .ok)) := by
  have key : ∀ res, ctx.unmarshalText p n (some (.named p n (some r) u)) s = res →
      parseField ctx names
        ⟨name, some X, true, ptrTo d (.named p n (some r) U) (.named p n (some r) u)⟩ =
      decoded name X d (.named p n (some r) U) r (.named p n (some r) u) res := by
    intro res hres
    rcases d with _ | _ | d
    · simp only [parseField, ptrTo, parseAsTextUnmarshaler_named ctx X s p n r u hset, hres]
      simp [hX, hset]
      cases res with
      | crash => simp [decoded, ptrTo]
      | returns v err => cases err <;> simp [decoded, ptrTo]
    · simp only [parseField, ptrTo, ptrType,
        parseAsTextUnmarshaler_ptr_named ctx X s p n r u U hset, hres]
      simp [hX, hset]
      cases res with
      | crash => simp [decoded, ptrTo, ptrType]
      | returns v err => cases err <;> simp [decoded, ptrTo, ptrType]
    · have hnone : parseAsTextUnmarshaler ctx
          (ptrTo (d + 1 + 1) (.named p n (some r) U) (.named p n (some r) u)) X = none := by
        simp [ptrTo, ptrType, parseAsTextUnmarshaler, implementsValue, implementsAddr]
      simp only [parseField, hnone]
      simp [hX, hset]
      rw [parseValue_ptrTo_decoder ctx names name X s p n r u U hset (d + 1), hres]
  constructor
  · intro h
    rw [key _ h]
    simp [decoded]
  · intro h
    rw [key _ h]
    simp [decoded]

theorem custom_decoder_outcome_witness :
    (parseField (testCtx [("FAIL_CUSTOM", "10")]) ["V"]
      ⟨"V", some "FAIL_CUSTOM", true,
        ptrTo 2 (.named "envigo" "customFailure" (some .pointer) (.uint 8))
          (.named "envigo" "customFailure" (some .pointer) (.uint 8 4))⟩).2 =
      .err (.ParseError "V" "FAIL_CUSTOM" "some error") ∧
    parseField (testCtx [("CUSTOM_UINT8", "10")]) ["V"]
      ⟨"V", some "CUSTOM_UINT8", true,
        ptrTo 1 (.named "envigo" "customUint8" (some .pointer) (.uint 8))
          (.named "envigo" "customUint8" (some .pointer) (.uint 8 2))⟩ =
      (ptrTo 1 (.named "envigo" "customUint8" (some .pointer) (.uint 8))
        (.named "envigo" "customUint8" (some .pointer) (.uint 8 7)), .ok) ∧
    parseField (fillCtx [("FILL", "x")]) ["V"]
      ⟨"V", some "FILL", true,
        ptrTo 1 (.named "main" "fill" (some .value) (.slice (.uint 8)))
          (.named "main" "fill" (some .value) (.slice (.uint 8) [.uint 8 1, .uint 8 2]))⟩ =
      (ptrTo 1 (.named "main" "fill" (some .value) (.slice (.uint 8)))
        (.named "main" "fill" (some .value) (.slice (.uint 8) [.uint 8 7, .uint 8 7])),
        .ok) :=
  ⟨(custom_decoder_outcome (testCtx [("FAIL_CUSTOM", "10")]) ["V"] "V" "FAIL_CUSTOM" "10"
      "envigo" "customFailure" "some error" .pointer (.uint 8 4)
      (.named "envigo" "customFailure" (some .pointer) (.uint 8 4)) (.uint 8) 2
      (by decide) (by rfl)).1 (by rfl),
    (custom_decoder_outcome (testCtx [("CUSTOM_UINT8", "10")]) ["V"] "V" "CUSTOM_UINT8" "10"
      "envigo" "customUint8" "" .pointer (.uint 8 2)
      (.named "envigo" "customUint8" (some .pointer) (.uint 8 7)) (.uint 8) 1
      (by decide) (by rfl)).2 (by rfl),
    ((custom_decoder_outcome (fillCtx [("FILL", "x")]) ["V"] "V" "FILL" "x"
      "main" "fill" "" .value (.slice (.uint 8) [.uint 8 1, .uint 8 2])
      (.named "main" "fill" (some .value) (.slice (.uint 8) [.uint 8 7, .uint 8 7]))
      (.slice (.uint 8)) 1 (by decide) (by rfl)).2 (by rfl)).trans (by rfl)⟩

theorem implements_primitive (e : GoType) (v : Value) (hprim : e.isPrimitive = true)
    (hv : typeOf v = e) :
    implementsValue v = false ∧ implementsAddr v = false ∧
      implementsValue (.ptr e none) = false ∧ v.kind ≠ .Ptr := by
  subst hv
  cases v with
  | named p n r u =>
    cases r with
    | some r => cases u <;> simp [typeOf, GoType.isPrimitive] at hprim
    | none =>
      cases u <;> simp [typeOf, GoType.isPrimitive] at hprim <;>
        simp [implementsValue, implementsAddr, typeOf, Value.kind]
  | _ =>
    simp [typeOf, GoType.isPrimitive] at hprim <;>
      simp [implementsValue, implementsAddr, typeOf, Value.kind]

theorem derefSteps_primitive (ctx : Ctx) (tag : Option String) (e : GoType) (v : Value)
    (hprim : e.isPrimitive = true) (hv : typeOf v = e) : derefSteps ctx tag v = 0 := by
  subst hv
  cases v with
  | named p n r u =>
    cases r with
    | some r => cases u <;> simp [typeOf, GoType.isPrimitive] at hprim
    | none =>
      cases u <;> simp [typeOf, GoType.isPrimitive] at hprim <;>
        simp [derefSteps, Value.kind]
  | _ =>
    simp [typeOf, GoType.isPrimitive] at hprim <;> simp [derefSteps]

/-- C20: a settable field annotated with an existing variable that holds a value `v` of a
primitive type `e` behind `d ≥ 0` non-nil pointers ends its iteration as a plain field
holding `v` does for the same variable, with the value that plain field would get stored
in the innermost pointee (so for every valid literal exactly that value, without error);
the dereference loop takes exactly `d` steps. -/
theorem pointer_chain_binds_pointee (ctx : Ctx) (names : List String) (name X s : String)
    (e : GoType) (v : Value) (d : Nat)
    (hX : X ≠ "") (hset : ctx.lookupEnv X = some s)
    (hprim : e.isPrimitive = true) (hv : typeOf v = e) :
    parseField ctx names ⟨name, some X, true, ptrTo d e v⟩ =
      (ptrTo d e (parseField ctx names ⟨name, some X, true, v⟩).1,
        (parseField ctx names ⟨name, some X, true, v⟩).2) ∧
    derefSteps ctx (some X) (ptrTo d e v) = d := by
  obtain ⟨h1, h2, hT, -⟩ := implements_primitive e v hprim hv
  constructor
  · rw [parseField_tagged_ptrTo ctx names name X s e v hX hset h1 h2 hT d]
    have h0 := parseField_tagged_ptrTo ctx names name X s e v hX hset h1 h2 hT 0
    simp only [ptrTo] at h0
    rw [h0]
  · rw [derefSteps_ptrTo ctx X e v h1 h2 hT d, derefSteps_primitive ctx _ e v hprim hv]
    rfl

theorem pointer_chain_binds_pointee_witness :
    parseField (testCtx [("DEREF_INT", "-10")]) ["V"]
        ⟨"V", some "DEREF_INT", true, ptrTo 3 (.int 64) (.int 64 5)⟩ =
      (ptrTo 3 (.int 64) (.int 64 (-10)), .ok) ∧
    derefSteps (testCtx [("DEREF_INT", "-10")]) (some "DEREF_INT")
      (ptrTo 3 (.int 64) (.int 64 5)) = 3 :=
  ⟨(pointer_chain_binds_pointee (testCtx [("DEREF_INT", "-10")]) ["V"] "V" "DEREF_INT" "-10"
      (.int 64) (.int 64 5) 3 (by decide) (by rfl) (by rfl) (by rfl)).1.trans (by rfl),
    (pointer_chain_binds_pointee (testCtx [("DEREF_INT", "-10")]) ["V"] "V" "DEREF_INT" "-10"
      (.int 64) (.int 64 5) 3 (by decide) (by rfl) (by rfl) (by rfl)).2⟩

/-! ## The argument of `Parse` -/

theorem finish_ne_notStructPtr (name X : String) (v : Value) (r : CallResult) :
    (finish name X v r).2 ≠ .err .ErrNotStructPtr := by
  cases r with
  | crash => simp [finish]
  | returns v' err => cases err <;> simp [finish]

theorem rangeVals_ne_notStructPtr (step : Value → String → CallResult) (names : List String)
    (X : String) :
    ∀ (vals : List String) (dst : List Value) (i : Nat),
      (rangeVals step names X i vals dst).2 ≠ .err .ErrNotStructPtr := by
  intro vals
  induction vals with
  | nil => intro dst i; simp [rangeVals]
  | cons val vals ih =>
    intro dst i
    cases dst with
    | nil => simp [rangeVals]
    | cons d dst =>
      rw [rangeVals]
      cases step d val with
      | crash => simp
      | returns d' err =>
        cases err with
        | none => simpa using ih dst (i + 1)
        | some msg => cases names[i]? <;> simp

theorem parseTagged_ne_notStructPtr (ctx : Ctx) (names : List String) (name X : String)
    (v : Value) : (parseTagged ctx names name X v).2 ≠ .err .ErrNotStructPtr := by
  unfold parseTagged
  simp only
  by_cases hd : v.isDuration = true
  · rw [if_pos hd]
    exact finish_ne_notStructPtr _ _ _ _
  · rw [if_neg hd]
    cases hk : v.kind with
    | Bool => exact finish_ne_notStructPtr _ _ _ _
    | String => exact finish_ne_notStructPtr _ _ _ _
    | Int => exact finish_ne_notStructPtr _ _ _ _
    | Uint => exact finish_ne_notStructPtr _ _ _ _
    | Float => exact finish_ne_notStructPtr _ _ _ _
    | Array =>
      simp only
      cases hel : v.elems with
      | nil => simp
      | cons el tl =>
        simp only
        cases hst : elemStep ctx v.elemType el with
        | none => simp
        | some step =>
          simp only
          have h := rangeVals_ne_notStructPtr step names X
            (if (Split (ctx.getenv X)).length > (el :: tl).length then
              (Split (ctx.getenv X)).take (el :: tl).length else Split (ctx.getenv X))
            (el :: tl) 0
          cases v.setElems (rangeVals step names X 0
            (if (Split (ctx.getenv X)).length > (el :: tl).length then
              (Split (ctx.getenv X)).take (el :: tl).length else Split (ctx.getenv X))
            (el :: tl)).1 with
          | none => simp
          | some v' => simpa using h
    | Slice =>
      simp only
      cases hrep : List.replicate (Split (ctx.getenv X)).length (zero v.elemType) with
      | nil => simp
      | cons el tl =>
        simp only
        cases hst : elemStep ctx v.elemType el with
        | none => simp
        | some step =>
          simp only
          have h := rangeVals_ne_notStructPtr step names X (Split (ctx.getenv X)) (el :: tl) 0
          cases hr : rangeVals step names X 0 (Split (ctx.getenv X)) (el :: tl) with
          | mk es o =>
            rw [hr] at h
            cases o with
            | ok => simp only; cases v.setElems es <;> simp
            | crash => simp
            | err e => simpa using h
    | Ptr => simp
    | Struct => simp
    | Other => simp

theorem wrapNested_ne_notStructPtr (ctx : Ctx) (name : String) (o : Outcome) :
    wrapNested ctx name o ≠ .err .ErrNotStructPtr := by
  cases o <;> simp [wrapNested]

theorem parseValue_ne_notStructPtr (ctx : Ctx) (names : List String) (name : String)
    (tag : Option String) :
    (v : Value) → (parseValue ctx names name tag v).2 ≠ .err .ErrNotStructPtr
  | .ptr ty none => by simp [parseValue]
  | .ptr ty (some t) => by
    have ih := parseValue_ne_notStructPtr ctx names name tag t
    simp only [parseValue]
    split
    · simp
    · simp
    · simp
    · simpa using ih
  | .named p n r u => by
    have ih := parseValue_ne_notStructPtr ctx names name tag u
    simp only [parseValue]
    split_ifs
    · simpa using ih
    · cases tag with
      | none => simp
      | some X => exact parseTagged_ne_notStructPtr ctx names name X _
  | .struct fs => by
    cases tag with
    | none => simpa [parseValue] using wrapNested_ne_notStructPtr ctx name _
    | some X => simpa [parseValue] using parseTagged_ne_notStructPtr ctx names name X _
  | .bool b => by
    cases tag with
    | none => simp [parseValue]
    | some X => simpa [parseValue] using parseTagged_ne_notStructPtr ctx names name X _
  | .string b => by
    cases tag with
    | none => simp [parseValue]
    | some X => simpa [parseValue] using parseTagged_ne_notStructPtr ctx names name X _
  | .int _ _ => by
    cases tag with
    | none => simp [parseValue]
    | some X => simpa [parseValue] using parseTagged_ne_notStructPtr ctx names name X _
  | .uint _ _ => by
    cases tag with
    | none => simp [parseValue]
    | some X => simpa [parseValue] using parseTagged_ne_notStructPtr ctx names name X _
  | .float _ _ => by
    cases tag with
    | none => simp [parseValue]
    | some X => simpa [parseValue] using parseTagged_ne_notStructPtr ctx names name X _
  | .array _ _ => by
    cases tag with
    | none => simp [parseValue]
    | some X => simpa [parseValue] using parseTagged_ne_notStructPtr ctx names name X _
  | .slice _ _ => by
    cases tag with
    | none => simp [parseValue]
    | some X => simpa [parseValue] using parseTagged_ne_notStructPtr ctx names name X _
  | .other _ => by
    cases tag with
    | none => simp [parseValue]
    | some X => simpa [parseValue] using parseTagged_ne_notStructPtr ctx names name X _

theorem parseField_ne_notStructPtr (ctx : Ctx) (names : List String) (f : Field Value) :
    (parseField ctx names f).2 ≠ .err .ErrNotStructPtr := by
  obtain ⟨name, tag, canSet, v⟩ := f
  simp only [parseField]
  split_ifs
  · simp
  · cases tag with
    | none => exact parseValue_ne_notStructPtr ctx names name none v
    | some X =>
      simp only
      split_ifs
      · simp
      · simp
      · split
        · simp
        · simp
        · simp
        · exact parseValue_ne_notStructPtr ctx names name (some X) v

theorem parseFields_ne_notStructPtr (ctx : Ctx) (names : List String)
    (fs : List (Field Value)) : (parseFields ctx names fs).2 ≠ .err .ErrNotStructPtr := by
  induction fs with
  | nil => simp [parseFields]
  | cons f fs ih =>
    by_cases h : (parseField ctx names f).2 = .ok
    · rw [parseFields_cons_ok ctx names f fs h]
      exact ih
    · rw [parseFields_cons_stop ctx names f fs h]
      exact parseField_ne_notStructPtr ctx names f

/-- The loop over the fields never returns `ErrNotStructPtr`. -/
theorem parseStruct_ne_notStructPtr (ctx : Ctx) :
    (v : Value) → (parseStruct ctx v).2 ≠ .err .ErrNotStructPtr
  | .struct fs => by simpa [parseStruct] using parseFields_ne_notStructPtr ctx _ fs
  | .named p n r u => by simpa [parseStruct] using parseStruct_ne_notStructPtr ctx u
  | .bool _ => by simp [parseStruct]
  | .string _ => by simp [parseStruct]
  | .int _ _ => by simp [parseStruct]
  | .uint _ _ => by simp [parseStruct]
  | .float _ _ => by simp [parseStruct]
  | .array _ _ => by simp [parseStruct]
  | .slice _ _ => by simp [parseStruct]
  | .ptr _ _ => by simp [parseStruct]
  | .other _ => by simp [parseStruct]

theorem Parse_of_not_structPtr (ctx : Ctx) :
    (obj : Value) → isStructPtr obj = false → Parse ctx obj = (obj, .err .ErrNotStructPtr)
  | .ptr ty (some val), h => by
    have hk : ¬ (val.kind = .Struct) := by simpa [isStructPtr] using h
    simp [Parse, hk]
  | .ptr ty none, _ => by simp [Parse]
  | .named p n r u, h => by
    have hu : isStructPtr u = false := by simpa [isStructPtr] using h
    simp [Parse, Parse_of_not_structPtr ctx u hu]
  | .struct _, _ => by simp [Parse]
  | .bool _, _ => by simp [Parse]
  | .string _, _ => by simp [Parse]
  | .int _ _, _ => by simp [Parse]
  | .uint _ _, _ => by simp [Parse]
  | .float _ _, _ => by simp [Parse]
  | .array _ _, _ => by simp [Parse]
  | .slice _ _, _ => by simp [Parse]
  | .other _, _ => by simp [Parse]

theorem Parse_of_structPtr (ctx : Ctx) :
    (obj : Value) → isStructPtr obj = true → (Parse ctx obj).2 ≠ .err .ErrNotStructPtr
  | .ptr ty (some val), h => by
    have hk : val.kind = .Struct := by simpa [isStructPtr] using h
    simpa [Parse, hk] using parseStruct_ne_notStructPtr ctx val
  | .ptr ty none, h => by simp [isStructPtr] at h
  | .named p n r u, h => by
    have hu : isStructPtr u = true := by simpa [isStructPtr] using h
    simpa [Parse] using Parse_of_structPtr ctx u hu
  | .struct _, h => by simp [isStructPtr] at h
  | .bool _, h => by simp [isStructPtr] at h
  | .string _, h => by simp [isStructPtr] at h
  | .int _ _, h => by simp [isStructPtr] at h
  | .uint _ _, h => by simp [isStructPtr] at h
  | .float _ _, h => by simp [isStructPtr] at h
  | .array _ _, h => by simp [isStructPtr] at h
  | .slice _ _, h => by simp [isStructPtr] at h
  | .other _, h => by simp [isStructPtr] at h

/-- C15: `Parse` returns `ErrNotStructPtr` if and only if its argument is not a pointer
whose pointee is a struct; in that case the argument is returned as it was and the result
is the same in every context, so no field is read or written and no environment variable
is consulted. A struct by value, a pointer to a non-struct, a pointer to a pointer, a nil
pointer and the nil interface are such arguments. -/
theorem not_struct_pointer (ctx : Ctx) (obj : Value) :
    ((Parse ctx obj).2 = .err .ErrNotStructPtr ↔ isStructPtr obj = false) ∧
    (isStructPtr obj = false →
      ∀ ctx' : Ctx, Parse ctx' obj = (obj, .err .ErrNotStructPtr)) ∧
    (∀ (fs : List (Field Value)) (ty : GoType) (v : Value), v.kind ≠ .Struct →
      isStructPtr (.struct fs) = false ∧ isStructPtr (.ptr ty (some v)) = false ∧
      isStructPtr (.ptr (.ptr ty) (some (.ptr ty (some (.struct fs))))) = false ∧
      isStructPtr (.ptr ty none) = false ∧ isStructPtr (.other "nil") = false) := by
  refine ⟨⟨?_, ?_⟩, ?_, ?_⟩
  · intro h
    by_contra hs
    have hs' : isStructPtr obj = true := by simpa using hs
    exact Parse_of_structPtr ctx obj hs' h
  · intro h
    rw [Parse_of_not_structPtr ctx obj h]
  · intro h ctx'
    exact Parse_of_not_structPtr ctx' obj h
  · intro fs ty v hv
    simp [isStructPtr, hv, Value.kind]

theorem not_struct_pointer_witness :
    Parse (testCtx [("BOOL", "false")]) (.struct [⟨"V", some "BOOL", true, .bool true⟩]) =
      (.struct [⟨"V", some "BOOL", true, .bool true⟩], .err .ErrNotStructPtr) ∧
    Parse (testCtx [("BOOL", "false")]) (.ptr .bool (some (.bool true))) =
      (.ptr .bool (some (.bool true)), .err .ErrNotStructPtr) ∧
    (Parse (testCtx [("BOOL", "false")])
      (structPtr [⟨"V", some "BOOL", true, .bool true⟩])).2 ≠ .err .ErrNotStructPtr :=
  ⟨(not_struct_pointer (testCtx []) (.struct [⟨"V", some "BOOL", true, .bool true⟩])).2.1
      (by rfl) (testCtx [("BOOL", "false")]),
    (not_struct_pointer (testCtx []) (.ptr .bool (some (.bool true)))).2.1
      (by rfl) (testCtx [("BOOL", "false")]),
    fun h => absurd ((not_struct_pointer (testCtx [("BOOL", "false")])
      (structPtr [⟨"V", some "BOOL", true, .bool true⟩])).1.mp h) (by decide)⟩

/-! ## Idempotence -/

/-- What reflection asks of a value depends on its type only. -/
theorem queries_of_typeOf :
    (v w : Value) → typeOf v = typeOf w →
    v.kind = w.kind ∧ v.bits = w.bits ∧ v.isDuration = w.isDuration ∧
      v.elemType = w.elemType ∧ implementsValue v = implementsValue w ∧
      implementsAddr v = implementsAddr w
  | .named p n r u, w, h => by
    cases w with
    | named p' n' r' u' =>
      simp only [typeOf, GoType.named.injEq] at h
      obtain ⟨rfl, rfl, rfl, hu⟩ := h
      obtain ⟨h1, h2, -, h4, -, -⟩ := queries_of_typeOf u u' hu
      cases r <;>
        simp [Value.kind, Value.bits, Value.isDuration, Value.elemType, implementsValue,
          implementsAddr, h1, h2, h4]
      rename_i r
      cases r <;> simp [implementsValue]
    | _ => simp [typeOf] at h
  | .bool _, w, h => by
    cases w <;> simp [typeOf] at h
    simp [Value.kind, Value.bits, Value.isDuration, Value.elemType, implementsValue,
      implementsAddr]
  | .string _, w, h => by
    cases w <;> simp [typeOf] at h
    simp [Value.kind, Value.bits, Value.isDuration, Value.elemType, implementsValue,
      implementsAddr]
  | .int _ _, w, h => by
    cases w <;> simp [typeOf] at h
    simp [Value.kind, Value.bits, Value.isDuration, Value.elemType, implementsValue,
      implementsAddr, h]
  | .uint _ _, w, h => by
    cases w <;> simp [typeOf] at h
    simp [Value.kind, Value.bits, Value.isDuration, Value.elemType, implementsValue,
      implementsAddr, h]
  | .float _ _, w, h => by
    cases w <;> simp [typeOf] at h
    simp [Value.kind, Value.bits, Value.isDuration, Value.elemType, implementsValue,
      implementsAddr, h]
  | .array _ _, w, h => by
    cases w <;> simp [typeOf] at h
    simp [Value.kind, Value.bits, Value.isDuration, Value.elemType, implementsValue,
      implementsAddr, h]
  | .slice _ _, w, h => by
    cases w <;> simp [typeOf] at h
    simp [Value.kind, Value.bits, Value.isDuration, Value.elemType, implementsValue,
      implementsAddr, h]
  | .ptr e a, w, h => by
    cases w <;> simp [typeOf] at h
    subst h
    rename_i b
    simp [Value.kind, Value.bits, Value.isDuration, Value.elemType, implementsAddr,
      implementsValue_ptr e a b]
  | .struct _, w, h => by
    cases w <;> simp [typeOf] at h
    simp [Value.kind, Value.bits, Value.isDuration, Value.elemType, implementsValue,
      implementsAddr]
  | .other _, w, h => by
    cases w <;> simp [typeOf] at h
    simp [Value.kind, Value.bits, Value.isDuration, Value.elemType, implementsValue,
      implementsAddr]

theorem setBool_idem (a : Bool) :
    (v v' : Value) → v.setBool a = some v' → v'.setBool a = some v' ∧ typeOf v' = typeOf v
  | .bool _, v', h => by
    simp only [Value.setBool, Option.some.injEq] at h
    subst h
    simp [Value.setBool, typeOf]
  | .named p n r u, v', h => by
    simp only [Value.setBool, Option.map_eq_some'] at h
    obtain ⟨u', hu, rfl⟩ := h
    obtain ⟨h1, h2⟩ := setBool_idem a u u' hu
    simp [Value.setBool, h1, typeOf, h2]
  | .string _, _, h => by simp [Value.setBool] at h
  | .int _ _, _, h => by simp [Value.setBool] at h
  | .uint _ _, _, h => by simp [Value.setBool] at h
  | .float _ _, _, h => by simp [Value.setBool] at h
  | .array _ _, _, h => by simp [Value.setBool] at h
  | .slice _ _, _, h => by simp [Value.setBool] at h
  | .ptr _ _, _, h => by simp [Value.setBool] at h
  | .struct _, _, h => by simp [Value.setBool] at h
  | .other _, _, h => by simp [Value.setBool] at h

theorem setString_idem (a : String) :
    (v v' : Value) → v.setString a = some v' →
      v'.setString a = some v' ∧ typeOf v' = typeOf v
  | .string _, v', h => by
    simp only [Value.setString, Option.some.injEq] at h
    subst h
    simp [Value.setString, typeOf]
  | .named p n r u, v', h => by
    simp only [Value.setString, Option.map_eq_some'] at h
    obtain ⟨u', hu, rfl⟩ := h
    obtain ⟨h1, h2⟩ := setString_idem a u u' hu
    simp [Value.setString, h1, typeOf, h2]
  | .bool _, _, h => by simp [Value.setString] at h
  | .int _ _, _, h => by simp [Value.setString] at h
  | .uint _ _, _, h => by simp [Value.setString] at h
  | .float _ _, _, h => by simp [Value.setString] at h
  | .array _ _, _, h => by simp [Value.setString] at h
  | .slice _ _, _, h => by simp [Value.setString] at h
  | .ptr _ _, _, h => by simp [Value.setString] at h
  | .struct _, _, h => by simp [Value.setString] at h
  | .other _, _, h => by simp [Value.setString] at h

theorem setInt_idem (a : Int) :
    (v v' : Value) → v.setInt a = some v' → v'.setInt a = some v' ∧ typeOf v' = typeOf v
  | .int b _, v', h => by
    simp only [Value.setInt, Option.some.injEq] at h
    subst h
    simp [Value.setInt, typeOf]
  | .named p n r u, v', h => by
    simp only [Value.setInt, Option.map_eq_some'] at h
    obtain ⟨u', hu, rfl⟩ := h
    obtain ⟨h1, h2⟩ := setInt_idem a u u' hu
    simp [Value.setInt, h1, typeOf, h2]
  | .bool _, _, h => by simp [Value.setInt] at h
  | .string _, _, h => by simp [Value.setInt] at h
  | .uint _ _, _, h => by simp [Value.setInt] at h
  | .float _ _, _, h => by simp [Value.setInt] at h
  | .array _ _, _, h => by simp [Value.setInt] at h
  | .slice _ _, _, h => by simp [Value.setInt] at h
  | .ptr _ _, _, h => by simp [Value.setInt] at h
  | .struct _, _, h => by simp [Value.setInt] at h
  | .other _, _, h => by simp [Value.setInt] at h

theorem setUint_idem (a : Nat) :
    (v v' : Value) → v.setUint a = some v' → v'.setUint a = some v' ∧ typeOf v' = typeOf v
  | .uint b _, v', h => by
    simp only [Value.setUint, Option.some.injEq] at h
    subst h
    simp [Value.setUint, typeOf]
  | .named p n r u, v', h => by
    simp only [Value.setUint, Option.map_eq_some'] at h
    obtain ⟨u', hu, rfl⟩ := h
    obtain ⟨h1, h2⟩ := setUint_idem a u u' hu
    simp [Value.setUint, h1, typeOf, h2]
  | .bool _, _, h => by simp [Value.setUint] at h
  | .string _, _, h => by simp [Value.setUint] at h
  | .int _ _, _, h => by simp [Value.setUint] at h
  | .float _ _, _, h => by simp [Value.setUint] at h
  | .array _ _, _, h => by simp [Value.setUint] at h
  | .slice _ _, _, h => by simp [Value.setUint] at h
  | .ptr _ _, _, h => by simp [Value.setUint] at h
  | .struct _, _, h => by simp [Value.setUint] at h
  | .other _, _, h => by simp [Value.setUint] at h

theorem setFloat_idem (a : Nat) :
    (v v' : Value) → v.setFloat a = some v' → v'.setFloat a = some v' ∧ typeOf v' = typeOf v
  | .float b _, v', h => by
    simp only [Value.setFloat, Option.some.injEq] at h
    subst h
    simp [Value.setFloat, typeOf]
  | .named p n r u, v', h => by
    simp only [Value.setFloat, Option.map_eq_some'] at h
    obtain ⟨u', hu, rfl⟩ := h
    obtain ⟨h1, h2⟩ := setFloat_idem a u u' hu
    simp [Value.setFloat, h1, typeOf, h2]
  | .bool _, _, h => by simp [Value.setFloat] at h
  | .string _, _, h => by simp [Value.setFloat] at h
  | .int _ _, _, h => by simp [Value.setFloat] at h
  | .uint _ _, _, h => by simp [Value.setFloat] at h
  | .array _ _, _, h => by simp [Value.setFloat] at h
  | .slice _ _, _, h => by simp [Value.setFloat] at h
  | .ptr _ _, _, h => by simp [Value.setFloat] at h
  | .struct _, _, h => by simp [Value.setFloat] at h
  | .other _, _, h => by simp [Value.setFloat] at h

theorem plain_implements : (v : Value) → plain v = true →
    implementsValue v = false ∧ implementsAddr v = false
  | .named _ _ r u, h => by
    simp only [plain, Bool.and_eq_true, Option.isNone_iff_eq_none] at h
    obtain ⟨rfl, -⟩ := h
    simp [implementsValue, implementsAddr]
  | .ptr ty x, h => by
    have h0 : implementsValue (.ptr ty none) = false := by
      cases x <;> simp [plain] at h <;> simp [h]
    rw [implementsValue_ptr ty x none]
    simp [h0, implementsAddr]
  | .bool _, _ => by simp [implementsValue, implementsAddr]
  | .string _, _ => by simp [implementsValue, implementsAddr]
  | .int _ _, _ => by simp [implementsValue, implementsAddr]
  | .uint _ _, _ => by simp [implementsValue, implementsAddr]
  | .float _ _, _ => by simp [implementsValue, implementsAddr]
  | .array _ _, _ => by simp [implementsValue, implementsAddr]
  | .slice _ _, _ => by simp [implementsValue, implementsAddr]
  | .struct _, _ => by simp [implementsValue, implementsAddr]
  | .other _, _ => by simp [implementsValue, implementsAddr]

theorem stored_returns (o : Option Value) (d : Value) (m : Option String)
    (h : stored o = .returns d m) : o = some d ∧ m = none := by
  cases o with
  | none => simp [stored] at h
  | some x =>
    simp only [stored, CallResult.returns.injEq] at h
    exact ⟨by rw [h.1], h.2.symm⟩

theorem decodeBool_settles (ctx : Ctx) : Settles (decodeBool ctx) := by
  intro d val d' h
  unfold decodeBool at h ⊢
  rcases hp : ParseBool val with ⟨b, _ | e⟩
  · rw [hp] at h
    simp only at h ⊢
    obtain ⟨h1, h2⟩ := setBool_idem b d d' (stored_returns _ _ _ h).1
    rw [h1]
    exact ⟨rfl, h2⟩
  · rw [hp] at h
    simp at h

theorem decodeString_settles : Settles decodeString := by
  intro d val d' h
  unfold decodeString at h ⊢
  obtain ⟨h1, h2⟩ := setString_idem val d d' (stored_returns _ _ _ h).1
  rw [h1]
  exact ⟨rfl, h2⟩

theorem decodeInt_settles (ctx : Ctx) (bits : Nat) : Settles (decodeInt ctx bits) := by
  intro d val d' h
  unfold decodeInt at h ⊢
  rcases hp : ParseInt val bits with ⟨n, _ | e⟩
  · rw [hp] at h
    simp only at h ⊢
    obtain ⟨h1, h2⟩ := setInt_idem n d d' (stored_returns _ _ _ h).1
    rw [h1]
    exact ⟨rfl, h2⟩
  · rw [hp] at h
    simp at h

theorem decodeUint_settles (ctx : Ctx) (bits : Nat) : Settles (decodeUint ctx bits) := by
  intro d val d' h
  unfold decodeUint at h ⊢
  rcases hp : ParseUint val bits with ⟨n, _ | e⟩
  · rw [hp] at h
    simp only at h ⊢
    obtain ⟨h1, h2⟩ := setUint_idem n d d' (stored_returns _ _ _ h).1
    rw [h1]
    exact ⟨rfl, h2⟩
  · rw [hp] at h
    simp at h

theorem decodeFloat_settles (ctx : Ctx) (bits : Nat) : Settles (decodeFloat ctx bits) := by
  intro d val d' h
  unfold decodeFloat at h ⊢
  cases hp : ctx.parseFloat val bits with
  | error msg =>
    rw [hp] at h
    simp at h
  | ok x =>
    rw [hp] at h
    simp only at h ⊢
    obtain ⟨h1, h2⟩ := setFloat_idem x d d' (stored_returns _ _ _ h).1
    rw [h1]
    exact ⟨rfl, h2⟩

theorem decodeDuration_settles (ctx : Ctx) : Settles (decodeDuration ctx) := by
  intro d val d' h
  unfold decodeDuration at h ⊢
  cases hp : ctx.parseDuration val with
  | error msg =>
    rw [hp] at h
    simp at h
  | ok x =>
    rw [hp] at h
    simp only at h ⊢
    obtain ⟨h1, h2⟩ := setInt_idem x d d' (stored_returns _ _ _ h).1
    rw [h1]
    exact ⟨rfl, h2⟩

theorem elemStep_settles (ctx : Ctx) (e : GoType) (p : Value)
    (step : Value → String → CallResult) (h : elemStep ctx e p = some step)
    (hv : implementsValue p = false) (ha : implementsAddr p = false) : Settles step := by
  unfold elemStep at h
  simp only [hv, ha, Bool.false_eq_true, if_false] at h
  by_cases hd : e.isDuration = true
  · rw [if_pos hd] at h
    simp only [Option.some.injEq] at h
    subst h
    exact decodeDuration_settles ctx
  · rw [if_neg hd] at h
    cases hk : e.kind <;> rw [hk] at h <;> simp only [Option.some.injEq] at h <;>
      first
      | (subst h; first
          | exact decodeBool_settles ctx
          | exact decodeString_settles
          | exact decodeInt_settles ctx _
          | exact decodeUint_settles ctx _
          | exact decodeFloat_settles ctx _)
      | exact absurd h (by simp)

theorem elemStep_typeOf (ctx : Ctx) (e : GoType) (p p' : Value)
    (h : typeOf p' = typeOf p) : elemStep ctx e p' = elemStep ctx e p := by
  obtain ⟨-, -, -, -, h1, h2⟩ := queries_of_typeOf p' p h
  unfold elemStep
  rw [h1, h2]

theorem rangeVals_settles (step : Value → String → CallResult) (hs : Settles step)
    (names : List String) (X : String) :
    ∀ (vals : List String) (i : Nat) (dst dst' : List Value),
      rangeVals step names X i vals dst = (dst', .ok) →
      rangeVals step names X i vals dst' = (dst', .ok) ∧
        dst'.map typeOf = dst.map typeOf := by
  intro vals
  induction vals with
  | nil =>
    intro i dst dst' h
    simp only [rangeVals, Prod.mk.injEq, and_true] at h
    subst h
    simp [rangeVals]
  | cons val vals ih =>
    intro i dst dst' h
    cases dst with
    | nil => simp [rangeVals] at h
    | cons d dst =>
      cases hst : step d val with
      | crash => simp [rangeVals, hst] at h
      | returns d1 m =>
        cases m with
        | some msg =>
          simp only [rangeVals, hst, Prod.mk.injEq] at h
          cases hn : names[i]? <;> rw [hn] at h <;> simp at h
        | none =>
          simp only [rangeVals, hst, Prod.mk.injEq] at h
          obtain ⟨h1, h2⟩ := h
          obtain ⟨k1, k2⟩ := ih (i + 1) dst (rangeVals step names X (i + 1) vals dst).1
            (Prod.ext rfl h2)
          obtain ⟨s1, s2⟩ := hs d val d1 hst
          subst h1
          simp only [rangeVals, s1, k1, List.map_cons, s2, k2, and_self]

theorem setElems_facts (es : List Value) :
    (v v' : Value) → v.setElems es = some v' →
      v'.setElems es = some v' ∧ v'.elems = es ∧
      (v.kind = .Slice ∨ (v.kind = .Array ∧ es.length = v.elems.length) →
        typeOf v' = typeOf v)
  | .array e xs, v', h => by
    simp only [Value.setElems, Option.some.injEq] at h
    subst h
    simp [Value.setElems, Value.elems, Value.kind, typeOf]
  | .slice e xs, v', h => by
    simp only [Value.setElems, Option.some.injEq] at h
    subst h
    simp [Value.setElems, Value.elems, Value.kind, typeOf]
  | .named p n r u, v', h => by
    simp only [Value.setElems, Option.map_eq_some'] at h
    obtain ⟨u', hu, rfl⟩ := h
    obtain ⟨h1, h2, h3⟩ := setElems_facts es u u' hu
    simp only [Value.setElems, h1, Option.map_some', Value.elems, h2, Value.kind, typeOf,
      true_and]
    intro hk
    rw [h3 hk]
  | .bool _, _, h => by simp [Value.setElems] at h
  | .string _, _, h => by simp [Value.setElems] at h
  | .int _ _, _, h => by simp [Value.setElems] at h
  | .uint _ _, _, h => by simp [Value.setElems] at h
  | .float _ _, _, h => by simp [Value.setElems] at h
  | .ptr _ _, _, h => by simp [Value.setElems] at h
  | .struct _, _, h => by simp [Value.setElems] at h
  | .other _, _, h => by simp [Value.setElems] at h

theorem plain_array : (v : Value) → plain v = true → v.kind = .Array →
    ∀ d ∈ v.elems, implementsValue d = false ∧ implementsAddr d = false
  | .array e xs, h, _ => by
    intro d hd
    simp only [plain, List.all_eq_true, Bool.and_eq_true, Bool.not_eq_true'] at h
    exact h d hd
  | .named p n r u, h, hk => by
    simp only [plain, Bool.and_eq_true] at h
    exact plain_array u h.2 hk
  | .bool _, _, hk => by simp [Value.kind] at hk
  | .string _, _, hk => by simp [Value.kind] at hk
  | .int _ _, _, hk => by simp [Value.kind] at hk
  | .uint _ _, _, hk => by simp [Value.kind] at hk
  | .float _ _, _, hk => by simp [Value.kind] at hk
  | .slice _ _, _, hk => by simp [Value.kind] at hk
  | .ptr _ _, _, hk => by simp [Value.kind] at hk
  | .struct _, _, hk => by simp [Value.kind] at hk
  | .other _, _, hk => by simp [Value.kind] at hk

theorem finish_eq_ok (name X : String) (d v' : Value) (r : CallResult)
    (h : finish name X d r = (v', .ok)) : r = .returns v' none := by
  have h1 := finish_ok name X d r (by rw [h])
  rw [h] at h1
  exact h1

theorem parseTagged_array_iff (ctx : Ctx) (names : List String) (name X : String)
    (v v' : Value) (hd : ¬ v.isDuration = true) (hk : v.kind = .Array) :
    parseTagged ctx names name X v = (v', .ok) ↔
      ∃ el tl step es, v.elems = el :: tl ∧ elemStep ctx v.elemType el = some step ∧
        rangeVals step names X 0
          (if (Split (ctx.getenv X)).length > v.elems.length then
            (Split (ctx.getenv X)).take v.elems.length else Split (ctx.getenv X))
          v.elems = (es, .ok) ∧
        v.setElems es = some v' := by
  unfold parseTagged
  simp only
  rw [if_neg hd, hk]
  simp only
  cases hel : v.elems with
  | nil => simp
  | cons el tl =>
    simp only
    cases hst : elemStep ctx v.elemType el with
    | none =>
      simp only
      constructor
      · intro h
        simp at h
      · rintro ⟨el', tl', step', es', h1, h2, -, -⟩
        simp only [List.cons.injEq] at h1
        obtain ⟨rfl, rfl⟩ := h1
        rw [hst] at h2
        cases h2
    | some step =>
      simp only
      cases hr : rangeVals step names X 0
        (if (Split (ctx.getenv X)).length > (el :: tl).length then
          (Split (ctx.getenv X)).take (el :: tl).length else Split (ctx.getenv X))
        (el :: tl) with
      | mk es o =>
        simp only
        constructor
        · intro h
          refine ⟨el, tl, step, es, rfl, hst, ?_, ?_⟩
          · rw [hr]
            cases hse : v.setElems es with
            | none => rw [hse] at h; simp at h
            | some w =>
              rw [hse] at h
              simp only [Prod.mk.injEq] at h
              rw [h.2]
          · cases hse : v.setElems es with
            | none => rw [hse] at h; simp at h
            | some w =>
              rw [hse] at h
              simp only [Prod.mk.injEq] at h
              rw [h.1]
        · rintro ⟨el', tl', step', es', h1, h2, h3, h4⟩
          simp only [List.cons.injEq] at h1
          obtain ⟨rfl, rfl⟩ := h1
          rw [hst] at h2
          simp only [Option.some.injEq] at h2
          subst h2
          rw [hr] at h3
          simp only [Prod.mk.injEq] at h3
          obtain ⟨rfl, rfl⟩ := h3
          rw [h4]

theorem parseTagged_slice_iff (ctx : Ctx) (names : List String) (name X : String)
    (v v' : Value) (hd : ¬ v.isDuration = true) (hk : v.kind = .Slice) :
    parseTagged ctx names name X v = (v', .ok) ↔
      ∃ el tl step es,
        List.replicate (Split (ctx.getenv X)).length (zero v.elemType) = el :: tl ∧
        elemStep ctx v.elemType el = some step ∧
        rangeVals step names X 0 (Split (ctx.getenv X)) (el :: tl) = (es, .ok) ∧
        v.setElems es = some v' := by
  unfold parseTagged
  simp only
  rw [if_neg hd, hk]
  simp only
  cases hrep : List.replicate (Split (ctx.getenv X)).length (zero v.elemType) with
  | nil => simp
  | cons el tl =>
    simp only
    cases hst : elemStep ctx v.elemType el with
    | none =>
      simp only
      constructor
      · intro h
        simp at h
      · rintro ⟨el', tl', step', es', h1, h2, -, -⟩
        simp only [List.cons.injEq] at h1
        obtain ⟨rfl, rfl⟩ := h1
        rw [hst] at h2
        cases h2
    | some step =>
      simp only
      cases hr : rangeVals step names X 0 (Split (ctx.getenv X)) (el :: tl) with
      | mk es o =>
        constructor
        · intro h
          cases o with
          | ok =>
            simp only at h
            cases hse : v.setElems es with
            | none => rw [hse] at h; simp at h
            | some w =>
              rw [hse] at h
              simp only [Prod.mk.injEq, and_true] at h
              exact ⟨el, tl, step, es, rfl, hst, hr, by rw [hse, h]⟩
          | crash => simp at h
          | err e => simp at h
        · rintro ⟨el', tl', step', es', h1, h2, h3, h4⟩
          simp only [List.cons.injEq] at h1
          obtain ⟨rfl, rfl⟩ := h1
          rw [hst] at h2
          simp only [Option.some.injEq] at h2
          subst h2
          rw [hr] at h3
          simp only [Prod.mk.injEq] at h3
          obtain ⟨rfl, rfl⟩ := h3
          simp only [h4]
theorem parseTagged_settles (ctx : Ctx) (names : List String) (name X : String)
    (v v' : Value) (hp : plain v = true)
    (h : parseTagged ctx names name X v = (v', .ok)) :
    parseTagged ctx names name X v' = (v', .ok) ∧ typeOf v' = typeOf v := by
  have scalar : ∀ step : Value → String → CallResult, Settles step →
      finish name X v (step v (ctx.getenv X)) = (v', .ok) →
      finish name X v' (step v' (ctx.getenv X)) = (v', .ok) ∧ typeOf v' = typeOf v := by
    intro step hs hf
    obtain ⟨h1, h2⟩ := hs _ _ _ (finish_eq_ok _ _ _ _ _ hf)
    rw [h1]
    exact ⟨rfl, h2⟩
  by_cases hd : v.isDuration = true
  · unfold parseTagged at h
    simp only at h
    rw [if_pos hd] at h
    obtain ⟨h1, h2⟩ := scalar _ (decodeDuration_settles ctx) h
    obtain ⟨-, -, q3, -⟩ := queries_of_typeOf v' v h2
    refine ⟨?_, h2⟩
    unfold parseTagged
    simp only
    rw [q3, if_pos hd]
    exact h1
  · cases hk : v.kind with
    | Bool =>
      unfold parseTagged at h
      simp only at h
      rw [if_neg hd, hk] at h
      obtain ⟨h1, h2⟩ := scalar _ (decodeBool_settles ctx) h
      obtain ⟨q1, q2, q3, -⟩ := queries_of_typeOf v' v h2
      refine ⟨?_, h2⟩
      unfold parseTagged
      simp only
      rw [q3, if_neg hd, q1, hk]
      exact h1
    | String =>
      unfold parseTagged at h
      simp only at h
      rw [if_neg hd, hk] at h
      obtain ⟨h1, h2⟩ := scalar _ decodeString_settles h
      obtain ⟨q1, q2, q3, -⟩ := queries_of_typeOf v' v h2
      refine ⟨?_, h2⟩
      unfold parseTagged
      simp only
      rw [q3, if_neg hd, q1, hk]
      exact h1
    | Int =>
      unfold parseTagged at h
      simp only at h
      rw [if_neg hd, hk] at h
      obtain ⟨h1, h2⟩ := scalar _ (decodeInt_settles ctx v.bits) h
      obtain ⟨q1, q2, q3, -⟩ := queries_of_typeOf v' v h2
      refine ⟨?_, h2⟩
      unfold parseTagged
      simp only
      rw [q3, if_neg hd, q1, hk, q2]
      exact h1
    | Uint =>
      unfold parseTagged at h
      simp only at h
      rw [if_neg hd, hk] at h
      obtain ⟨h1, h2⟩ := scalar _ (decodeUint_settles ctx v.bits) h
      obtain ⟨q1, q2, q3, -⟩ := queries_of_typeOf v' v h2
      refine ⟨?_, h2⟩
      unfold parseTagged
      simp only
      rw [q3, if_neg hd, q1, hk, q2]
      exact h1
    | Float =>
      unfold parseTagged at h
      simp only at h
      rw [if_neg hd, hk] at h
      obtain ⟨h1, h2⟩ := scalar _ (decodeFloat_settles ctx v.bits) h
      obtain ⟨q1, q2, q3, -⟩ := queries_of_typeOf v' v h2
      refine ⟨?_, h2⟩
      unfold parseTagged
      simp only
      rw [q3, if_neg hd, q1, hk, q2]
      exact h1
    | Array =>
      obtain ⟨el, tl, step, es, h1, h2, h3, h4⟩ :=
        (parseTagged_array_iff ctx names name X v v' hd hk).mp h
      have hel := plain_array v hp hk el (by rw [h1]; exact List.mem_cons_self _ _)
      have hs := elemStep_settles ctx _ el step h2 hel.1 hel.2
      obtain ⟨r1, r2⟩ := rangeVals_settles step hs names X _ 0 _ es h3
      have hlen : es.length = v.elems.length := by
        have := congrArg List.length r2
        simpa using this
      obtain ⟨s1, s2, s3⟩ := setElems_facts es v v' h4
      have h5 : typeOf v' = typeOf v := s3 (Or.inr ⟨hk, hlen⟩)
      obtain ⟨q1, -, q3, q4, -, -⟩ := queries_of_typeOf v' v h5
      refine ⟨?_, h5⟩
      rw [parseTagged_array_iff ctx names name X v' v' (by rw [q3]; exact hd) (by rw [q1, hk])]
      rw [h1] at r2 hlen
      cases es with
      | nil => simp at hlen
      | cons el' tl' =>
        simp only [List.map_cons, List.cons.injEq] at r2
        refine ⟨el', tl', step, el' :: tl', s2, ?_, ?_, s1⟩
        · rw [q4, elemStep_typeOf ctx _ el el' r2.1, h2]
        · rw [s2, hlen, ← h1]
          exact r1
    | Slice =>
      obtain ⟨el, tl, step, es, h1, h2, h3, h4⟩ :=
        (parseTagged_slice_iff ctx names name X v v' hd hk).mp h
      obtain ⟨s1, s2, s3⟩ := setElems_facts es v v' h4
      have h5 : typeOf v' = typeOf v := s3 (Or.inl hk)
      obtain ⟨q1, -, q3, q4, -, -⟩ := queries_of_typeOf v' v h5
      refine ⟨?_, h5⟩
      rw [parseTagged_slice_iff ctx names name X v' v' (by rw [q3]; exact hd) (by rw [q1, hk])]
      exact ⟨el, tl, step, es, by rw [q4, h1], by rw [q4, h2], h3, s1⟩
    | Ptr =>
      unfold parseTagged at h
      simp only at h
      rw [if_neg hd, hk] at h
      simp at h
    | Struct =>
      unfold parseTagged at h
      simp only at h
      rw [if_neg hd, hk] at h
      simp at h
    | Other =>
      unfold parseTagged at h
      simp only at h
      rw [if_neg hd, hk] at h
      simp at h
theorem fieldNames_typeOfFields (fs : List (Field Value)) :
    fieldNames fs = (typeOfFields fs).map (fun f => f.Name) := by
  induction fs with
  | nil => simp [fieldNames, typeOfFields]
  | cons f fs ih =>
    simp only [fieldNames, List.map_cons, typeOfFields, List.cons.injEq, true_and]
    exact ih

theorem wrapNested_ok (ctx : Ctx) (name : String) (o : Outcome)
    (h : wrapNested ctx name o = .ok) : o = .ok := by
  cases o <;> simp [wrapNested] at h ⊢

/-- A leaf of the traversal: without annotation it is left alone, with one the type switch
decides. -/
theorem parseValue_leaf_settles (ctx : Ctx) (names : List String) (name : String)
    (tag : Option String) (v v' : Value) (hp : plain v = true)
    (hleaf : ∀ w, typeOf w = typeOf v →
      parseValue ctx names name tag w =
        match tag with
        | none => (w, .ok)
        | some envName => parseTagged ctx names name envName w)
    (h : parseValue ctx names name tag v = (v', .ok)) :
    parseValue ctx names name tag v' = (v', .ok) ∧ typeOf v' = typeOf v := by
  rw [hleaf v rfl] at h
  cases tag with
  | none =>
    simp only [Prod.mk.injEq, and_true] at h
    subst h
    rw [hleaf v rfl]
    exact ⟨rfl, rfl⟩
  | some X =>
    simp only at h
    obtain ⟨k1, k2⟩ := parseTagged_settles ctx names name X v v' hp h
    rw [hleaf v' k2]
    exact ⟨k1, k2⟩

theorem parseValue_ptr_plain (ctx : Ctx) (names : List String) (name : String)
    (tag : Option String) (ty : GoType) (t : Value)
    (ht1 : implementsValue t = false) (ht2 : implementsAddr t = false) :
    parseValue ctx names name tag (.ptr ty (some t)) =
      (.ptr ty (some (parseValue ctx names name tag t).1),
        (parseValue ctx names name tag t).2) := by
  cases tag with
  | none => simp [parseValue]
  | some X => simp [parseValue, parseAsTextUnmarshaler_none ctx t X ht1 ht2]

mutual
theorem parseValue_settles (ctx : Ctx) : (v : Value) → plain v = true →
    ∀ (names : List String) (name : String) (tag : Option String) (v' : Value),
      parseValue ctx names name tag v = (v', .ok) →
      parseValue ctx names name tag v' = (v', .ok) ∧ typeOf v' = typeOf v
  | .ptr ty none, _, names, name, tag, v', h => by
    simp only [parseValue, Prod.mk.injEq, and_true] at h
    subst h
    simp [parseValue]
  | .ptr ty (some t), hp, names, name, tag, v', h => by
    simp only [plain, Bool.and_eq_true] at hp
    obtain ⟨ht1, ht2⟩ := plain_implements t hp.2
    rw [parseValue_ptr_plain ctx names name tag ty t ht1 ht2] at h
    simp only [Prod.mk.injEq] at h
    obtain ⟨rfl, h2⟩ := h
    obtain ⟨k1, k2⟩ := parseValue_settles ctx t hp.2 names name tag _ (Prod.ext rfl h2)
    obtain ⟨-, -, -, -, q5, q6⟩ := queries_of_typeOf _ t k2
    rw [parseValue_ptr_plain ctx names name tag ty _ (by rw [q5, ht1]) (by rw [q6, ht2])]
    simp only [k1, typeOf, and_self]
  | .named p n r u, hp, names, name, tag, v', h => by
    have hpu : plain u = true := by
      simp only [plain, Bool.and_eq_true] at hp
      exact hp.2
    by_cases hc : u.kind = .Ptr ∨ (tag = none ∧ u.kind = .Struct)
    · simp only [parseValue, if_pos hc, Prod.mk.injEq] at h
      obtain ⟨rfl, h2⟩ := h
      obtain ⟨k1, k2⟩ := parseValue_settles ctx u hpu names name tag _ (Prod.ext rfl h2)
      obtain ⟨q1, -⟩ := queries_of_typeOf _ u k2
      have hc' : (parseValue ctx names name tag u).1.kind = .Ptr ∨
          (tag = none ∧ (parseValue ctx names name tag u).1.kind = .Struct) := by
        rw [q1]
        exact hc
      simp only [parseValue, if_pos hc', k1, typeOf, k2, and_self]
    · refine parseValue_leaf_settles ctx names name tag _ v' hp ?_ h
      intro w hw
      cases w with
      | named p' n' r' u' =>
        simp only [typeOf, GoType.named.injEq] at hw
        obtain ⟨q1, -⟩ := queries_of_typeOf u' u hw.2.2.2
        have hc' : ¬ (u'.kind = .Ptr ∨ (tag = none ∧ u'.kind = .Struct)) := by
          rw [q1]
          exact hc
        simp only [parseValue, if_neg hc']
      | _ => simp [typeOf] at hw
  | .struct fs, hp, names, name, tag, v', h => by
    cases tag with
    | none =>
      simp only [parseValue, Prod.mk.injEq] at h
      obtain ⟨rfl, h2⟩ := h
      have h3 := wrapNested_ok ctx name _ h2
      obtain ⟨k1, k2⟩ := parseFields_settles ctx fs (by simpa [plain] using hp)
        (fieldNames fs) _ (Prod.ext rfl h3)
      have hn : fieldNames (parseFields ctx (fieldNames fs) fs).1 = fieldNames fs := by
        rw [fieldNames_typeOfFields, k2, ← fieldNames_typeOfFields]
      simp only [parseValue, hn, k1, wrapNested, typeOf, k2, and_self]
    | some X =>
      refine parseValue_leaf_settles ctx names name (some X) _ v' hp ?_ h
      intro w hw
      cases w <;> simp [typeOf] at hw
      simp only [parseValue]
  | .bool b, hp, names, name, tag, v', h => by
    refine parseValue_leaf_settles ctx names name tag _ v' hp ?_ h
    intro w hw
    cases w <;> simp [typeOf] at hw
    cases tag <;> simp only [parseValue]
  | .string s, hp, names, name, tag, v', h => by
    refine parseValue_leaf_settles ctx names name tag _ v' hp ?_ h
    intro w hw
    cases w <;> simp [typeOf] at hw
    cases tag <;> simp only [parseValue]
  | .int b x, hp, names, name, tag, v', h => by
    refine parseValue_leaf_settles ctx names name tag _ v' hp ?_ h
    intro w hw
    cases w <;> simp [typeOf] at hw
    cases tag <;> simp only [parseValue]
  | .uint b x, hp, names, name, tag, v', h => by
    refine parseValue_leaf_settles ctx names name tag _ v' hp ?_ h
    intro w hw
    cases w <;> simp [typeOf] at hw
    cases tag <;> simp only [parseValue]
  | .float b x, hp, names, name, tag, v', h => by
    refine parseValue_leaf_settles ctx names name tag _ v' hp ?_ h
    intro w hw
    cases w <;> simp [typeOf] at hw
    cases tag <;> simp only [parseValue]
  | .array e es, hp, names, name, tag, v', h => by
    refine parseValue_leaf_settles ctx names name tag _ v' hp ?_ h
    intro w hw
    cases w <;> simp [typeOf] at hw
    cases tag <;> simp only [parseValue]
  | .slice e es, hp, names, name, tag, v', h => by
    refine parseValue_leaf_settles ctx names name tag _ v' hp ?_ h
    intro w hw
    cases w <;> simp [typeOf] at hw
    cases tag <;> simp only [parseValue]
  | .other k, hp, names, name, tag, v', h => by
    refine parseValue_leaf_settles ctx names name tag _ v' hp ?_ h
    intro w hw
    cases w <;> simp [typeOf] at hw
    cases tag <;> simp only [parseValue]
theorem parseField_settles (ctx : Ctx) : (f : Field Value) → plain f.val = true →
    ∀ (names : List String) (v' : Value),
      parseField ctx names f = (v', .ok) →
      parseField ctx names ⟨f.Name, f.tag, f.canSet, v'⟩ = (v', .ok) ∧
        typeOf v' = typeOf f.val
  | ⟨name, tag, canSet, val⟩, hp, names, v', h => by
    simp only at hp ⊢
    by_cases hcs : canSet = false
    · simp only [parseField, hcs, if_true, Prod.mk.injEq, and_true] at h
      subst h
      simp [parseField, hcs]
    · cases tag with
      | none =>
        simp only [parseField, if_neg hcs] at h
        obtain ⟨k1, k2⟩ := parseValue_settles ctx val hp names name none v' h
        simp only [parseField, if_neg hcs]
        exact ⟨k1, k2⟩
      | some X =>
        by_cases hX : X = ""
        · simp [parseField, hcs, hX] at h
        · by_cases hl : (ctx.lookupEnv X).isNone = true
          · simp only [parseField, if_neg hcs, if_neg hX, if_pos hl, Prod.mk.injEq,
              and_true] at h
            subst h
            simp only [parseField, if_neg hcs, if_neg hX, if_pos hl, and_self]
          · obtain ⟨ht1, ht2⟩ := plain_implements val hp
            simp only [parseField, if_neg hcs, if_neg hX, if_neg hl,
              parseAsTextUnmarshaler_none ctx val X ht1 ht2] at h
            obtain ⟨k1, k2⟩ := parseValue_settles ctx val hp names name (some X) v' h
            obtain ⟨-, -, -, -, q5, q6⟩ := queries_of_typeOf v' val k2
            simp only [parseField, if_neg hcs, if_neg hX, if_neg hl,
              parseAsTextUnmarshaler_none ctx v' X (by rw [q5, ht1]) (by rw [q6, ht2])]
            exact ⟨k1, k2⟩
theorem parseFields_settles (ctx : Ctx) : (fs : List (Field Value)) →
    plainFields fs = true →
    ∀ (names : List String) (fs' : List (Field Value)),
      parseFields ctx names fs = (fs', .ok) →
      parseFields ctx names fs' = (fs', .ok) ∧ typeOfFields fs' = typeOfFields fs
  | [], _, names, fs', h => by
    simp only [parseFields, Prod.mk.injEq, and_true] at h
    subst h
    simp [parseFields]
  | f :: rest, hp, names, fs', h => by
    simp only [plainFields, Bool.and_eq_true] at hp
    by_cases hr : (parseField ctx names f).2 = .ok
    · rw [parseFields_cons_ok ctx names f rest hr] at h
      simp only [Prod.mk.injEq] at h
      obtain ⟨rfl, h2⟩ := h
      obtain ⟨k1, k2⟩ := parseField_settles ctx f hp.1 names _ (Prod.ext rfl hr)
      obtain ⟨r1, r2⟩ := parseFields_settles ctx rest hp.2 names _ (Prod.ext rfl h2)
      rw [parseFields_cons_ok ctx names _ _ (by rw [k1])]
      simp only [k1, r1, typeOfFields, k2, r2, and_self]
    · rw [parseFields_cons_stop ctx names f rest hr] at h
      simp only [Prod.mk.injEq] at h
      exact absurd h.2 hr
end

/-! ### The custom decoders of the program are not consulted -/

theorem getenv_withDecoders (ctx : Ctx)
    (u : String → String → Option Value → String → CallResult) (X : String) :
    (ctx.withDecoders u).getenv X = ctx.getenv X := rfl

theorem decodeDuration_withDecoders (ctx : Ctx)
    (u : String → String → Option Value → String → CallResult) :
    decodeDuration (ctx.withDecoders u) = decodeDuration ctx := rfl

theorem decodeBool_withDecoders (ctx : Ctx)
    (u : String → String → Option Value → String → CallResult) :
    decodeBool (ctx.withDecoders u) = decodeBool ctx := rfl

theorem decodeInt_withDecoders (ctx : Ctx)
    (u : String → String → Option Value → String → CallResult) :
    decodeInt (ctx.withDecoders u) = decodeInt ctx := rfl

theorem decodeUint_withDecoders (ctx : Ctx)
    (u : String → String → Option Value → String → CallResult) :
    decodeUint (ctx.withDecoders u) = decodeUint ctx := rfl

theorem decodeFloat_withDecoders (ctx : Ctx)
    (u : String → String → Option Value → String → CallResult) :
    decodeFloat (ctx.withDecoders u) = decodeFloat ctx := rfl

theorem wrapNested_withDecoders (ctx : Ctx)
    (u : String → String → Option Value → String → CallResult) :
    wrapNested (ctx.withDecoders u) = wrapNested ctx := rfl

theorem elemStep_withDecoders (ctx : Ctx)
    (u : String → String → Option Value → String → CallResult) (e : GoType) (p : Value)
    (hv : implementsValue p = false) (ha : implementsAddr p = false) :
    elemStep (ctx.withDecoders u) e p = elemStep ctx e p := by
  unfold elemStep
  simp only [hv, ha, Bool.false_eq_true, if_false, decodeDuration_withDecoders,
    decodeBool_withDecoders, decodeInt_withDecoders, decodeUint_withDecoders,
    decodeFloat_withDecoders]

theorem plain_slice : (v : Value) → plain v = true → v.kind = .Slice →
    implementsValue (zero v.elemType) = false ∧ implementsAddr (zero v.elemType) = false
  | .slice e xs, h, _ => by
    simpa [plain, Value.elemType] using h
  | .named p n r u, h, hk => by
    simp only [plain, Bool.and_eq_true] at h
    exact plain_slice u h.2 hk
  | .bool _, _, hk => by simp [Value.kind] at hk
  | .string _, _, hk => by simp [Value.kind] at hk
  | .int _ _, _, hk => by simp [Value.kind] at hk
  | .uint _ _, _, hk => by simp [Value.kind] at hk
  | .float _ _, _, hk => by simp [Value.kind] at hk
  | .array _ _, _, hk => by simp [Value.kind] at hk
  | .ptr _ _, _, hk => by simp [Value.kind] at hk
  | .struct _, _, hk => by simp [Value.kind] at hk
  | .other _, _, hk => by simp [Value.kind] at hk

theorem parseTagged_withDecoders (ctx : Ctx)
    (u : String → String → Option Value → String → CallResult) (names : List String)
    (name X : String) (v : Value) (hp : plain v = true) :
    parseTagged (ctx.withDecoders u) names name X v = parseTagged ctx names name X v := by
  unfold parseTagged
  simp only [getenv_withDecoders, decodeDuration_withDecoders, decodeBool_withDecoders,
    decodeInt_withDecoders, decodeUint_withDecoders, decodeFloat_withDecoders]
  by_cases hd : v.isDuration = true
  · rw [if_pos hd, if_pos hd]
  · rw [if_neg hd, if_neg hd]
    cases hk : v.kind with
    | Array =>
      simp only
      cases hel : v.elems with
      | nil => rfl
      | cons el tl =>
        have hnot := plain_array v hp hk el (by rw [hel]; exact List.mem_cons_self _ _)
        simp only [elemStep_withDecoders ctx u _ el hnot.1 hnot.2]
    | Slice =>
      simp only
      cases hrep : List.replicate (Split (ctx.getenv X)).length (zero v.elemType) with
      | nil => rfl
      | cons el tl =>
        have hel : el = zero v.elemType :=
          List.eq_of_mem_replicate (by rw [hrep]; exact List.mem_cons_self _ _)
        have hnot := plain_slice v hp hk
        rw [← hel] at hnot
        simp only [elemStep_withDecoders ctx u _ el hnot.1 hnot.2]
    | _ => rfl

mutual
theorem parseValue_withDecoders (ctx : Ctx)
    (u : String → String → Option Value → String → CallResult) :
    (v : Value) → plain v = true →
    ∀ (names : List String) (name : String) (tag : Option String),
      parseValue (ctx.withDecoders u) names name tag v = parseValue ctx names name tag v
  | .ptr ty none, _, names, name, tag => by simp [parseValue]
  | .ptr ty (some t), hp, names, name, tag => by
    simp only [plain, Bool.and_eq_true] at hp
    obtain ⟨ht1, ht2⟩ := plain_implements t hp.2
    rw [parseValue_ptr_plain _ names name tag ty t ht1 ht2,
      parseValue_ptr_plain _ names name tag ty t ht1 ht2,
      parseValue_withDecoders ctx u t hp.2 names name tag]
  | .named p n r u', hp, names, name, tag => by
    have hpu : plain u' = true := by
      simp only [plain, Bool.and_eq_true] at hp
      exact hp.2
    by_cases hc : u'.kind = .Ptr ∨ (tag = none ∧ u'.kind = .Struct)
    · simp only [parseValue, if_pos hc, parseValue_withDecoders ctx u u' hpu names name tag]
    · simp only [parseValue, if_neg hc]
      cases tag with
      | none => rfl
      | some X => exact parseTagged_withDecoders ctx u names name X _ hp
  | .struct fs, hp, names, name, tag => by
    cases tag with
    | none =>
      simp only [parseValue, wrapNested_withDecoders,
        parseFields_withDecoders ctx u fs (by simpa [plain] using hp) (fieldNames fs)]
    | some X =>
      simp only [parseValue]
      exact parseTagged_withDecoders ctx u names name X _ hp
  | .bool b, hp, names, name, tag => by
    cases tag with
    | none => simp only [parseValue]
    | some X => simp only [parseValue]; exact parseTagged_withDecoders ctx u names name X _ hp
  | .string s, hp, names, name, tag => by
    cases tag with
    | none => simp only [parseValue]
    | some X => simp only [parseValue]; exact parseTagged_withDecoders ctx u names name X _ hp
  | .int b x, hp, names, name, tag => by
    cases tag with
    | none => simp only [parseValue]
    | some X => simp only [parseValue]; exact parseTagged_withDecoders ctx u names name X _ hp
  | .uint b x, hp, names, name, tag => by
    cases tag with
    | none => simp only [parseValue]
    | some X => simp only [parseValue]; exact parseTagged_withDecoders ctx u names name X _ hp
  | .float b x, hp, names, name, tag => by
    cases tag with
    | none => simp only [parseValue]
    | some X => simp only [parseValue]; exact parseTagged_withDecoders ctx u names name X _ hp
  | .array e es, hp, names, name, tag => by
    cases tag with
    | none => simp only [parseValue]
    | some X => simp only [parseValue]; exact parseTagged_withDecoders ctx u names name X _ hp
  | .slice e es, hp, names, name, tag => by
    cases tag with
    | none => simp only [parseValue]
    | some X => simp only [parseValue]; exact parseTagged_withDecoders ctx u names name X _ hp
  | .other k, hp, names, name, tag => by
    cases tag with
    | none => simp only [parseValue]
    | some X => simp only [parseValue]; exact parseTagged_withDecoders ctx u names name X _ hp
theorem parseField_withDecoders (ctx : Ctx)
    (u : String → String → Option Value → String → CallResult) :
    (f : Field Value) → plain f.val = true →
    ∀ (names : List String),
      parseField (ctx.withDecoders u) names f = parseField ctx names f
  | ⟨name, tag, canSet, val⟩, hp, names => by
    simp only at hp
    obtain ⟨ht1, ht2⟩ := plain_implements val hp
    cases tag with
    | none =>
      simp only [parseField, parseValue_withDecoders ctx u val hp names name none]
    | some X =>
      simp only [parseField, parseAsTextUnmarshaler_none _ val X ht1 ht2,
        parseValue_withDecoders ctx u val hp names name (some X)]
      rfl
theorem parseFields_withDecoders (ctx : Ctx)
    (u : String → String → Option Value → String → CallResult) :
    (fs : List (Field Value)) → plainFields fs = true →
    ∀ (names : List String),
      parseFields (ctx.withDecoders u) names fs = parseFields ctx names fs
  | [], _, names => by simp [parseFields]
  | f :: rest, hp, names => by
    simp only [plainFields, Bool.and_eq_true] at hp
    rw [parseFields, parseFields, parseField_withDecoders ctx u f hp.1 names,
      parseFields_withDecoders ctx u rest hp.2 names]
end

theorem parseStruct_withDecoders (ctx : Ctx)
    (u : String → String → Option Value → String → CallResult) :
    (v : Value) → plain v = true → parseStruct (ctx.withDecoders u) v = parseStruct ctx v
  | .struct fs, hp => by
    simp only [parseStruct,
      parseFields_withDecoders ctx u fs (by simpa [plain] using hp) (fieldNames fs)]
  | .named p n r u', hp => by
    simp only [plain, Bool.and_eq_true] at hp
    simp only [parseStruct, parseStruct_withDecoders ctx u u' hp.2]
  | .bool _, _ => by simp [parseStruct]
  | .string _, _ => by simp [parseStruct]
  | .int _ _, _ => by simp [parseStruct]
  | .uint _ _, _ => by simp [parseStruct]
  | .float _ _, _ => by simp [parseStruct]
  | .array _ _, _ => by simp [parseStruct]
  | .slice _ _, _ => by simp [parseStruct]
  | .ptr _ _, _ => by simp [parseStruct]
  | .other _, _ => by simp [parseStruct]

theorem parseStruct_settles (ctx : Ctx) (r r' : Value) (hplain : plain r = true)
    (hk : r.kind = .Struct) (h : parseStruct ctx r = (r', .ok)) :
    parseStruct ctx r' = (r', .ok) ∧ typeOf r' = typeOf r := by
  have hv := parseValue_untagged_struct ctx [] "" r hk
  rw [h] at hv
  obtain ⟨k1, k2⟩ := parseValue_settles ctx r hplain [] "" none r' hv
  obtain ⟨q1, -⟩ := queries_of_typeOf r' r k2
  rw [parseValue_untagged_struct ctx [] "" r' (by rw [q1, hk])] at k1
  simp only [Prod.mk.injEq] at k1
  exact ⟨Prod.ext k1.1 (wrapNested_ok ctx "" _ k1.2), k2⟩


/-- C18: `Parse` is idempotent under an unchanged environment. For a record `r` in which no
custom decoder can be reached (`plain r`: no field, pointee, field of a nested record,
array element or slice element type with an `UnmarshalText` method) and every context
(the environment with the library): if `Parse` on a pointer to `r` returns no error and
leaves `obj'`, then `obj'` is a pointer to a record of the type of `r`, and `Parse` on
`obj'` in the same context returns no error and leaves `obj'` again. The result depends on
the record and the environment only: whatever `UnmarshalText` methods the program
declares, the call on the pointer to `r` leaves the same `obj'` without error. -/
theorem parse_is_idempotent (ctx : Ctx) (ty : GoType) (r obj' : Value)
    (hplain : plain r = true) (h : Parse ctx (.ptr ty (some r)) = (obj', .ok)) :
    Parse ctx obj' = (obj', .ok) ∧
      (∃ r', obj' = .ptr ty (some r') ∧ typeOf r' = typeOf r) ∧
      ∀ u, Parse (ctx.withDecoders u) (.ptr ty (some r)) = (obj', .ok) := by
  have hk : r.kind = .Struct := by
    by_contra hk
    simp [Parse, hk] at h
  have hu : ∀ u, Parse (ctx.withDecoders u) (.ptr ty (some r)) =
      Parse ctx (.ptr ty (some r)) := by
    intro u
    simp only [Parse, parseStruct_withDecoders ctx u r hplain]
  refine ⟨?_, ?_, fun u => by rw [hu u, h]⟩
  · simp only [Parse, if_pos hk, Prod.mk.injEq] at h
    obtain ⟨rfl, h2⟩ := h
    obtain ⟨k1, k2⟩ := parseStruct_settles ctx r _ hplain hk (Prod.ext rfl h2)
    obtain ⟨q1, -⟩ := queries_of_typeOf _ r k2
    have hk' : (parseStruct ctx r).1.kind = .Struct := by rw [q1, hk]
    simp only [Parse, if_pos hk', k1]
  · simp only [Parse, if_pos hk, Prod.mk.injEq] at h
    obtain ⟨rfl, h2⟩ := h
    exact ⟨_, rfl, (parseStruct_settles ctx r _ hplain hk (Prod.ext rfl h2)).2⟩

theorem parse_is_idempotent_witness :
    Parse (testCtx [("W_INT", "-3"), ("W_LIST", "1,2,3"), ("W_ARR", "4"), ("W_STR", "x")])
      (.ptr (.other "struct") (some (.struct [
        ⟨"I", some "W_INT", true, .int 8 (-3)⟩,
        ⟨"L", some "W_LIST", true, .slice (.uint 8) [.uint 8 1, .uint 8 2, .uint 8 3]⟩,
        ⟨"A", some "W_ARR", true, .array (.uint 8) [.uint 8 4, .uint 8 0]⟩,
        ⟨"N", none, true, .ptr (.other "struct")
          (some (.struct [⟨"S", some "W_STR", true, .string "x"⟩]))⟩,
        ⟨"P", some "W_ABSENT", true, .bool false⟩]))) =
      (.ptr (.other "struct") (some (.struct [
        ⟨"I", some "W_INT", true, .int 8 (-3)⟩,
        ⟨"L", some "W_LIST", true, .slice (.uint 8) [.uint 8 1, .uint 8 2, .uint 8 3]⟩,
        ⟨"A", some "W_ARR", true, .array (.uint 8) [.uint 8 4, .uint 8 0]⟩,
        ⟨"N", none, true, .ptr (.other "struct")
          (some (.struct [⟨"S", some "W_STR", true, .string "x"⟩]))⟩,
        ⟨"P", some "W_ABSENT", true, .bool false⟩])), .ok) :=
  (parse_is_idempotent
    (testCtx [("W_INT", "-3"), ("W_LIST", "1,2,3"), ("W_ARR", "4"), ("W_STR", "x")])
    (.other "struct")
    (.struct [
      ⟨"I", some "W_INT", true, .int 8 0⟩,
      ⟨"L", some "W_LIST", true, .slice (.uint 8) []⟩,
      ⟨"A", some "W_ARR", true, .array (.uint 8) [.uint 8 0, .uint 8 0]⟩,
      ⟨"N", none, true, .ptr (.other "struct")
        (some (.struct [⟨"S", some "W_STR", true, .string ""⟩]))⟩,
      ⟨"P", some "W_ABSENT", true, .bool false⟩])
    _ (by rfl) (by rfl)).1

/-! ## Fields the binder cannot set -/

theorem parseField_unsettable (ctx : Ctx) (names : List String) (name : String)
    (tag : Option String) (v : Value) :
    parseField ctx names ⟨name, tag, false, v⟩ = (v, .ok) := by
  simp [parseField]

/-- The loop over a record with an unsettable field is the loop over the record without
it, with the field put back at its place. -/
theorem parseFields_unsettable (ctx : Ctx) (names : List String) (name : String)
    (tag : Option String) (v : Value) (post : List (Field Value)) :
    ∀ pre : List (Field Value),
      parseFields ctx names (pre ++ ⟨name, tag, false, v⟩ :: post) =
        ((parseFields ctx names (pre ++ post)).1.take pre.length ++
            ⟨name, tag, false, v⟩ :: (parseFields ctx names (pre ++ post)).1.drop pre.length,
          (parseFields ctx names (pre ++ post)).2) := by
  intro pre
  induction pre with
  | nil =>
    have h := parseField_unsettable ctx names name tag v
    rw [List.nil_append, parseFields_cons_ok ctx names _ post (by rw [h])]
    simp [h]
  | cons g pre ih =>
    by_cases hg : (parseField ctx names g).2 = .ok
    · rw [List.cons_append, List.cons_append, parseFields_cons_ok ctx names g _ hg,
        parseFields_cons_ok ctx names g _ hg, ih]
      simp
    · rw [List.cons_append, List.cons_append, parseFields_cons_stop ctx names g _ hg,
        parseFields_cons_stop ctx names g _ hg]
      simp

/-- C23: a field the binder cannot set (`CanSet` is false) is skipped before its
annotation is looked at. Whatever its value `v` and its annotation `tag` (none, the empty
name, the name of a variable that exists with any text), its iteration ends without error
and leaves `v`; and in a record that holds it between the fields `pre` and `post`,
`Parse` returns what the loop returns on the record without that field, and leaves the
other fields as that loop leaves them, the field itself unchanged at its place. -/
theorem unsettable_field_is_skipped (ctx : Ctx) (names : List String) (name : String)
    (tag : Option String) (v : Value) (pre post : List (Field Value)) :
    parseField ctx names ⟨name, tag, false, v⟩ = (v, .ok) ∧
    Parse ctx (structPtr (pre ++ ⟨name, tag, false, v⟩ :: post)) =
      (structPtr
        ((parseFields ctx (fieldNames (pre ++ ⟨name, tag, false, v⟩ :: post))
            (pre ++ post)).1.take pre.length ++
          ⟨name, tag, false, v⟩ ::
            (parseFields ctx (fieldNames (pre ++ ⟨name, tag, false, v⟩ :: post))
              (pre ++ post)).1.drop pre.length),
        (parseFields ctx (fieldNames (pre ++ ⟨name, tag, false, v⟩ :: post))
          (pre ++ post)).2) ∧
    Parse (testCtx [("X", "?")])
        (structPtr [⟨"a", some "", false, .uint 8 1⟩, ⟨"b", some "X", false, .int 8 2⟩,
          ⟨"c", some "X", false, .other "chan"⟩]) =
      (structPtr [⟨"a", some "", false, .uint 8 1⟩, ⟨"b", some "X", false, .int 8 2⟩,
        ⟨"c", some "X", false, .other "chan"⟩], .ok) := by
  refine ⟨parseField_unsettable ctx names name tag v, ?_, by rfl⟩
  rw [structPtr, Parse_struct, parseFields_unsettable]
  rfl

/-! ## The element loop in general -/

/-- The element loop when every call returns without error: position `i` holds what the
call on the element at `i` with the `i`-th substring returns, one call per substring, in
order; the positions without a substring are kept. -/
theorem rangeVals_zipWith (step : Value → String → CallResult) (names : List String)
    (X : String) (res : Value → String → Value) :
    ∀ (vals : List String) (dst : List Value) (i : Nat), vals.length ≤ dst.length →
    (∀ p ∈ List.zip dst vals, step p.1 p.2 = .returns (res p.1 p.2) none) →
    rangeVals step names X i vals dst =
      (List.zipWith res dst vals ++ dst.drop vals.length, .ok) := by
  intro vals
  induction vals with
  | nil => intro dst i _ _; simp [rangeVals]
  | cons l ls ih =>
    intro dst i hlen hres
    cases dst with
    | nil => simp at hlen
    | cons d ds =>
      have h0 := hres (d, l) (by simp)
      have hrest := ih ds (i + 1) (by simpa using hlen)
        (fun p hp => hres p (by simp [hp]))
      simp only at h0
      rw [rangeVals, h0]
      simp only [hrest]
      simp

/-- A loop that ends without error made every call, and every call returned without
error. -/
theorem rangeVals_ok_inv (step : Value → String → CallResult) (names : List String)
    (X : String) :
    ∀ (vals : List String) (dst : List Value) (i : Nat), vals.length ≤ dst.length →
    (rangeVals step names X i vals dst).2 = .ok →
    ∀ p ∈ List.zip dst vals, ∃ d', step p.1 p.2 = .returns d' none := by
  intro vals
  induction vals with
  | nil => intro dst i _ _ p hp; simp at hp
  | cons l ls ih =>
    intro dst i hlen hok p hp
    cases dst with
    | nil => simp at hlen
    | cons d ds =>
      rw [rangeVals] at hok
      cases hst : step d l with
      | crash => rw [hst] at hok; simp at hok
      | returns d1 m =>
        rw [hst] at hok
        cases m with
        | some msg =>
          simp only at hok
          cases hn : names[i]? <;> rw [hn] at hok <;> simp at hok
        | none =>
          simp only at hok
          simp only [List.zip_cons_cons, List.mem_cons] at hp
          rcases hp with rfl | hp
          · exact ⟨d1, hst⟩
          · exact ih ds (i + 1) (by simpa using hlen) hok p hp

/-- A prefix of substrings that is decoded without error is followed by the rest. -/
theorem rangeVals_append (step : Value → String → CallResult) (names : List String)
    (X : String) (rest : List String) (drest : List Value) :
    ∀ (pre : List String) (dpre : List Value) (i : Nat), pre.length = dpre.length →
    (rangeVals step names X i pre dpre).2 = .ok →
    rangeVals step names X i (pre ++ rest) (dpre ++ drest) =
      ((rangeVals step names X i pre dpre).1 ++
          (rangeVals step names X (i + pre.length) rest drest).1,
        (rangeVals step names X (i + pre.length) rest drest).2) := by
  intro pre
  induction pre with
  | nil =>
    intro dpre i hlen _
    cases dpre with
    | nil => simp [rangeVals]
    | cons d ds => simp at hlen
  | cons l ls ih =>
    intro dpre i hlen hok
    cases dpre with
    | nil => simp at hlen
    | cons d ds =>
      rw [rangeVals] at hok
      simp only [List.cons_append]
      rw [rangeVals, rangeVals]
      cases hst : step d l with
      | crash => rw [hst] at hok; simp at hok
      | returns d1 m =>
        rw [hst] at hok
        cases m with
        | some msg =>
          simp only at hok
          cases hn : names[i]? <;> rw [hn] at hok <;> simp at hok
        | none =>
          simp only at hok ⊢
          rw [ih ds (i + 1) (by simpa using hlen) hok]
          simp only [List.length_cons, List.cons_append]
          rw [show i + 1 + ls.length = i + (ls.length + 1) by omega]

/-- The loop stops at a substring whose call does not return without error; the element
holds what the call left, the later elements are not visited. -/
theorem rangeVals_stop (step : Value → String → CallResult) (names : List String)
    (X l : String) (ls : List String) (d : Value) (ds : List Value) (i : Nat)
    (hfail : ∀ d', step d l ≠ .returns d' none)
    (hkeep : ∀ d' msg, step d l = .returns d' (some msg) → d' = d) :
    (rangeVals step names X i (l :: ls) (d :: ds)).1 = d :: ds ∧
    (rangeVals step names X i (l :: ls) (d :: ds)).2 ≠ .ok := by
  rw [rangeVals]
  cases hst : step d l with
  | crash => simp
  | returns d1 m =>
    cases m with
    | none => exact absurd hst (hfail d1)
    | some msg =>
      have := hkeep d1 msg hst
      subst this
      cases hn : names[i]? <;> simp

/-! ## Slices are assigned after the loop -/

/-- After the pointer loop a value that is not a pointer goes to the type switch. -/
theorem parseValue_tagged_of_kind (ctx : Ctx) (names : List String) (name X : String) :
    (v : Value) → v.kind ≠ .Ptr →
    parseValue ctx names name (some X) v = parseTagged ctx names name X v
  | .ptr _ _, h => by simp [Value.kind] at h
  | .named p n r u, h => by
    have hu : ¬ (u.kind = .Ptr ∨ ((some X : Option String) = none ∧ u.kind = .Struct)) := by
      simpa [Value.kind] using h
    simp only [parseValue, if_neg hu]
  | .struct _, _ => by simp only [parseValue]
  | .bool _, _ => by simp only [parseValue]
  | .string _, _ => by simp only [parseValue]
  | .int _ _, _ => by simp only [parseValue]
  | .uint _ _, _ => by simp only [parseValue]
  | .float _ _, _ => by simp only [parseValue]
  | .array _ _, _ => by simp only [parseValue]
  | .slice _ _, _ => by simp only [parseValue]
  | .other _, _ => by simp only [parseValue]

/-- The iteration of a settable, annotated field whose variable is set, whose value is
not a pointer and exposes no custom decoder, is the type switch. -/
theorem parseField_tagged_of_kind (ctx : Ctx) (names : List String) (name X s : String)
    (v : Value) (hX : X ≠ "") (hset : ctx.lookupEnv X = some s) (hk : v.kind ≠ .Ptr)
    (hv : implementsValue v = false) (ha : implementsAddr v = false) :
    parseField ctx names ⟨name, some X, true, v⟩ = parseTagged ctx names name X v := by
  simp only [parseField, hX, hset, parseAsTextUnmarshaler_none ctx v X hv ha,
    parseValue_tagged_of_kind ctx names name X v hk]
  simp

theorem parseTagged_slice_atomic (ctx : Ctx) (names : List String) (name X : String)
    (v : Value) (hd : ¬ v.isDuration = true) (hk : v.kind = .Slice)
    (h : (parseTagged ctx names name X v).2 ≠ .ok) :
    (parseTagged ctx names name X v).1 = v := by
  revert h
  unfold parseTagged
  simp only
  rw [if_neg hd, hk]
  simp only
  cases hrep : List.replicate (Split (ctx.getenv X)).length (zero v.elemType) with
  | nil => simp
  | cons el tl =>
    simp only
    cases hst : elemStep ctx v.elemType el with
    | none => simp
    | some step =>
      simp only
      cases hr : rangeVals step names X 0 (Split (ctx.getenv X)) (el :: tl) with
      | mk es o =>
        cases o with
        | ok =>
          simp only
          cases hse : v.setElems es with
          | none => simp
          | some w => simp
        | crash => simp
        | err e => simp

theorem parseTagged_slice_unsupported (ctx : Ctx) (names : List String) (name X : String)
    (v : Value) (hd : ¬ v.isDuration = true) (hk : v.kind = .Slice)
    (hnone : elemStep ctx v.elemType (zero v.elemType) = none) :
    parseTagged ctx names name X v = (v, .err (.UnparsableTypeError name)) ∨
      parseTagged ctx names name X v = (v, .crash) := by
  unfold parseTagged
  simp only
  rw [if_neg hd, hk]
  simp only
  cases hrep : List.replicate (Split (ctx.getenv X)).length (zero v.elemType) with
  | nil => right; rfl
  | cons el tl =>
    have hel : el = zero v.elemType :=
      List.eq_of_mem_replicate (by rw [hrep]; exact List.mem_cons_self _ _)
    left
    simp only [hel, hnone]

theorem mem_zip_replicate (z : Value) :
    ∀ (vals : List String) (l : String), l ∈ vals →
      (z, l) ∈ List.zip (List.replicate vals.length z) vals := by
  intro vals
  induction vals with
  | nil => intro l hl; simp at hl
  | cons a as ih =>
    intro l hl
    simp only [List.length_cons, List.replicate_succ, List.zip_cons_cons, List.mem_cons,
      Prod.mk.injEq, true_and]
    simp only [List.mem_cons] at hl
    rcases hl with rfl | hl
    · exact Or.inl rfl
    · exact Or.inr (ih l hl)

theorem splitComma_ne_nil : ∀ cs : List Char, splitComma cs ≠ [] := by
  intro cs
  induction cs with
  | nil => simp [splitComma]
  | cons c cs ih =>
    by_cases hc : c = ','
    · simp [splitComma, hc]
    · cases hs : splitComma cs with
      | nil => exact absurd hs ih
      | cons p ps => simp [splitComma, hc, hs]

theorem Split_ne_nil (s : String) : Split s ≠ [] := by
  unfold Split
  simpa using splitComma_ne_nil s.toList

/-- C27: decoding a list is atomic. For a settable field of kind slice (a slice type or a
defined type over one, without custom decoder of its own) whose variable is set: when the
iteration of the field does not end without error, the field holds the value it held
before, the same elements in the same number. This is the case when the element type has
no decoding strategy (the error is `UnparsableTypeError`), and whenever the call of the
element decoder on one of the substrings does not return without error: the elements are
decoded into a list made anew, which is stored in the field after the loop only. -/
theorem list_decoding_is_atomic (ctx : Ctx) (names : List String) (name X s : String)
    (v : Value) (hX : X ≠ "") (hset : ctx.lookupEnv X = some s) (hk : v.kind = .Slice)
    (hnd : v.isDuration = false)
    (hv : implementsValue v = false) (ha : implementsAddr v = false) :
    ((parseField ctx names ⟨name, some X, true, v⟩).2 ≠ .ok →
      (parseField ctx names ⟨name, some X, true, v⟩).1 = v) ∧
    (elemStep ctx v.elemType (zero v.elemType) = none →
      parseField ctx names ⟨name, some X, true, v⟩ =
        (v, .err (.UnparsableTypeError name))) ∧
    (∀ step, elemStep ctx v.elemType (zero v.elemType) = some step →
      (∃ l ∈ Split s, ∀ d', step (zero v.elemType) l ≠ .returns d' none) →
      (parseField ctx names ⟨name, some X, true, v⟩).2 ≠ .ok ∧
        (parseField ctx names ⟨name, some X, true, v⟩).1 = v) := by
  have hd : ¬ v.isDuration = true := by simp [hnd]
  have hkp : v.kind ≠ .Ptr := by rw [hk]; simp
  have hg := getenv_of_lookup ctx X s hset
  rw [parseField_tagged_of_kind ctx names name X s v hX hset hkp hv ha]
  have hfails : ∀ step, elemStep ctx v.elemType (zero v.elemType) = some step →
      (∃ l ∈ Split s, ∀ d', step (zero v.elemType) l ≠ .returns d' none) →
      (parseTagged ctx names name X v).2 ≠ .ok := by
    intro step hstep ⟨l, hl, hfail⟩ hok
    obtain ⟨el, tl, step', es, h1, h2, h3, -⟩ :=
      (parseTagged_slice_iff ctx names name X v (parseTagged ctx names name X v).1 hd hk).mp
        (Prod.ext rfl hok)
    rw [hg] at h1 h3
    have hel : el = zero v.elemType :=
      List.eq_of_mem_replicate (by rw [h1]; exact List.mem_cons_self _ _)
    rw [hel, hstep] at h2
    simp only [Option.some.injEq] at h2
    subst h2
    rw [← h1] at h3
    obtain ⟨d', hd'⟩ := rangeVals_ok_inv step names X (Split s) _ 0 (by simp)
      (by rw [h3]) (zero v.elemType, l) (mem_zip_replicate _ _ l hl)
    exact hfail d' hd'
  refine ⟨parseTagged_slice_atomic ctx names name X v hd hk, ?_, ?_⟩
  · intro hnone
    unfold parseTagged
    simp only
    rw [if_neg hd, hk, hg]
    simp only
    obtain ⟨l0, ls, hsplit⟩ := List.exists_cons_of_ne_nil (Split_ne_nil s)
    simp only [hsplit, List.length_cons, List.replicate_succ, hnone]
  · intro step hstep hex
    have h2 := hfails step hstep hex
    exact ⟨h2, parseTagged_slice_atomic ctx names name X v hd hk h2⟩

theorem list_decoding_is_atomic_witness :
    parseField (testCtx [("L", "1,2,x")]) ["V", "W", "Z"]
        ⟨"W", some "L", true, .slice (.int 8) [.int 8 5, .int 8 6]⟩ =
      (.slice (.int 8) [.int 8 5, .int 8 6],
        .err (.ParseError "Z" "L"
          (NumError.Error (testCtx []) ⟨"ParseInt", "x", .ErrSyntax⟩))) :=
  Prod.ext
    ((list_decoding_is_atomic (testCtx [("L", "1,2,x")]) ["V", "W", "Z"] "W" "L" "1,2,x"
      (.slice (.int 8) [.int 8 5, .int 8 6]) (by decide) (by rfl) (by rfl) (by rfl) (by rfl)
      (by rfl)).1 (by decide))
    (by rfl)

/-! ## Lists of strings -/

theorem splitComma_length (cs : List Char) :
    (splitComma cs).length = cs.count ',' + 1 := by
  induction cs with
  | nil => simp [splitComma]
  | cons c cs ih =>
    by_cases hc : c = ','
    · subst hc
      simp [splitComma, ih]
    · cases hs : splitComma cs with
      | nil => exact absurd hs (splitComma_ne_nil cs)
      | cons p ps =>
        rw [hs] at ih
        have hc' : ¬ (',' = c) := fun h => hc h.symm
        simp only [splitComma, hc, if_false, hs, List.length_cons] at ih ⊢
        rw [List.count_cons_of_ne hc']
        exact ih

theorem joinComma_splitComma (cs : List Char) : joinComma (splitComma cs) = cs := by
  induction cs with
  | nil => simp [splitComma, joinComma]
  | cons c cs ih =>
    by_cases hc : c = ','
    · subst hc
      cases hs : splitComma cs with
      | nil => exact absurd hs (splitComma_ne_nil cs)
      | cons p ps =>
        rw [hs] at ih
        simp only [splitComma, if_true, hs, joinComma, List.nil_append, ih]
    · cases hs : splitComma cs with
      | nil => exact absurd hs (splitComma_ne_nil cs)
      | cons p ps =>
        rw [hs] at ih
        simp only [splitComma, hc, if_false, hs]
        cases ps with
        | nil =>
          simp only [joinComma] at ih ⊢
          rw [ih]
        | cons q qs =>
          simp only [joinComma, List.cons_append] at ih ⊢
          rw [ih]

theorem splitComma_parts (cs : List Char) : ∀ p ∈ splitComma cs, ',' ∉ p := by
  induction cs with
  | nil => simp [splitComma]
  | cons c cs ih =>
    by_cases hc : c = ','
    · subst hc
      intro p hp
      simp only [splitComma, if_true, List.mem_cons] at hp
      rcases hp with rfl | hp
      · simp
      · exact ih p hp
    · cases hs : splitComma cs with
      | nil => exact absurd hs (splitComma_ne_nil cs)
      | cons q qs =>
        rw [hs] at ih
        intro p hp
        simp only [splitComma, hc, if_false, hs, List.mem_cons] at hp
        rcases hp with rfl | hp
        · have hq := ih q (by simp)
          have hc' : ¬ (',' = c) := fun h => hc h.symm
          simp [hc', hq]
        · exact ih p (by simp [hp])

theorem Split_length (s : String) : (Split s).length = s.toList.count ',' + 1 := by
  unfold Split
  rw [List.length_map, splitComma_length]

theorem Join_Split (s : String) : Join (Split s) = s := by
  unfold Join Split
  rw [List.map_map]
  have h : (String.toList ∘ String.mk) = id := by
    funext p
    rfl
  rw [h, List.map_id, joinComma_splitComma]
  cases s
  rfl

theorem Split_parts (s : String) : ∀ p ∈ Split s, ',' ∉ p.toList := by
  intro p hp
  unfold Split at hp
  simp only [List.mem_map] at hp
  obtain ⟨q, hq, rfl⟩ := hp
  exact splitComma_parts s.toList q hq

theorem zipWith_replicate (res : Value → String → Value) (z : Value) :
    ∀ vals : List String,
      List.zipWith res (List.replicate vals.length z) vals = vals.map (res z) := by
  intro vals
  induction vals with
  | nil => rfl
  | cons l ls ih => simp [List.replicate_succ, ih]

/-- The element loop of a slice: the destination is made of zero values, one per
substring. -/
theorem rangeVals_fresh (step : Value → String → CallResult) (names : List String)
    (X : String) (z : Value) (res : String → Value) (vals : List String)
    (hres : ∀ l ∈ vals, step z l = .returns (res l) none) :
    rangeVals step names X 0 vals (List.replicate vals.length z) = (vals.map res, .ok) := by
  have h := rangeVals_zipWith step names X (fun _ l => res l) vals
    (List.replicate vals.length z) 0 (by simp)
    (by
      intro p hp
      have h1 : p.1 = z := List.eq_of_mem_replicate (List.of_mem_zip hp).1
      have h2 := hres p.2 (List.of_mem_zip hp).2
      rw [h1]
      exact h2)
  rw [h, zipWith_replicate]
  simp

/-- The slice branch when every call on a zero value returns without error. -/
theorem parseTagged_slice_ok (ctx : Ctx) (names : List String) (name X : String)
    (e : GoType) (old : List Value) (step : Value → String → CallResult)
    (res : String → Value)
    (hstep : elemStep ctx e (zero e) = some step)
    (hres : ∀ l ∈ Split (ctx.getenv X), step (zero e) l = .returns (res l) none) :
    parseTagged ctx names name X (.slice e old) =
      (.slice e ((Split (ctx.getenv X)).map res), .ok) := by
  rw [parseTagged_slice_iff ctx names name X _ _ (by simp [Value.isDuration])
    (by simp [Value.kind])]
  obtain ⟨l0, ls, hsplit⟩ := List.exists_cons_of_ne_nil (Split_ne_nil (ctx.getenv X))
  refine ⟨zero e, List.replicate ls.length (zero e), step,
    (Split (ctx.getenv X)).map res, ?_, ?_, ?_, ?_⟩
  · simp [hsplit, Value.elemType, List.replicate_succ]
  · simpa [Value.elemType] using hstep
  · have h := rangeVals_fresh step names X (zero e) res (Split (ctx.getenv X)) hres
    rw [hsplit] at h ⊢
    simpa [List.replicate_succ] using h
  · simp [Value.setElems]

theorem string_type_cases (e : GoType) (hprim : e.isPrimitive = true)
    (hk : e.kind = .String) : e = .string ∨ ∃ p n, e = .named p n none .string := by
  cases e with
  | string => exact Or.inl rfl
  | named p n r u =>
    cases r with
    | some r => cases u <;> simp [GoType.isPrimitive] at hprim
    | none =>
      cases u <;> simp [GoType.isPrimitive] at hprim <;> simp [GoType.kind] at hk
      exact Or.inr ⟨p, n, rfl⟩
  | _ => simp [GoType.kind] at hk

/-- C22: a settable slice field whose elements are of a string type `e` (the string type
or a defined type over it without custom decoder), with its variable set to `s`. The
iteration ends without error and leaves the list of the substrings `Split s` of `s`, in
order, whatever the list held before. These substrings are `count of commas + 1` many,
none holds a comma, and joined by commas they give `s` back, so they are the
comma-separated substrings of `s`; the list has at least one element, and for the empty
text it is the one-element list of the empty string. -/
theorem string_list_is_the_split (ctx : Ctx) (names : List String) (name X s : String)
    (e : GoType) (old : List Value) (hX : X ≠ "") (hset : ctx.lookupEnv X = some s)
    (hprim : e.isPrimitive = true) (hk : e.kind = .String) (hnd : e.isDuration = false) :
    parseField ctx names ⟨name, some X, true, .slice e old⟩ =
      (.slice e ((Split s).map (strElem e)), .ok) ∧
    (Split s).length = s.toList.count ',' + 1 ∧
    Join (Split s) = s ∧
    (∀ p ∈ Split s, ',' ∉ p.toList) ∧
    1 ≤ (Split s).length ∧
    Split "" = [""] := by
  refine ⟨?_, Split_length s, Join_Split s, Split_parts s, ?_, by rfl⟩
  · have hg := getenv_of_lookup ctx X s hset
    rw [parseField_tagged_of_kind ctx names name X s _ hX hset (by simp [Value.kind])
      (by simp [implementsValue]) (by simp [implementsAddr])]
    have hstep := elemStep_primitive ctx e hprim
    have hprimStep : primStep ctx e = decodeString := by
      unfold primStep
      simp [hnd, hk]
    rw [hprimStep] at hstep
    have h := parseTagged_slice_ok ctx names name X e old decodeString (strElem e) hstep
      (by
        intro l _
        rcases string_type_cases e hprim hk with rfl | ⟨p, n, rfl⟩
        · simp [decodeString, zero, Value.setString, stored, strElem]
        · simp [decodeString, zero, Value.setString, stored, strElem])
    rw [hg] at h
    exact h
  · rw [Split_length]
    omega

theorem string_list_is_the_split_witness :
    parseField (testCtx [("L", "a,,b c,")]) ["V"]
        ⟨"V", some "L", true, .slice .string [.string "old"]⟩ =
      (.slice .string [.string "a", .string "", .string "b c", .string ""], .ok) :=
  (string_list_is_the_split (testCtx [("L", "a,,b c,")]) ["V"] "V" "L" "a,,b c," .string
    [.string "old"] (by decide) (by rfl) (by rfl) (by rfl) (by rfl)).1.trans (by rfl)

/-! ## Arrays are written in place -/

/-- The array branch on an array of length at least one, once the decoder of the
elements is chosen: the loop runs on the elements of the field itself. -/
theorem parseTagged_array_eq (ctx : Ctx) (names : List String) (name X : String)
    (e : GoType) (old : List Value) (d0 : Value) (ds : List Value)
    (step : Value → String → CallResult) (hold : old = d0 :: ds)
    (hstep : elemStep ctx e d0 = some step) :
    parseTagged ctx names name X (.array e old) =
      (.array e (rangeVals step names X 0
          (if (Split (ctx.getenv X)).length > old.length then
            (Split (ctx.getenv X)).take old.length else Split (ctx.getenv X)) old).1,
        (rangeVals step names X 0
          (if (Split (ctx.getenv X)).length > old.length then
            (Split (ctx.getenv X)).take old.length else Split (ctx.getenv X)) old).2) := by
  subst hold
  simp only [parseTagged, Value.isDuration, Value.kind, Value.elemType, Value.elems, hstep]
  simp [Value.setElems]

theorem decoders_keep_on_error (ctx : Ctx) (e : GoType) (d : Value) (l : String)
    (d' : Value) (msg : String) (h : primStep ctx e d l = .returns d' (some msg)) :
    d' = d := by
  unfold primStep at h
  by_cases hd : e.isDuration = true
  · rw [if_pos hd] at h
    unfold decodeDuration at h
    cases hp : ctx.parseDuration l with
    | error m => rw [hp] at h; simp only [CallResult.returns.injEq] at h; exact h.1.symm
    | ok x => rw [hp] at h; exact absurd (stored_returns _ _ _ h).2 (by simp)
  · rw [if_neg hd] at h
    cases hk : e.kind <;> rw [hk] at h <;> simp only at h
    · unfold decodeBool at h
      rcases hp : ParseBool l with ⟨b, _ | er⟩
      · rw [hp] at h; exact absurd (stored_returns _ _ _ h).2 (by simp)
      · rw [hp] at h; simp only [CallResult.returns.injEq] at h; exact h.1.symm
    · unfold decodeString at h
      exact absurd (stored_returns _ _ _ h).2 (by simp)
    · unfold decodeInt at h
      rcases hp : ParseInt l e.bits with ⟨b, _ | er⟩
      · rw [hp] at h; exact absurd (stored_returns _ _ _ h).2 (by simp)
      · rw [hp] at h; simp only [CallResult.returns.injEq] at h; exact h.1.symm
    · unfold decodeUint at h
      rcases hp : ParseUint l e.bits with ⟨b, _ | er⟩
      · rw [hp] at h; exact absurd (stored_returns _ _ _ h).2 (by simp)
      · rw [hp] at h; simp only [CallResult.returns.injEq] at h; exact h.1.symm
    · unfold decodeFloat at h
      cases hp : ctx.parseFloat l e.bits with
      | error m => rw [hp] at h; simp only [CallResult.returns.injEq] at h; exact h.1.symm
      | ok x => rw [hp] at h; exact absurd (stored_returns _ _ _ h).2 (by simp)
    all_goals exact absurd h (by simp)

theorem clip_append (pre post : List String) (lk : String) (L : Nat)
    (hL : pre.length < L) :
    ∃ post', (if (pre ++ lk :: post).length > L then (pre ++ lk :: post).take L
      else pre ++ lk :: post) = pre ++ lk :: post' := by
  split_ifs with h
  · obtain ⟨m, hm⟩ : ∃ m, L = pre.length + (m + 1) := ⟨L - pre.length - 1, by omega⟩
    refine ⟨post.take m, ?_⟩
    rw [hm, List.take_append]
    simp
  · exact ⟨post, rfl⟩

/-- C26: the element writes of an array field are made in place and are not rolled
back. For a settable array field of a primitive element type `e` whose variable holds a
text with the substrings `pre`, then `lk`, then `post`: when a scalar field of type `e`
decodes each substring of `pre` without error and does not decode `lk`, and the array is
longer than `pre` (position `k = pre.length` exists), the iteration does not end without
error, the positions before `k` hold the values decoded from `pre`, and the positions from
`k` on hold the values they held before. -/
theorem array_writes_are_not_rolled_back (ctx : Ctx) (names : List String)
    (name X s lk : String) (e : GoType) (old : List Value) (pre post : List String)
    (hX : X ≠ "") (hset : ctx.lookupEnv X = some s) (hprim : e.isPrimitive = true)
    (htyped : ∀ d ∈ old, typeOf d = e)
    (hsplit : Split s = pre ++ lk :: post) (hk : pre.length < old.length)
    (hvalid : ∀ l ∈ pre,
      (parseField (ctx.setenv X l) names ⟨name, some X, true, zero e⟩).2 = .ok)
    (hfail : (parseField (ctx.setenv X lk) names ⟨name, some X, true, zero e⟩).2 ≠ .ok) :
    (parseField ctx names ⟨name, some X, true, .array e old⟩).1 =
      .array e (pre.map (fun l =>
          (parseField (ctx.setenv X l) names ⟨name, some X, true, zero e⟩).1) ++
        old.drop pre.length) ∧
    (parseField ctx names ⟨name, some X, true, .array e old⟩).2 ≠ .ok := by
  have hg := getenv_of_lookup ctx X s hset
  have hfun : (fun l => (parseField (ctx.setenv X l) names
      ⟨name, some X, true, zero e⟩).1) =
      (fun l => (finish name X (zero e) (primStep ctx e (zero e) l)).1) := by
    funext l
    rw [parseField_primitive ctx names name X l e hX hprim]
  have hvalid' : ∀ l ∈ pre,
      (finish name X (zero e) (primStep ctx e (zero e) l)).2 = .ok := by
    intro l hl
    rw [← parseField_primitive ctx names name X l e hX hprim]
    exact hvalid l hl
  rw [parseField_primitive ctx names name X lk e hX hprim] at hfail
  rw [hfun]
  -- the destination: the positions before `k`, the position `k`, the rest
  obtain ⟨dk, dpost, hdrop⟩ : ∃ dk dpost, old.drop pre.length = dk :: dpost := by
    cases hdr : old.drop pre.length with
    | nil =>
      have := congrArg List.length hdr
      simp only [List.length_drop, List.length_nil] at this
      omega
    | cons a as => exact ⟨a, as, rfl⟩
  have hold : old = old.take pre.length ++ dk :: dpost := by
    rw [← hdrop, List.take_append_drop]
  have hlen : pre.length = (old.take pre.length).length := by
    rw [List.length_take]; omega
  have htk : ∀ d ∈ old.take pre.length, typeOf d = e :=
    fun d hd => htyped d (List.mem_of_mem_take hd)
  have hdk : typeOf dk = e := htyped dk (by rw [hold]; simp)
  -- the loop over the prefix
  have hpre := rangeVals_typed ctx names name X e hprim pre (old.take pre.length) 0
    (by omega) htk hvalid'
  rw [List.drop_of_length_le (by omega), List.append_nil] at hpre
  -- the failing call
  obtain ⟨h2, -⟩ := primStep_typed ctx name X lk e dk hprim hdk
  have hnot : ∀ d', primStep ctx e dk lk ≠ .returns d' none := by
    intro d' hd'
    rw [hd'] at h2
    exact hfail (by rw [← h2]; rfl)
  -- the probe and the substrings looked at
  obtain ⟨post', hclip⟩ := clip_append pre post lk old.length hk
  obtain ⟨d0, ds, hcons⟩ := List.exists_cons_of_ne_nil
    (show old ≠ [] by intro h; rw [h] at hk; simp at hk)
  have hstep := elemStep_typed ctx e d0 hprim (htyped d0 (by rw [hcons]; simp))
  rw [parseField_tagged_of_kind ctx names name X s _ hX hset (by simp [Value.kind])
      (by simp [implementsValue]) (by simp [implementsAddr]),
    parseTagged_array_eq ctx names name X e old d0 ds _ hcons hstep, hg, hsplit, hclip]
  have happ := rangeVals_append (primStep ctx e) names X (lk :: post') (dk :: dpost) pre
    (old.take pre.length) 0 hlen (by rw [hpre])
  obtain ⟨s1, s2⟩ := rangeVals_stop (primStep ctx e) names X lk post' dk dpost
    (0 + pre.length) hnot (fun d' msg h => decoders_keep_on_error ctx e dk lk d' msg h)
  rw [← hold] at happ
  rw [happ, hpre, s1, hdrop]
  exact ⟨rfl, s2⟩

theorem array_writes_are_not_rolled_back_witness :
    (parseField (testCtx [("A", "1,2,x,4")]) ["V"]
        ⟨"V", some "A", true, .array (.int 8) [.int 8 5, .int 8 6, .int 8 7, .int 8 8]⟩).1 =
      .array (.int 8) [.int 8 1, .int 8 2, .int 8 7, .int 8 8] :=
  (array_writes_are_not_rolled_back (testCtx [("A", "1,2,x,4")]) ["V"] "V" "A" "1,2,x,4" "x"
    (.int 8) [.int 8 5, .int 8 6, .int 8 7, .int 8 8] ["1", "2"] ["4"]
    (by decide) (by rfl) (by rfl) (by simp [typeOf]) (by rfl) (by decide) (by decide)
    (by decide)).1.trans (by rfl)

/-! ## Elements with a custom decoder -/

/-- The probe decides: an element that exposes the custom decoder is decoded by it,
whatever the element type is. -/
theorem elemStep_custom (ctx : Ctx) (e : GoType) (probe : Value)
    (hcap : implementsValue probe = true ∨ implementsAddr probe = true) :
    elemStep ctx e probe = some (elemDecoder ctx probe) := by
  unfold elemStep elemDecoder
  by_cases hv : implementsValue probe = true
  · simp [hv]
  · have ha : implementsAddr probe = true := hcap.resolve_left hv
    simp [hv, ha]

theorem zip_take_right (dst : List Value) :
    ∀ vals : List String, List.zip dst (vals.take dst.length) = List.zip dst vals := by
  induction dst with
  | nil => intro vals; simp
  | cons d ds ih =>
    intro vals
    cases vals with
    | nil => simp
    | cons l ls => simp [ih ls]

theorem zipWith_take_right (res : Value → String → Value) (dst : List Value) :
    ∀ vals : List String,
      List.zipWith res dst (vals.take dst.length) = List.zipWith res dst vals := by
  induction dst with
  | nil => intro vals; simp
  | cons d ds ih =>
    intro vals
    cases vals with
    | nil => simp
    | cons l ls => simp [ih ls]

/-- The custom decoder of an element of a defined type with an `UnmarshalText` method is a
call of that method on the element. -/
theorem elemDecoder_named (ctx : Ctx) (p n : String) (r : Recv) (u0 u t' : Value)
    (l : String) (err : Option String)
    (h : ctx.unmarshalText p n (some (.named p n (some r) u)) l = .returns t' err) :
    elemDecoder ctx (.named p n (some r) u0) (.named p n (some r) u) l =
      .returns (afterCall r (.named p n (some r) u) t') err := by
  cases r <;> simp [elemDecoder, implementsValue, callValue, callAddr, h, afterCall]

/-- The custom decoder of an element that is a non-nil pointer to a defined type with an
`UnmarshalText` method is a call of that method on the pointee. -/
theorem elemDecoder_ptr (ctx : Ctx) (p n : String) (r : Recv) (U : GoType)
    (probe : Option Value) (t t' : Value) (l : String) (err : Option String)
    (h : ctx.unmarshalText p n (some t) l = .returns t' err) :
    elemDecoder ctx (.ptr (.named p n (some r) U) probe)
        (.ptr (.named p n (some r) U) (some t)) l =
      .returns (.ptr (.named p n (some r) U) (some (afterCall r t t'))) err := by
  cases r <;> simp [elemDecoder, implementsValue, callValue, h, afterCall]

/-- The element loop over elements of the form `f u` when every call returns without
error: position `i` holds what the call on the element at `i` with the `i`-th substring
left, the positions without a substring are kept. -/
theorem rangeVals_map_zipWith (step : Value → String → CallResult) (names : List String)
    (X : String) (f : Value → Value) (res : Value → String → Value) :
    ∀ (vals : List String) (us : List Value) (i : Nat), vals.length ≤ us.length →
    (∀ q ∈ List.zip us vals, step (f q.1) q.2 = .returns (res q.1 q.2) none) →
    rangeVals step names X i vals (us.map f) =
      (List.zipWith res us vals ++ (us.drop vals.length).map f, .ok) := by
  intro vals
  induction vals with
  | nil => intro us i _ _; simp [rangeVals]
  | cons l ls ih =>
    intro us i hlen hres
    cases us with
    | nil => simp at hlen
    | cons u us =>
      have h0 := hres (u, l) (by simp)
      have hrest := ih us (i + 1) (by simpa using hlen)
        (fun q hq => hres q (by simp [hq]))
      simp only at h0
      rw [List.map_cons, rangeVals, h0]
      simp only [hrest]
      simp

/-- The array branch over elements of the form `f u` when every call returns without
error. -/
theorem parseTagged_array_map_ok (ctx : Ctx) (names : List String) (name X : String)
    (e : GoType) (f : Value → Value) (u0 : Value) (us : List Value)
    (step : Value → String → CallResult) (res : Value → String → Value)
    (hstep : elemStep ctx e (f u0) = some step)
    (hres : ∀ q ∈ List.zip (u0 :: us) (Split (ctx.getenv X)),
      step (f q.1) q.2 = .returns (res q.1 q.2) none) :
    parseTagged ctx names name X (.array e ((u0 :: us).map f)) =
      (.array e (List.zipWith res (u0 :: us) (Split (ctx.getenv X)) ++
        ((u0 :: us).drop (Split (ctx.getenv X)).length).map f), .ok) := by
  rw [parseTagged_array_eq ctx names name X e ((u0 :: us).map f) (f u0) (us.map f) step rfl
    hstep]
  by_cases hlen : (Split (ctx.getenv X)).length > ((u0 :: us).map f).length
  · rw [if_pos hlen]
    rw [List.length_map] at hlen ⊢
    have h := rangeVals_map_zipWith step names X f res
      ((Split (ctx.getenv X)).take (u0 :: us).length) (u0 :: us) 0
      (by rw [List.length_take]; omega)
      (by rw [zip_take_right]; exact hres)
    rw [h, zipWith_take_right, List.length_take, Nat.min_eq_left (by omega),
      List.drop_of_length_le (le_refl _), List.drop_of_length_le (by omega)]
  · rw [if_neg hlen]
    rw [List.length_map] at hlen
    have h := rangeVals_map_zipWith step names X f res (Split (ctx.getenv X)) (u0 :: us) 0
      (by omega) hres
    rw [h]

/-- C25: an array or slice field whose element type exposes the custom decoder is decoded
by calls of the `UnmarshalText` method alone, one call per written position, each on the
element at that position with the substring at that position, in order; the result is
given by what the method returns, for every underlying type, so neither the
`time.Duration` nor the primitive dispatch applies. The element type is a defined type
with the method (receiver kind `r`: a value receiver is found by the probe of the value, a
pointer receiver by the probe of the address) or a pointer to one (probe of the value).
For a slice, when the method returns without error on a zero value for every substring,
the field holds what the calls left, one element per substring. For an array of length at
least one, of elements of the defined type or of non-nil pointers to it, when the call on
the element at `i` with the `i`-th substring returns without error for every position
that has both, these positions hold what the calls left and the other positions keep
their values. What a call leaves is `afterCall`: what the method stored through a pointer
receiver, or wrote to the storage its copy shares with the element. -/
theorem element_decoder_is_used (ctx : Ctx) (names : List String) (name X s p n : String)
    (r : Recv) (U : GoType) (old : List Value) (u0 : Value) (us : List Value)
    (resS : String → Value) (resA : Value → String → Value)
    (hX : X ≠ "") (hset : ctx.lookupEnv X = some s) :
    ((∀ l ∈ Split s,
        ctx.unmarshalText p n (some (zero (.named p n (some r) U))) l =
          .returns (resS l) none) →
      parseField ctx names ⟨name, some X, true, .slice (.named p n (some r) U) old⟩ =
          (.slice (.named p n (some r) U)
            ((Split s).map (fun l => afterCall r (zero (.named p n (some r) U)) (resS l))),
            .ok) ∧
        (parseField ctx names
          ⟨name, some X, true, .slice (.named p n (some r) U) old⟩).1.elems.length =
          (Split s).length) ∧
    ((∀ q ∈ List.zip (u0 :: us) (Split s),
        ctx.unmarshalText p n (some (.named p n (some r) q.1)) q.2 =
          .returns (resA q.1 q.2) none) →
      parseField ctx names
          ⟨name, some X, true,
            .array (.named p n (some r) U) ((u0 :: us).map (.named p n (some r)))⟩ =
        (.array (.named p n (some r) U)
          (List.zipWith (fun u l => afterCall r (.named p n (some r) u) (resA u l))
              (u0 :: us) (Split s) ++
            ((u0 :: us).drop (Split s).length).map (.named p n (some r))), .ok)) ∧
    ((∀ q ∈ List.zip (u0 :: us) (Split s),
        ctx.unmarshalText p n (some q.1) q.2 = .returns (resA q.1 q.2) none) →
      parseField ctx names
          ⟨name, some X, true,
            .array (.ptr (.named p n (some r) U))
              ((u0 :: us).map (fun t => .ptr (.named p n (some r) U) (some t)))⟩ =
        (.array (.ptr (.named p n (some r) U))
          (List.zipWith (fun t l =>
              .ptr (.named p n (some r) U) (some (afterCall r t (resA t l))))
              (u0 :: us) (Split s) ++
            ((u0 :: us).drop (Split s).length).map
              (fun t => .ptr (.named p n (some r) U) (some t))), .ok)) := by
  have hg := getenv_of_lookup ctx X s hset
  refine ⟨?_, ?_, ?_⟩
  · intro hres
    have hfield : parseField ctx names
        ⟨name, some X, true, .slice (.named p n (some r) U) old⟩ =
        (.slice (.named p n (some r) U)
          ((Split s).map (fun l => afterCall r (zero (.named p n (some r) U)) (resS l))),
          .ok) := by
      rw [parseField_tagged_of_kind ctx names name X s _ hX hset (by simp [Value.kind])
        (by simp [implementsValue]) (by simp [implementsAddr])]
      have h := parseTagged_slice_ok ctx names name X (.named p n (some r) U) old
        (elemDecoder ctx (zero (.named p n (some r) U)))
        (fun l => afterCall r (zero (.named p n (some r) U)) (resS l))
        (elemStep_custom ctx _ _ (by cases r <;> simp [zero, implementsValue, implementsAddr]))
        (by
          intro l hl
          rw [hg] at hl
          have h1 := hres l hl
          simp only [zero] at h1 ⊢
          exact elemDecoder_named ctx p n r _ _ _ l none h1)
      rw [hg] at h
      exact h
    refine ⟨hfield, ?_⟩
    rw [hfield]
    simp [Value.elems]
  · intro hres
    rw [parseField_tagged_of_kind ctx names name X s _ hX hset (by simp [Value.kind])
      (by simp [implementsValue]) (by simp [implementsAddr])]
    have h := parseTagged_array_map_ok ctx names name X (.named p n (some r) U)
      (.named p n (some r)) u0 us (elemDecoder ctx (.named p n (some r) u0))
      (fun u l => afterCall r (.named p n (some r) u) (resA u l))
      (elemStep_custom ctx _ _ (by cases r <;> simp [implementsValue, implementsAddr]))
      (by
        intro q hq
        rw [hg] at hq
        exact elemDecoder_named ctx p n r _ _ _ _ none (hres q hq))
    rw [hg] at h
    exact h
  · intro hres
    rw [parseField_tagged_of_kind ctx names name X s _ hX hset (by simp [Value.kind])
      (by simp [implementsValue]) (by simp [implementsAddr])]
    have h := parseTagged_array_map_ok ctx names name X (.ptr (.named p n (some r) U))
      (fun t => .ptr (.named p n (some r) U) (some t)) u0 us
      (elemDecoder ctx (.ptr (.named p n (some r) U) (some u0)))
      (fun t l => .ptr (.named p n (some r) U) (some (afterCall r t (resA t l))))
      (elemStep_custom ctx _ _ (by simp [implementsValue]))
      (by
        intro q hq
        rw [hg] at hq
        exact elemDecoder_ptr ctx p n r U _ _ _ _ none (hres q hq))
    rw [hg] at h
    exact h

theorem element_decoder_is_used_witness :
    parseField (testCtx [("L", "a,-,300")]) ["V"]
        ⟨"V", some "L", true, .slice customUint8 []⟩ =
      (.slice customUint8
        [.named "envigo" "customUint8" (some .pointer) (.uint 8 7),
          .named "envigo" "customUint8" (some .pointer) (.uint 8 7),
          .named "envigo" "customUint8" (some .pointer) (.uint 8 7)], .ok) ∧
    parseField (fillCtx [("L", "a,b")]) ["V"]
        ⟨"V", some "L", true,
          .array fill
            [.named "main" "fill" (some .value) (.slice (.uint 8) [.uint 8 1]),
              .named "main" "fill" (some .value) (.slice (.uint 8) [.uint 8 2, .uint 8 3]),
              .named "main" "fill" (some .value) (.slice (.uint 8) [.uint 8 4])]⟩ =
      (.array fill
        [.named "main" "fill" (some .value) (.slice (.uint 8) [.uint 8 7]),
          .named "main" "fill" (some .value) (.slice (.uint 8) [.uint 8 7, .uint 8 7]),
          .named "main" "fill" (some .value) (.slice (.uint 8) [.uint 8 4])], .ok) ∧
    parseField (testCtx [("L", "a,b")]) ["V"]
        ⟨"V", some "L", true,
          .array (.ptr customUint8)
            [.ptr customUint8 (some (.named "envigo" "customUint8" (some .pointer) (.uint 8 1))),
              .ptr customUint8
                (some (.named "envigo" "customUint8" (some .pointer) (.uint 8 2)))]⟩ =
      (.array (.ptr customUint8)
        [.ptr customUint8 (some (.named "envigo" "customUint8" (some .pointer) (.uint 8 7))),
          .ptr customUint8 (some (.named "envigo" "customUint8" (some .pointer) (.uint 8 7)))],
        .ok) :=
  ⟨((element_decoder_is_used (testCtx [("L", "a,-,300")]) ["V"] "V" "L" "a,-,300"
      "envigo" "customUint8" .pointer (.uint 8) [] (.uint 8 0) []
      (fun _ => .named "envigo" "customUint8" (some .pointer) (.uint 8 7))
      (fun u _ => u) (by decide) (by rfl)).1 (by intro l _; rfl)).1.trans (by rfl),
    ((element_decoder_is_used (fillCtx [("L", "a,b")]) ["V"] "V" "L" "a,b"
      "main" "fill" .value (.slice (.uint 8)) []
      (.slice (.uint 8) [.uint 8 1])
      [.slice (.uint 8) [.uint 8 2, .uint 8 3], .slice (.uint 8) [.uint 8 4]]
      (fun _ => .other "unused")
      (fun u _ => .named "main" "fill" (some .value)
        (.slice (.uint 8) (u.elems.map (fun _ => .uint 8 7))))
      (by decide) (by rfl)).2.1
        (by
          intro q hq
          rw [show Split "a,b" = ["a", "b"] by rfl] at hq
          simp at hq
          rcases hq with rfl | rfl <;> rfl)).trans (by rfl),
    ((element_decoder_is_used (testCtx [("L", "a,b")]) ["V"] "V" "L" "a,b"
      "envigo" "customUint8" .pointer (.uint 8) []
      (.named "envigo" "customUint8" (some .pointer) (.uint 8 1))
      [.named "envigo" "customUint8" (some .pointer) (.uint 8 2)]
      (fun _ => .other "unused")
      (fun _ _ => .named "envigo" "customUint8" (some .pointer) (.uint 8 7))
      (by decide) (by rfl)).2.2
        (by
          intro q hq
          rw [show Split "a,b" = ["a", "b"] by rfl] at hq
          simp at hq
          rcases hq with rfl | rfl <;> rfl)).trans (by rfl)⟩

/-! ## The indexes of the composite branches -/

/-- An array field of length 0 whose variable is set: the probe `fieldVal.Index(0)` is out
of range, for every element type and every text. -/
theorem parseField_empty_array (ctx : Ctx) (names : List String) (name X s : String)
    (e : GoType) (hX : X ≠ "") :
    parseField (ctx.setenv X s) names ⟨name, some X, true, .array e []⟩ =
      (.array e [], .crash) := by
  have hl : (ctx.setenv X s).lookupEnv X = some s := by simp [Ctx.setenv]
  rw [parseField_tagged_of_kind (ctx.setenv X s) names name X s _ hX hl
    (by simp [Value.kind]) (by simp [implementsValue]) (by simp [implementsAddr])]
  simp [parseTagged, Value.isDuration, Value.kind, Value.elems]

theorem clip_length (s : String) (L : Nat) :
    (if (Split s).length > L then (Split s).take L else Split s).length ≤ L := by
  split_ifs with h
  · rw [List.length_take]; omega
  · omega

/-- C28: the code at the failing input. For an array field of length 0 whose variable is
set, the probe `fieldVal.Index(0)` of the array branch is out of range and `Parse`
panics: with a string element type and the empty text, with an element type that has a
custom decoder, and for every element type and every text in the field `V` with the
variable `A`. The other indexes of the claim are in range: a text splits into at least one
substring, so the list a slice is made of has an element at index 0, and the substrings
an array branch looks at are at most as many as the array is long. -/
theorem probe_of_empty_array_is_out_of_range :
    Parse (testCtx [("A", "")]) (structPtr [⟨"V", some "A", true, .array .string []⟩]) =
      (structPtr [⟨"V", some "A", true, .array .string []⟩], .crash) ∧
    Parse (testCtx [("A", "a,b")])
        (structPtr [⟨"V", some "A", true, .array customUint8 []⟩]) =
      (structPtr [⟨"V", some "A", true, .array customUint8 []⟩], .crash) ∧
    (∀ (ctx : Ctx) (names : List String) (s : String) (e : GoType),
      parseField (ctx.setenv "A" s) names ⟨"V", some "A", true, .array e []⟩ =
        (.array e [], .crash)) ∧
    (∀ s : String, 1 ≤ (Split s).length) ∧
    (∀ (s : String) (L : Nat),
      (if (Split s).length > L then (Split s).take L else Split s).length ≤ L) := by
  refine ⟨by rfl, by rfl, ?_, ?_, clip_length⟩
  · intro ctx names s e
    exact parseField_empty_array ctx names "V" "A" s e (by decide)
  · intro s
    rw [Split_length]
    omega

/-! ## Integer literals and their base -/

theorem digitChar16_facts (d : Nat) (hd : d < 16) :
    digitVal (Nat.digitChar d) = some d ∧ Nat.digitChar d ≠ '_' ∧
      Nat.digitChar d ≠ '+' ∧ Nat.digitChar d ≠ '-' := by
  interval_cases d <;> decide

theorem valueIn_ge (b : Nat) (hb : 1 ≤ b) (ds : List Nat) : ∀ n, n ≤ valueIn b n ds := by
  induction ds with
  | nil => intro n; simp [valueIn]
  | cons d ds ih =>
    intro n
    have h := ih (n * b + d)
    simp only [valueIn, List.foldl_cons] at h ⊢
    have : n ≤ n * b := Nat.le_mul_of_pos_right n hb
    omega

/-- The digit loop of `ParseUint` on digits of the base `b`: it returns the number they
denote in base `b` when that number fits, and the range error otherwise. -/
theorem parseUintLoop_base (b : Nat) (hb1 : 2 ≤ b) (hb2 : b ≤ 16) (maxVal : Nat)
    (hmax : maxVal < 2 ^ 64) (us : Bool) :
    ∀ (ds : List Nat) (n : Nat), (∀ d ∈ ds, d < b) → n ≤ maxVal →
    parseUintLoop b true ((2 ^ 64 - 1) / b + 1) maxVal (ds.map Nat.digitChar) n us =
      if valueIn b n ds ≤ maxVal then .ok (valueIn b n ds, us) else .error .ErrRange := by
  intro ds
  induction ds with
  | nil => intro n _ hn; simp [parseUintLoop, valueIn, hn]
  | cons d ds ih =>
    intro n hds hn
    have hd : d < b := hds d (by simp)
    obtain ⟨hv, hu, -, -⟩ := digitChar16_facts d (by omega)
    have hge := valueIn_ge b (by omega) ds (n * b + d)
    have hval : valueIn b n (d :: ds) = valueIn b (n * b + d) ds := by
      simp [valueIn]
    have hd' : ¬ (d ≥ b) := by omega
    simp only [List.map_cons, parseUintLoop, hu, false_and, if_false, hv, hval, hd']
    by_cases hc : n ≥ (2 ^ 64 - 1) / b + 1
    · rw [if_pos hc]
      have h1 : (2 ^ 64 - 1) / b < n := by omega
      have h2 : 2 ^ 64 - 1 < n * b := (Nat.div_lt_iff_lt_mul (by omega)).mp h1
      have : ¬ (valueIn b (n * b + d) ds ≤ maxVal) := by omega
      rw [if_neg this]
    · rw [if_neg hc]
      have h1 : n ≤ (2 ^ 64 - 1) / b := by omega
      have h2 : n * b ≤ 2 ^ 64 - 1 := (Nat.le_div_iff_mul_le (by omega)).mp h1
      have h3 : n * b % 2 ^ 64 = n * b := Nat.mod_eq_of_lt (by omega)
      simp only [h3]
      by_cases hov : (n * b + d) % 2 ^ 64 < n * b ∨ (n * b + d) % 2 ^ 64 > maxVal
      · rw [if_pos hov]
        have : ¬ (valueIn b (n * b + d) ds ≤ maxVal) := by
          generalize n * b = nb at *
          omega
        rw [if_neg this]
      · rw [if_neg hov]
        have h4 : (n * b + d) % 2 ^ 64 = n * b + d := by
          generalize n * b = nb at *
          omega
        rw [h4] at hov ⊢
        exact ih (n * b + d) (fun x hx => hds x (by simp [hx])) (by omega)
theorem admits_digits (m : BaseMark) (ds : List Nat) (h : m.admits ds = true) :
    ∀ d ∈ ds, d < m.base := by
  unfold BaseMark.admits at h
  simp only [Bool.and_eq_true, List.all_eq_true, decide_eq_true_eq] at h
  exact h.1

theorem base_bounds (m : BaseMark) : 2 ≤ m.base ∧ m.base ≤ 16 := by
  cases m <;> simp [BaseMark.base]

/-- The base `ParseUint` chooses for a marked literal, and the digits it is left with. -/
theorem basePrefix_marked (m : BaseMark) (ds : List Nat) (h : m.admits ds = true) :
    m.chars ++ ds.map Nat.digitChar ≠ [] ∧
    basePrefix (m.chars ++ ds.map Nat.digitChar) = (m.base, ds.map Nat.digitChar) := by
  have hdig := admits_digits m ds h
  cases m with
  | decimal =>
    cases ds with
    | nil => simp [BaseMark.admits] at h
    | cons d ds =>
      have hd : d < 10 := hdig d (by simp)
      have hd0 : d ≠ 0 := by
        simp only [BaseMark.admits, Bool.and_eq_true, decide_eq_true_eq] at h
        exact h.2
      have hc : Nat.digitChar d ≠ '0' := by
        intro hc
        exact hd0 ((digitChar_facts d hd).2.2.2.2.mp hc)
      simp only [BaseMark.chars, List.nil_append, List.map_cons, BaseMark.base]
      exact ⟨by simp, basePrefix_decimal _ _ hc⟩
  | hex =>
    cases ds with
    | nil => simp [BaseMark.admits] at h
    | cons d ds =>
      simp only [BaseMark.chars, List.cons_append, List.nil_append, List.map_cons,
        BaseMark.base]
      refine ⟨by simp, ?_⟩
      have h1 : lower 'x' = 120 := by decide
      simp only [basePrefix, h1]
      simp
  | octal =>
    cases ds with
    | nil => simp [BaseMark.admits] at h
    | cons d ds =>
      simp only [BaseMark.chars, List.cons_append, List.nil_append, List.map_cons,
        BaseMark.base]
      refine ⟨by simp, ?_⟩
      have h1 : lower 'o' = 111 := by decide
      simp only [basePrefix, h1]
      simp
  | binary =>
    cases ds with
    | nil => simp [BaseMark.admits] at h
    | cons d ds =>
      simp only [BaseMark.chars, List.cons_append, List.nil_append, List.map_cons,
        BaseMark.base]
      refine ⟨by simp, ?_⟩
      have h1 : lower 'b' = 98 := by decide
      simp only [basePrefix, h1, if_true]
  | zero =>
    simp only [BaseMark.chars, List.cons_append, List.nil_append, BaseMark.base]
    refine ⟨by simp, ?_⟩
    cases ds with
    | nil => simp [basePrefix]
    | cons d1 ds =>
      cases ds with
      | nil => simp [basePrefix]
      | cons d2 ds =>
        have hd1 : d1 < 8 := hdig d1 (by simp)
        have hl : ¬ lower (Nat.digitChar d1) = 98 ∧ ¬ lower (Nat.digitChar d1) = 111 ∧
            ¬ lower (Nat.digitChar d1) = 120 := by
          interval_cases d1 <;> decide
        simp only [List.map_cons, basePrefix, hl.1, hl.2.1, hl.2.2, if_false]

/-- `ParseUint` on a marked literal: the number its digits denote in the base of the
mark, when it fits the width. -/
theorem ParseUint_marked (m : BaseMark) (ds : List Nat) (w : Nat)
    (h : m.admits ds = true) :
    ParseUint (literal .none m ds) w =
      if valueIn m.base 0 ds ≤ (2 ^ w - 1) % 2 ^ 64 then (valueIn m.base 0 ds, none)
      else ((2 ^ w - 1) % 2 ^ 64, some ⟨"ParseUint", literal .none m ds, .ErrRange⟩) := by
  obtain ⟨hne, hbase⟩ := basePrefix_marked m ds h
  obtain ⟨hb1, hb2⟩ := base_bounds m
  have hloop := parseUintLoop_base m.base hb1 hb2 ((2 ^ w - 1) % 2 ^ 64)
    (Nat.mod_lt _ (by norm_num)) false ds 0 (admits_digits m ds h) (Nat.zero_le _)
  have hlit : literal .none m ds = String.mk (m.chars ++ ds.map Nat.digitChar) := by
    simp [literal, LitSign.chars]
  have hne' : String.mk (m.chars ++ ds.map Nat.digitChar) ≠ "" := by
    intro hs
    have := congrArg String.data hs
    exact hne (by simpa using this)
  rw [hlit]
  unfold ParseUint
  simp only [hne', if_false, String.toList, hbase]
  rw [hloop]
  by_cases hle : valueIn m.base 0 ds ≤ (2 ^ w - 1) % 2 ^ 64
  · rw [if_pos hle, if_pos hle]
    simp
  · rw [if_neg hle, if_neg hle]
theorem ParseInt_plus (ds : List Char) (w : Nat) :
    ParseInt (String.mk ('+' :: ds)) w =
      if (ParseUint (String.mk ds) w).2.isSome = true ∧
          (ParseUint (String.mk ds) w).2.map NumError.Err ≠ some .ErrRange then
        (0, some ⟨"ParseInt", String.mk ('+' :: ds), .ErrSyntax⟩)
      else if (ParseUint (String.mk ds) w).1 ≥ 2 ^ (w - 1) % 2 ^ 64 then
        (((2 ^ (w - 1) % 2 ^ 64 : Nat) : Int) - 1,
          some ⟨"ParseInt", String.mk ('+' :: ds), .ErrRange⟩)
      else (truncInt 64 (ParseUint (String.mk ds) w).1, none) := by
  unfold ParseInt
  simp only [String_mk_ne_empty, if_false, String.toList, pickSign]
  simp

/-- The first character of a marked literal without sign is not a sign. -/
theorem marked_head (m : BaseMark) (ds : List Nat) (h : m.admits ds = true) :
    ∃ c cs, m.chars ++ ds.map Nat.digitChar = c :: cs ∧ c ≠ '+' ∧ c ≠ '-' := by
  have hdig := admits_digits m ds h
  cases m with
  | decimal =>
    cases ds with
    | nil => simp [BaseMark.admits] at h
    | cons d ds =>
      have hd : d < 10 := hdig d (by simp)
      obtain ⟨-, -, hp, hm⟩ := digitChar16_facts d (by omega)
      exact ⟨_, _, rfl, hp, hm⟩
  | hex => exact ⟨'0', _, rfl, by decide, by decide⟩
  | octal => exact ⟨'0', _, rfl, by decide, by decide⟩
  | binary => exact ⟨'0', _, rfl, by decide, by decide⟩
  | zero => exact ⟨'0', _, rfl, by decide, by decide⟩

/-- `ParseInt` on a signed, marked literal whose value fits the width. -/
theorem ParseInt_marked (sg : LitSign) (m : BaseMark) (ds : List Nat) (w : Nat)
    (hw : w = 8 ∨ w = 16 ∨ w = 32 ∨ w = 64) (h : m.admits ds = true)
    (hlo : -(2 : Int) ^ (w - 1) ≤ sg.apply (valueIn m.base 0 ds))
    (hhi : sg.apply (valueIn m.base 0 ds) ≤ 2 ^ (w - 1) - 1) :
    ParseInt (literal sg m ds) w = (sg.apply (valueIn m.base 0 ds), none) := by
  have hU := ParseUint_marked m ds w h
  have hlit : literal .none m ds = String.mk (m.chars ++ ds.map Nat.digitChar) := by
    simp [literal, LitSign.chars]
  rw [hlit] at hU
  have hmax : (2 ^ w - 1) % 2 ^ 64 = 2 * 2 ^ (w - 1) - 1 := by
    rcases hw with rfl | rfl | rfl | rfl <;> norm_num
  rw [hmax] at hU
  have hcut : 2 ^ (w - 1) % 2 ^ 64 = 2 ^ (w - 1) := by
    rcases hw with rfl | rfl | rfl | rfl <;> norm_num
  have hlt : 2 ^ (w - 1) ≤ 9223372036854775808 := by
    rcases hw with rfl | rfl | rfl | rfl <;> norm_num
  have hge : 128 ≤ 2 ^ (w - 1) := by
    rcases hw with rfl | rfl | rfl | rfl <;> norm_num
  have hcast : ((2 ^ (w - 1) : Nat) : Int) = (2 : Int) ^ (w - 1) := by push_cast; rfl
  rw [← hcast] at hlo hhi
  generalize hv : valueIn m.base 0 ds = v at *
  cases sg with
  | none =>
    obtain ⟨c, cs, hbody, hp, hm⟩ := marked_head m ds h
    have hl : literal .none m ds = String.mk (c :: cs) := by rw [hlit, hbody]
    rw [hbody] at hU
    simp only [LitSign.apply] at hlo hhi ⊢
    rw [hl, ParseInt_plain c cs w hp hm, hU, hcut]
    generalize 2 ^ (w - 1) = cut at *
    have h1 : v ≤ 2 * cut - 1 := by omega
    have h2 : ¬ (v ≥ cut) := by omega
    rw [if_pos h1]
    simp only [Option.isSome_none, Bool.false_eq_true, false_and, if_false, h2]
    rw [truncInt_64 _ (by omega) (by omega)]
  | plus =>
    have hl : literal .plus m ds = String.mk ('+' :: (m.chars ++ ds.map Nat.digitChar)) := by
      simp [literal, LitSign.chars]
    simp only [LitSign.apply] at hlo hhi ⊢
    rw [hl, ParseInt_plus, hU, hcut]
    generalize 2 ^ (w - 1) = cut at *
    have h1 : v ≤ 2 * cut - 1 := by omega
    have h2 : ¬ (v ≥ cut) := by omega
    rw [if_pos h1]
    simp only [Option.isSome_none, Bool.false_eq_true, false_and, if_false, h2]
    rw [truncInt_64 _ (by omega) (by omega)]
  | minus =>
    have hl : literal .minus m ds =
        String.mk ('-' :: (m.chars ++ ds.map Nat.digitChar)) := by
      simp [literal, LitSign.chars]
    simp only [LitSign.apply] at hlo hhi ⊢
    rw [hl, ParseInt_minus, hU, hcut]
    generalize 2 ^ (w - 1) = cut at *
    have h1 : v ≤ 2 * cut - 1 := by omega
    have h2 : ¬ (v > cut) := by omega
    rw [if_pos h1]
    simp only [Option.isSome_none, Bool.false_eq_true, false_and, if_false, h2]
    by_cases h3 : v = 9223372036854775808
    · subst h3
      norm_num [truncInt_64_min]
    · rw [truncInt_64 (v : Int) (by omega) (by omega), truncInt_64 _ (by omega) (by omega)]

/-- C21, as stated, fails for literals with a leading zero: `ParseInt` and `ParseUint` are
called with base 0, where a leading `0` marks an octal literal. The text `010` is decoded
to 8, not to 10, in a signed and in an unsigned field, also after a sign; and the text
`08`, which consists of decimal digits only, is rejected. -/
theorem leading_zero_is_octal :
    parseField (testCtx [("N", "010")]) ["V"] ⟨"V", some "N", true, .int 64 0⟩ =
      (.int 64 8, .ok) ∧
    parseField (testCtx [("N", "010")]) ["V"] ⟨"V", some "N", true, .uint 8 0⟩ =
      (.uint 8 8, .ok) ∧
    parseField (testCtx [("N", "-010")]) ["V"] ⟨"V", some "N", true, .int 8 0⟩ =
      (.int 8 (-8), .ok) ∧
    parseField (testCtx [("N", "08")]) ["V"] ⟨"V", some "N", true, .int 64 0⟩ =
      (.int 64 0, .err (.ParseError "V" "N"
        (NumError.Error (testCtx []) ⟨"ParseInt", "08", .ErrSyntax⟩))) := by
  refine ⟨by rfl, by rfl, by rfl, by rfl⟩

/-- C21, amended: the base of an integer literal is decided by its mark, and it is decimal
only for a literal that does not start with `0`. For a settable field of an integer kind
of width `w ∈ {8, 16, 32, 64}` whose variable holds the literal made of a sign, a base
mark and digits of the base of the mark (`0x`: 16, `0o`: 8, `0b`: 2, a leading `0`: 8, no
mark and a first digit other than 0: 10; the text `0` is the mark `0` alone): a signed
field stores the signed value of the digits in that base when it fits the width, and an
unsigned field, for a literal without sign, stores their value when it fits. -/
theorem integer_base_by_mark (ctx : Ctx) (names : List String) (name X : String) (w : Nat)
    (old : Int) (oldu : Nat) (sg : LitSign) (m : BaseMark) (ds : List Nat)
    (hw : w = 8 ∨ w = 16 ∨ w = 32 ∨ w = 64) (hX : X ≠ "") (hadm : m.admits ds = true) :
    (ctx.lookupEnv X = some (literal sg m ds) →
      -(2 : Int) ^ (w - 1) ≤ sg.apply (valueIn m.base 0 ds) →
      sg.apply (valueIn m.base 0 ds) ≤ 2 ^ (w - 1) - 1 →
      parseField ctx names ⟨name, some X, true, .int w old⟩ =
        (.int w (sg.apply (valueIn m.base 0 ds)), .ok)) ∧
    (ctx.lookupEnv X = some (literal .none m ds) →
      valueIn m.base 0 ds ≤ 2 ^ w - 1 →
      parseField ctx names ⟨name, some X, true, .uint w oldu⟩ =
        (.uint w (valueIn m.base 0 ds), .ok)) := by
  constructor
  · intro hset hlo hhi
    rw [parseField_int_ok ctx names name X _ w old _ hX hset
      (ParseInt_marked sg m ds w hw hadm hlo hhi), truncInt_of_range w _ hw ⟨hlo, hhi⟩]
  · intro hset hfit
    have hmax : (2 ^ w - 1) % 2 ^ 64 = 2 ^ w - 1 := by
      rcases hw with rfl | rfl | rfl | rfl <;> norm_num
    have hp : ParseUint (literal .none m ds) w = (valueIn m.base 0 ds, none) := by
      rw [ParseUint_marked m ds w hadm, hmax, if_pos hfit]
    rw [parseField_uint_ok ctx names name X _ w oldu _ hX hset hp]
    have hpos : 0 < 2 ^ w := Nat.pow_pos (by norm_num)
    have : truncUint w (valueIn m.base 0 ds) = valueIn m.base 0 ds := by
      unfold truncUint
      exact Nat.mod_eq_of_lt (by omega)
    rw [this]

theorem integer_base_by_mark_witness :
    parseField (testCtx [("N", "-0x1f")]) ["V"] ⟨"V", some "N", true, .int 8 0⟩ =
      (.int 8 (-31), .ok) ∧
    parseField (testCtx [("N", "0b101")]) ["V"] ⟨"V", some "N", true, .uint 16 0⟩ =
      (.uint 16 5, .ok) :=
  ⟨(integer_base_by_mark (testCtx [("N", "-0x1f")]) ["V"] "V" "N" 8 0 0 .minus .hex [1, 15]
      (by decide) (by decide) (by decide)).1 (by rfl) (by decide) (by decide),
    (integer_base_by_mark (testCtx [("N", "0b101")]) ["V"] "V" "N" 16 0 0 .none .binary
      [1, 0, 1] (by decide) (by decide) (by decide)).2 (by rfl) (by decide)⟩

/-! ## Durations -/

theorem digitChar_toNat (d : Nat) (hd : d < 10) : (Nat.digitChar d).toNat = 48 + d := by
  interval_cases d <;> rfl

/-- `leadingInt` consumes a text of decimal digits to its end, or reports an overflow. -/
theorem leadingInt_digits :
    ∀ (ds : List Nat) (x : Nat), (∀ d ∈ ds, d < 10) →
      leadingInt (ds.map Nat.digitChar) x = none ∨
        ∃ v, leadingInt (ds.map Nat.digitChar) x = some (v, []) := by
  intro ds
  induction ds with
  | nil => intro x _; exact Or.inr ⟨x, rfl⟩
  | cons d ds ih =>
    intro x hds
    have hd : d < 10 := hds d (by simp)
    have hc := digitChar_toNat d hd
    have hnot : ¬ ((Nat.digitChar d).toNat < 48 ∨ (Nat.digitChar d).toNat > 57) := by omega
    simp only [List.map_cons, leadingInt, hnot, if_false]
    by_cases h1 : x > 2 ^ 63 / 10
    · rw [if_pos h1]; exact Or.inl rfl
    · rw [if_neg h1]
      by_cases h2 : x * 10 + ((Nat.digitChar d).toNat - 48) > 2 ^ 63
      · rw [if_pos h2]; exact Or.inl rfl
      · rw [if_neg h2]
        exact ih _ (fun y hy => hds y (by simp [hy]))

/-- A text of decimal digits is not a duration: the loop fails in its first iteration,
on an overflow or on the missing unit. -/
theorem durationLoop_digits (frac : Nat → Nat → Nat → Nat) (fuel : Nat) (d : Nat)
    (ds : List Nat) (hds : ∀ x ∈ d :: ds, x < 10) :
    durationLoop frac (fuel + 1) ((d :: ds).map Nat.digitChar) 0 = .error .invalid ∨
      durationLoop frac (fuel + 1) ((d :: ds).map Nat.digitChar) 0 = .error .missingUnit := by
  have hd : d < 10 := hds d (by simp)
  have hc := digitChar_toNat d hd
  have hfirst : (Nat.digitChar d = '.' ∨
      (48 ≤ (Nat.digitChar d).toNat ∧ (Nat.digitChar d).toNat ≤ 57)) := Or.inr (by omega)
  rcases leadingInt_digits (d :: ds) 0 hds with h | ⟨v, h⟩
  · left
    simp only [List.map_cons] at h ⊢
    simp only [durationLoop, hfirst, not_true_eq_false, if_false, h]
  · right
    simp only [List.map_cons] at h ⊢
    simp only [durationLoop, hfirst, not_true_eq_false, if_false, h, fractionPart, unitSpan]
    simp

theorem digits_ne_zero (ds : List Nat) (hds : ∀ d ∈ ds, d < 10) (h0 : ds ≠ [0]) :
    ds.map Nat.digitChar ≠ ['0'] := by
  intro h
  cases ds with
  | nil => simp at h
  | cons d ds =>
    cases ds with
    | cons e es => simp at h
    | nil =>
      simp only [List.map_cons, List.map_nil, List.cons.injEq, and_true] at h
      have := (digitChar_facts d (hds d (by simp))).2.2.2.2.mp h
      exact h0 (by rw [this])

/-- `ParseDuration` rejects every literal made of a sign and decimal digits only, except
the texts `0`, `+0` and `-0`. -/
theorem ParseDuration_digits (quote : String → String) (frac : Nat → Nat → Nat → Nat)
    (sg : LitSign) (ds : List Nat) (hne : ds ≠ []) (h0 : ds ≠ [0])
    (hds : ∀ d ∈ ds, d < 10) :
    ∃ msg, ParseDuration quote frac (literal sg .decimal ds) = .error msg := by
  obtain ⟨d, ds', rfl⟩ := List.exists_cons_of_ne_nil hne
  have hsign : pickSign (literal sg .decimal (d :: ds')).toList =
      (decide (sg = .minus), (d :: ds').map Nat.digitChar) := by
    obtain ⟨-, -, hp, hm⟩ := digitChar16_facts d (by have := hds d (by simp); omega)
    cases sg with
    | none =>
      simp only [literal, LitSign.chars, BaseMark.chars, List.nil_append, List.map_cons,
        String.toList]
      rw [pickSign_plain _ _ hp hm]
      simp
    | plus => simp [literal, LitSign.chars, BaseMark.chars, pickSign]
    | minus => simp [literal, LitSign.chars, BaseMark.chars, pickSign]
  have hz := digits_ne_zero (d :: ds') hds h0
  have hnil : (d :: ds').map Nat.digitChar ≠ [] := by simp
  unfold ParseDuration
  simp only [hsign, hz, hnil, if_false, List.length_map, List.length_cons]
  rcases durationLoop_digits frac ds'.length d ds' hds with h | h
  · rw [h]; exact ⟨_, rfl⟩
  · rw [h]; exact ⟨_, rfl⟩
/-- The loop of `ParseDuration` returns at most `2 ^ 63`. -/
theorem durationLoop_le (frac : Nat → Nat → Nat → Nat) :
    ∀ (fuel : Nat) (s : List Char) (d r : Nat), d ≤ 2 ^ 63 →
      durationLoop frac fuel s d = .ok r → r ≤ 2 ^ 63 := by
  intro fuel
  induction fuel with
  | zero =>
    intro s d r hd h
    cases s with
    | nil =>
      simp only [durationLoop, Except.ok.injEq] at h
      omega
    | cons c cs => simp [durationLoop] at h
  | succ fuel ih =>
    intro s d r hd h
    cases s with
    | nil =>
      simp only [durationLoop, Except.ok.injEq] at h
      omega
    | cons c cs =>
      simp only [durationLoop] at h
      repeat' split at h
      all_goals first
        | (simp at h; done)
        | exact ih _ _ r (by omega) h
theorem leadingInt_rest :
    ∀ (s : List Char) (x v : Nat) (s1 : List Char),
      leadingInt s x = some (v, s1) → ∀ c ∈ s1, c ∈ s := by
  intro s
  induction s with
  | nil =>
    intro x v s1 h c hc
    simp only [leadingInt, Option.some.injEq, Prod.mk.injEq] at h
    rw [← h.2] at hc
    exact hc
  | cons a as ih =>
    intro x v s1 h c hc
    rw [leadingInt] at h
    split at h
    · simp only [Option.some.injEq, Prod.mk.injEq] at h
      rw [← h.2] at hc
      exact hc
    · split at h
      · simp at h
      · split at h
        · simp at h
        · exact List.mem_cons_of_mem _ (ih _ _ _ h c hc)

theorem unitSpan_rest : ∀ (s : List Char), ∀ c ∈ (unitSpan s).2, c ∈ s := by
  intro s
  induction s with
  | nil => intro c hc; simp [unitSpan] at hc
  | cons a as ih =>
    intro c hc
    rw [unitSpan] at hc
    split at hc
    · exact hc
    · exact List.mem_cons_of_mem _ (ih c hc)

theorem fractionPart_of_no_dot (s : List Char) (h : '.' ∉ s) :
    fractionPart s = (0, 0, s, false) := by
  unfold fractionPart
  split
  · rename_i r
    exact absurd (List.mem_cons_self _ _) h
  · rfl

/-- A text without a `.` has no fractional part, and the loop of `ParseDuration` does not
look at the product of one. -/
theorem durationLoop_of_no_dot (frac frac' : Nat → Nat → Nat → Nat) :
    ∀ (fuel : Nat) (s : List Char) (d : Nat), '.' ∉ s →
      durationLoop frac fuel s d = durationLoop frac' fuel s d := by
  intro fuel
  induction fuel with
  | zero =>
    intro s d _
    cases s <;> simp [durationLoop]
  | succ fuel ih =>
    intro s d hs
    cases s with
    | nil => simp [durationLoop]
    | cons c cs =>
      simp only [durationLoop]
      split
      · rfl
      · cases hL : leadingInt (c :: cs) 0 with
        | none => rfl
        | some p =>
          obtain ⟨v, s1⟩ := p
          have hs1 : '.' ∉ s1 := fun hm => hs (leadingInt_rest _ _ _ _ hL '.' hm)
          have hrest : '.' ∉ (unitSpan s1).2 := fun hm => hs1 (unitSpan_rest s1 '.' hm)
          simp only [fractionPart_of_no_dot s1 hs1, Nat.lt_irrefl, false_and, if_false]
          repeat' split
          all_goals first
            | rfl
            | exact ih _ _ hrest

theorem leadingInt_length :
    ∀ (s : List Char) (x v : Nat) (s1 : List Char),
      leadingInt s x = some (v, s1) → s1.length ≤ s.length := by
  intro s
  induction s with
  | nil =>
    intro x v s1 h
    simp only [leadingInt, Option.some.injEq, Prod.mk.injEq] at h
    rw [← h.2]
  | cons a as ih =>
    intro x v s1 h
    rw [leadingInt] at h
    split at h
    · simp only [Option.some.injEq, Prod.mk.injEq] at h
      rw [← h.2]
    · split at h
      · simp at h
      · split at h
        · simp at h
        · have := ih _ _ _ h
          simp only [List.length_cons]
          omega

theorem leadingFraction_length :
    ∀ (s : List Char) (x k : Nat) (o : Bool),
      (leadingFraction s x k o).2.2.length ≤ s.length := by
  intro s
  induction s with
  | nil => intro x k o; simp [leadingFraction]
  | cons a as ih =>
    intro x k o
    rw [leadingFraction]
    repeat' split
    all_goals first
      | (simp; done)
      | exact Nat.le_succ_of_le (ih _ _ _)

theorem fractionPart_length (s : List Char) : (fractionPart s).2.2.1.length ≤ s.length := by
  unfold fractionPart
  split
  · rename_i r
    have := leadingFraction_length r 0 0 false
    simp only [List.length_cons]
    omega
  · simp

theorem unitSpan_length :
    ∀ s : List Char, (unitSpan s).2.length ≤ s.length ∧
      ((unitSpan s).1 ≠ [] → (unitSpan s).2.length < s.length) := by
  intro s
  induction s with
  | nil => simp [unitSpan]
  | cons a as ih =>
    rw [unitSpan]
    split
    · simp
    · simp only [List.length_cons, ne_eq, not_false_eq_true, forall_true_left]
      have := ih.1
      constructor
      · omega
      · intro _
        omega

/-- The loop of `ParseDuration` does not depend on the fuel, once it is at least the
length of the text: every iteration consumes a character. -/
theorem durationLoop_fuel (frac : Nat → Nat → Nat → Nat) :
    ∀ (fuel fuel' : Nat) (s : List Char) (d : Nat), s.length ≤ fuel → s.length ≤ fuel' →
      durationLoop frac fuel s d = durationLoop frac fuel' s d := by
  intro fuel
  induction fuel with
  | zero =>
    intro fuel' s d h _
    cases s with
    | nil => cases fuel' <;> simp [durationLoop]
    | cons c cs => simp at h
  | succ fuel ih =>
    intro fuel' s d h h'
    cases s with
    | nil => cases fuel' <;> simp [durationLoop]
    | cons c cs =>
      cases fuel' with
      | zero => simp at h'
      | succ fuel' =>
        simp only [List.length_cons] at h h'
        simp only [durationLoop]
        split
        · rfl
        · cases hL : leadingInt (c :: cs) 0 with
          | none => rfl
          | some p =>
            obtain ⟨v, s1⟩ := p
            have h1 := leadingInt_length _ _ _ _ hL
            have h2 := fractionPart_length s1
            have h3 := (unitSpan_length (fractionPart s1).2.2.1).2
            simp only [List.length_cons] at h1
            simp only
            by_cases hne : (unitSpan (fractionPart s1).2.2.1).1 = []
            · simp only [hne, if_true]
            · have h4 := h3 hne
              repeat' split
              all_goals first
                | rfl
                | exact ih _ _ _ (by omega) (by omega)

/-- A duration `ParseDuration` returns is an `int64`. -/
theorem ParseDuration_range (quote : String → String) (frac : Nat → Nat → Nat → Nat)
    (s : String) (d : Int) (h : ParseDuration quote frac s = .ok d) :
    -9223372036854775808 ≤ d ∧ d ≤ 9223372036854775807 := by
  unfold ParseDuration at h
  simp only at h
  split at h
  · simp only [Except.ok.injEq] at h
    omega
  · split at h
    · simp at h
    · split at h
      · simp at h
      · simp at h
      · simp at h
      · rename_i r hr
        have hle := durationLoop_le frac _ _ 0 r (by norm_num) hr
        norm_num at hle
        split at h
        · simp only [Except.ok.injEq] at h
          omega
        · split at h
          · simp at h
          · rename_i h1 h2
            norm_num at h2
            simp only [Except.ok.injEq] at h
            omega

/-- The iteration of a settable field of type `time.Duration` whose variable is set: the
text goes to `time.ParseDuration` and to no other parser. -/
theorem parseField_duration (ctx : Ctx) (names : List String) (name X s : String)
    (old : Int) (hX : X ≠ "") (hset : ctx.lookupEnv X = some s) :
    parseField ctx names ⟨name, some X, true, Duration old⟩ =
      match ctx.parseDuration s with
      | .ok d => (Duration (truncInt 64 d), .ok)
      | .error msg => (Duration old, .err (.ParseError name X msg)) := by
  have hg := getenv_of_lookup ctx X s hset
  rw [parseField_tagged_of_kind ctx names name X s _ hX hset (by simp [Duration, Value.kind])
    (by simp [Duration, implementsValue]) (by simp [Duration, implementsAddr])]
  simp only [parseTagged, Duration, Value.isDuration, hg, decodeDuration]
  cases ctx.parseDuration s <;> simp [finish, stored, Value.setInt]

theorem pickSign_rest (s : List Char) : ∀ c ∈ (pickSign s).2, c ∈ s := by
  intro c hc
  unfold pickSign at hc
  split at hc
  · exact List.mem_cons_of_mem _ hc
  · exact List.mem_cons_of_mem _ hc
  · exact hc

theorem ParseDuration_of_no_dot (quote : String → String)
    (frac frac' : Nat → Nat → Nat → Nat) (s : String) (hs : '.' ∉ s.toList) :
    ParseDuration quote frac s = ParseDuration quote frac' s := by
  unfold ParseDuration
  simp only
  rw [durationLoop_of_no_dot frac frac' _ _ 0
    (fun hm => hs (pickSign_rest s.toList '.' hm))]

/-- The duration of the test file. -/
theorem ParseDuration_example (quote : String → String) (frac : Nat → Nat → Nat → Nat) :
    ParseDuration quote frac "-1h2m3s4ms5us6ns" = .ok (-3723004005006) := by
  rw [ParseDuration_of_no_dot quote frac (fun _ _ _ => 0) _ (by decide)]
  rfl

/-- C24: a field whose type is `time.Duration` is decoded by `time.ParseDuration` and by
no other parser, although its kind is that of a 64 bit signed integer. For a settable
field of type `time.Duration` whose variable holds `s`, in a context whose duration
parser is `ParseDuration`: when `ParseDuration` returns `d` for `s` the field stores the
nanosecond count `d`, and when it returns an error the field keeps its value and the
iteration ends with a `ParseError` that carries the message. The array and slice
branches choose the same decoder for elements of type `time.Duration`. The text
`-1h2m3s4ms5us6ns` is the duration -3723004005006. A literal made of a sign and decimal
digits only, other than zero, is rejected with a `ParseError` (a field of type `int64`
stores 5 for the text `5`). -/
theorem duration_is_decoded_by_its_grammar (ctx : Ctx) (names : List String)
    (name X s : String) (old : Int) (frac : Nat → Nat → Nat → Nat)
    (hX : X ≠ "") (hset : ctx.lookupEnv X = some s)
    (hlib : ctx.parseDuration = ParseDuration ctx.quote frac) :
    (∀ d, ParseDuration ctx.quote frac s = .ok d →
      parseField ctx names ⟨name, some X, true, Duration old⟩ = (Duration d, .ok)) ∧
    (∀ msg, ParseDuration ctx.quote frac s = .error msg →
      parseField ctx names ⟨name, some X, true, Duration old⟩ =
        (Duration old, .err (.ParseError name X msg))) ∧
    elemStep ctx durationType (zero durationType) = some (decodeDuration ctx) ∧
    ParseDuration ctx.quote frac "-1h2m3s4ms5us6ns" = .ok (-3723004005006) ∧
    (∀ (sg : LitSign) (ds : List Nat), ds ≠ [] → ds ≠ [0] → (∀ d ∈ ds, d < 10) →
      s = literal sg .decimal ds →
      ∃ msg, parseField ctx names ⟨name, some X, true, Duration old⟩ =
        (Duration old, .err (.ParseError name X msg))) ∧
    (s = "5" →
      parseField ctx names ⟨name, some X, true, .int 64 old⟩ = (.int 64 5, .ok)) := by
  have hfield := parseField_duration ctx names name X s old hX hset
  rw [hlib] at hfield
  refine ⟨?_, ?_, ?_, ParseDuration_example _ _, ?_, ?_⟩
  · intro d hd
    rw [hd] at hfield
    simp only at hfield
    obtain ⟨h1, h2⟩ := ParseDuration_range _ _ _ _ hd
    rw [hfield, truncInt_64 d h1 h2]
  · intro msg hmsg
    rw [hmsg] at hfield
    exact hfield
  · simp [elemStep, durationType, zero, implementsValue, implementsAddr, GoType.isDuration]
  · intro sg ds hne h0 hds hs
    obtain ⟨msg, hmsg⟩ := ParseDuration_digits ctx.quote frac sg ds hne h0 hds
    rw [hs, hmsg] at hfield
    exact ⟨msg, hfield⟩
  · intro hs
    subst hs
    rw [parseField_int_ok ctx names name X "5" 64 old 5 hX hset (by rfl)]
    rfl

theorem duration_is_decoded_by_its_grammar_witness :
    parseField (durationCtx [("D", "-1h2m3s4ms5us6ns")]) ["V"]
        ⟨"V", some "D", true, Duration 7⟩ = (Duration (-3723004005006), .ok) ∧
    ∃ msg, parseField (durationCtx [("D", "5")]) ["V"] ⟨"V", some "D", true, Duration 7⟩ =
      (Duration 7, .err (.ParseError "V" "D" msg)) :=
  ⟨(duration_is_decoded_by_its_grammar (durationCtx [("D", "-1h2m3s4ms5us6ns")]) ["V"] "V"
      "D" "-1h2m3s4ms5us6ns" 7 (fun f k unit => f * unit / 10 ^ k) (by decide) (by rfl)
      (by rfl)).1 _ (by rfl),
    (duration_is_decoded_by_its_grammar (durationCtx [("D", "5")]) ["V"] "V" "D" "5" 7
      (fun f k unit => f * unit / 10 ^ k) (by decide) (by rfl) (by rfl)).2.2.2.2.1
      .none [5] (by decide) (by decide) (by decide) (by rfl)⟩

end Envigo
